import Mathlib

/-!
CppGPs: the distance engine, the RBF kernel, the NLML objective, the
optimiser glue, the predictor and the sampler.

A shallow embedding of `GPs.cpp` / `GPs.h`.

* Dense Eigen matrices are records of their dimensions and a coefficient
  function; a write changes the function at one index, `resize` changes the
  dimensions and leaves the coefficients unspecified.  A local matrix or vector
  that the program declares without initialising it is an argument of the
  function that declares it.
* The scalar type is a parameter.  The theorems read `double` as the real
  numbers (exact arithmetic) and `std::exp`, `std::log`, `std::atan` as the real
  functions; concrete runs use integers or reals.
* Loops over `boost::irange` are folds over the list of the loop indices.  An
  `int` that holds a row count or a loop counter is a natural number.  The
  `int` product `n*(n-1)` of `pdist` is computed as the program computes it, in
  32 bits with wrap-around (`pdistEntryCount`); `pdistCall` is the outcome of
  the call, which has no result where that product leaves the range of `int`.
* The Cholesky factorisation and the solves of Eigen are arguments (`Eigen`),
  used through their contract.
* The bounded solver is an argument (`Solver`): a strategy that asks for the
  objective at points of its choice and returns a point.  The values of the
  random generator of the sampler are an argument too.
* No function of the program throws or returns an error code; a function is
  modelled by the state and the value it returns.
-/

namespace GP

/-! ## Dense matrices -/

/-- Dense matrix `Eigen::MatrixXd`: its dimensions and its coefficients.  A
`Vector` is a matrix with one column, and `v(i)` is `coeff i 0`. -/
structure Mat (α : Type) where
  rows : Nat
  cols : Nat
  coeff : Nat → Nat → α

namespace Mat

variable {α : Type}

/-- Eigen `resize(r, c)`: new dimensions; the coefficients afterwards are
whatever the buffer holds (nothing is specified about them). -/
def resize (M : Mat α) (r c : Nat) : Mat α :=
  { M with rows := r, cols := c }

/-- Coefficient write `M(i, j) = v`. -/
def set (M : Mat α) (i j : Nat) (v : α) : Mat α :=
  { M with coeff := fun a b => if a = i ∧ b = j then v else M.coeff a b }

/-- Eigen `size()`: number of coefficients. -/
def size (M : Mat α) : Nat := M.rows * M.cols

/-- Eigen `row(i)`: the 1 x cols block holding row `i`. -/
def row (M : Mat α) (i : Nat) : Mat α :=
  { rows := 1, cols := M.cols, coeff := fun _ c => M.coeff i c }

/-- Coefficient-wise difference `A - B` (dimensions of `A`). -/
def sub [Sub α] (A B : Mat α) : Mat α :=
  { rows := A.rows, cols := A.cols, coeff := fun a b => A.coeff a b - B.coeff a b }

/-- Eigen `squaredNorm()`: sum of the squares of all coefficients. -/
def squaredNorm [Add α] [Mul α] [Zero α] (M : Mat α) : α :=
  ((List.range M.rows).map (fun a =>
    ((List.range M.cols).map (fun b => M.coeff a b * M.coeff a b)).sum)).sum

/-- Coefficient-wise map, as in `M.array().exp().matrix()` or `c * M`. -/
def map (f : α → α) (M : Mat α) : Mat α :=
  { M with coeff := fun a b => f (M.coeff a b) }

/-- Coefficient-wise product `(A.array() * B.array()).matrix()`. -/
def cwiseMul [Mul α] (A B : Mat α) : Mat α :=
  { rows := A.rows, cols := A.cols, coeff := fun a b => A.coeff a b * B.coeff a b }

/-- Assignment to `M.diagonal()` from a vector `v`. -/
def setDiagonal (M : Mat α) (v : Nat → α) : Mat α :=
  { M with coeff := fun a b =>
      if a = b ∧ a < min M.rows M.cols then v a else M.coeff a b }

/-- Eigen `trace()`: sum of the diagonal coefficients. -/
def trace [Add α] [Zero α] (M : Mat α) : α :=
  ((List.range (min M.rows M.cols)).map (fun a => M.coeff a a)).sum

/-- Eigen `transpose()`. -/
def transpose (M : Mat α) : Mat α :=
  { rows := M.cols, cols := M.rows, coeff := fun a b => M.coeff b a }

/-- Matrix product `A * B`. -/
def mul [Add α] [Mul α] [Zero α] (A B : Mat α) : Mat α :=
  { rows := A.rows, cols := B.cols,
    coeff := fun a b => ((List.range A.cols).map (fun k => A.coeff a k * B.coeff k b)).sum }

/-- Product with a scalar on the right, `M * c`. -/
def mulScalar [Mul α] (M : Mat α) (c : α) : Mat α := M.map (fun x => x * c)

/-- `Matrix::Identity(r, c)`. -/
def identity [Zero α] [One α] (r c : Nat) : Mat α :=
  { rows := r, cols := c, coeff := fun a b => if a = b then 1 else 0 }

/-- Eigen `diagonal()`, as a column vector. -/
def diagonal (M : Mat α) : Mat α :=
  { rows := min M.rows M.cols, cols := 1, coeff := fun a _ => M.coeff a a }

/-- Eigen `sum()`: sum of all coefficients. -/
def sum [Add α] [Zero α] (M : Mat α) : α :=
  ((List.range M.rows).map (fun a =>
    ((List.range M.cols).map (fun b => M.coeff a b)).sum)).sum

/-- The r x c block of coefficients as a matrix of Mathlib. -/
def toMatrix (M : Mat α) (r c : Nat) : Matrix (Fin r) (Fin c) α :=
  Matrix.of (fun i j => M.coeff i.val j.val)

/-- Column `0` as a vector of Mathlib. -/
def toVec (M : Mat α) (r : Nat) : Fin r → α := fun i => M.coeff i.val 0

/-- Matrix from the list of its rows. -/
def ofRows [Zero α] (l : List (List α)) : Mat α :=
  { rows := l.length, cols := (l.headD []).length,
    coeff := fun i j => (l.getD i []).getD j 0 }

/-- Column vector from the list of its entries. -/
def ofCol [Zero α] (l : List α) : Mat α :=
  { rows := l.length, cols := 1, coeff := fun i _ => l.getD i 0 }

end Mat

/-! ## The distance engine -/

/-- Loop indices of `boost::irange(first, last)`: `first, ..., last - 1`. -/
def irange (first last : Nat) : List Nat := List.range' first (last - first)

/-- State of the double loop shared by `pdist` and `squareForm`: the matrix
being written, the running index `k`, and a log of the accesses to the
condensed vector, one entry `(i, j, k)` per visit of the pair `(i, j)`. -/
structure Fill (α : Type) where
  M : Mat α
  k : Nat
  log : List (Nat × Nat × Nat)

variable {α : Type}

/-- Value of the 32-bit `int` that is to hold the exact integer `z`: two's
complement wrap-around, which is what the compiled program computes where an
`int` expression leaves the range `-2^31 .. 2^31 - 1` (the language leaves a
signed overflow undefined). -/
def wrapInt (z : Int) : Int := (z + 2147483648) % 4294967296 - 2147483648

/-- The `entryCount` of `GP::pdist`, `static_cast<int>((n*(n-1))/2)` for the
`int` row count `n`: the product is formed in `int`, the division by 2
truncates towards zero. -/
def pdistEntryCount (n : Nat) : Int :=
  Int.tdiv (wrapInt ((n : Int) * ((n : Int) - 1))) 2

/-- The statements of `GP::pdist`: `Dv.resize(entryCount, 1)`, then
`Dv(k++) = (X1.row(i) - X2.row(j)).squaredNorm()` for `i` in `irange(0, n-1)`
and `j` in `irange(i+1, n)`.  A negative `entryCount` is no size: the state
then has no row, and `pdistCall` has no result. -/
def pdistLoop [CommRing α] (Dv X1 X2 : Mat α) : Fill α :=
  let n := X1.rows
  let entryCount := pdistEntryCount n
  (irange 0 (n - 1)).foldl
    (fun s i => (irange (i + 1) n).foldl
      (fun s j =>
        { M := s.M.set s.k 0 ((X1.row i).sub (X2.row j)).squaredNorm,
          k := s.k + 1,
          log := s.log ++ [(i, j, s.k)] }) s)
    { M := Dv.resize entryCount.toNat 1, k := 0, log := [] }

/-- The condensed vector `GP::pdist(Dv, X1, X2)` leaves in `Dv` when the call
returns (`pdistCall`). -/
def pdist [CommRing α] (Dv X1 X2 : Mat α) : Mat α := (pdistLoop Dv X1 X2).M

/-- Outcome of the call `pdist(Dv, X1, X2)`: the vector left in `Dv`, or nothing.
There is no result when `irange(0, n-1)` is no range (`n = 0`), when
`entryCount` is negative (`Dv.resize(entryCount, 1)` is given no size), or when
a write `Dv(k++)` of the loop falls outside the `entryCount` coefficients of
`Dv`. -/
def pdistCall [CommRing α] (Dv X1 X2 : Mat α) : Option (Mat α) :=
  let n := X1.rows
  let entryCount := pdistEntryCount n
  if n = 0 ∨ entryCount < 0 then none
  else if (pdistLoop Dv X1 X2).log.all (fun e => decide (e.2.2 < entryCount.toNat))
  then some (pdist Dv X1 X2)
  else none

/-- The loop of `GP::squareForm`: `D(i,j) = D(j,i) = Dv(k++, 0)`. -/
def squareFormLoop (D Dv : Mat α) (n : Nat) : Fill α :=
  (irange 0 (n - 1)).foldl
    (fun s i => (irange (i + 1) n).foldl
      (fun s j =>
        { M := (s.M.set j i (Dv.coeff s.k 0)).set i j (Dv.coeff s.k 0),
          k := s.k + 1,
          log := s.log ++ [(i, j, s.k)] }) s)
    { M := D.resize n n, k := 0, log := [] }

/-- The matrix `GP::squareForm(D, Dv, n, diagVal)` leaves in `D`; the last
statement is `D.diagonal() = diagVal * Ones(n,1)`. -/
def squareForm [Mul α] [One α] (D Dv : Mat α) (n : Nat) (diagVal : α) : Mat α :=
  (squareFormLoop D Dv n).M.setDiagonal (fun _ => diagVal * 1)

/-- Position of the pair `(i, j)`, `i < j < n`, in the condensed vector, as in
the closed form of `squareFormParallel`. -/
def condensedIndex (n i j : Nat) : Nat := i * n - (i * (i + 1)) / 2 + (j - i - 1)

/-! ## The pair enumeration -/

/-- Pairs visited by the inner loop for a fixed `i`: `(i, i+1), ..., (i, n-1)`. -/
def pairRow (n i : Nat) : List (Nat × Nat) := (irange (i + 1) n).map (fun j => (i, j))

/-- The enumeration "i ascending, then j > i ascending" of the pairs `i < j < n`. -/
def pairs (n : Nat) : List (Nat × Nat) := (irange 0 (n - 1)).flatMap (pairRow n)

/-- The enumeration together with the closed-form position of every pair. -/
def canonicalLog (n : Nat) : List (Nat × Nat × Nat) :=
  (pairs n).map (fun p => (p.1, p.2, condensedIndex n p.1 p.2))

/-! ## Kernels -/

/-- State of a `GP::Kernel`: the members declared in `GPs.h` and the work
buffers `Kv`, `dK_iv`, `dK_i` that `RBF::computeCov` assigns. -/
structure Kernel (α : Type) where
  kernelParams : Mat α
  paramCount : Nat
  noiseLevel : α
  scalingLevel : α
  fixedNoise : Bool
  fixedScaling : Bool
  Kv : Mat α
  dK_iv : Mat α
  dK_i : Mat α

namespace Kernel

/-- `void setNoise(double noise) { noiseLevel = noise; fixedNoise = true; }` -/
def setNoise (k : Kernel α) (noise : α) : Kernel α :=
  { k with noiseLevel := noise, fixedNoise := true }

/-- `void setScaling(double scaling) { scalingLevel = scaling; fixedScaling = true; }` -/
def setScaling (k : Kernel α) (scaling : α) : Kernel α :=
  { k with scalingLevel := scaling, fixedScaling := true }

/-- `void setParams(Vector params) { kernelParams = params; }` -/
def setParams (k : Kernel α) (params : Mat α) : Kernel α :=
  { k with kernelParams := params }

/-- `int getParamCount() { return paramCount; }` -/
def getParamCount (k : Kernel α) : Nat := k.paramCount

/-- `Vector getParams() { return kernelParams; }` -/
def getParams (k : Kernel α) : Mat α := k.kernelParams

end Kernel

namespace RBF

/-- Constructor `RBF() : Kernel(Vector(1), 1) { kernelParams(0)=1.0; }`.  The
members the constructor leaves uninitialised are arguments. -/
def new [Field α] (noiseLevel scalingLevel : α) (Kv dK_iv dK_i : Mat α) : Kernel α :=
  { kernelParams := Mat.ofCol [1.0], paramCount := 1,
    noiseLevel := noiseLevel, scalingLevel := scalingLevel,
    fixedNoise := false, fixedScaling := false,
    Kv := Kv, dK_iv := dK_iv, dK_i := dK_i }

/-- `GP::RBF::evalDistKernel(d, params, n)`; the default case prints
"UNDEFINED DERIVATIVE" and returns `0.0`. -/
def evalDistKernel [Field α] (exp : α → α) (d : α) (params : Mat α) (n : Int) : α :=
  match n with
  | 0 => exp (-d / (2.0 * (params.coeff 0 0) ^ 2))
  | 1 => d / (params.coeff 0 0) ^ 2 * exp (-d / (2.0 * (params.coeff 0 0) ^ 2))
  | _ => 0.0

/-- What `RBF::computeCov` produces: the kernel with its buffers assigned, the
covariance matrix left in `K`, and the returned `gradList`. -/
structure CovResult (α : Type) where
  kernel : Kernel α
  K : Mat α
  gradList : List (Mat α)

/-- The covariance part of `GP::RBF::computeCov`: the buffer `Kv`, the matrix
`K` and `lengthIndex`, by the branch on `params.size() > paramCount`. -/
def covBranch [Field α] (exp : α → α) (ker : Kernel α) (K Dv params : Mat α) (jitter : α) :
    Mat α × Mat α × Nat :=
  let n := K.rows
  if params.size > ker.paramCount then
    let Kv := (Dv.map (fun d => (-0.5 / (params.coeff 1 0) ^ 2) * d)).map exp
    (Kv, squareForm K Kv n (1.0 + params.coeff 0 0 + jitter), 1)
  else
    let Kv := (Dv.map (fun d => (-0.5 / (params.coeff 0 0) ^ 2) * d)).map exp
    (Kv, squareForm K Kv n (1.0 + ker.noiseLevel + jitter), 0)

/-- `GP::RBF::computeCov(K, Dv, params, jitter, evalGrad)` of `GPs.cpp`, with
`std::exp` as the argument `exp`. -/
def computeCov [Field α] (exp : α → α) (ker : Kernel α) (K Dv params : Mat α) (jitter : α)
    (evalGrad : Bool) : CovResult α :=
  let n := K.rows
  let Kv := (covBranch exp ker K Dv params jitter).1
  let K1 := (covBranch exp ker K Dv params jitter).2.1
  let lengthIndex := (covBranch exp ker K Dv params jitter).2.2
  if evalGrad then
    let dK_iv := (Dv.cwiseMul Kv).map (fun x => 1 / (params.coeff lengthIndex 0) ^ 2 * x)
    let dK_i := squareForm ker.dK_i dK_iv n 0.0
    { kernel := { ker with Kv := Kv, dK_iv := dK_iv, dK_i := dK_i },
      K := K1, gradList := [dK_i] }
  else
    { kernel := { ker with Kv := Kv }, K := K1, gradList := [] }

end RBF

/-! ## The Gaussian process -/

/-- The functions of `<cmath>` the program calls. -/
structure Libm (α : Type) where
  exp : α → α
  log : α → α
  atan : α → α

/-- The dense linear algebra taken from Eigen: `llt K` is the factor
`K.llt().matrixL()`, `lltSolve L B` is `cholesky.solve(B)` for the
factorisation with factor `L`, and `triSolve L B` is what
`L.triangularView<Eigen::Lower>().solveInPlace(B)` leaves in `B`. -/
structure Eigen (α : Type) where
  llt : Mat α → Mat α
  lltSolve : Mat α → Mat α → Mat α
  triSolve : Mat α → Mat α → Mat α

/-- State of a `GP::GaussianProcess`: the members of `GPs.h` that the functions
below read or write, and the members `K`, `distMatrix`, `_alpha`, `term`,
`cppOptLibgrad` that `GPs.cpp` uses; `cholesky` holds the factor of the
`Eigen::LLT` member. -/
structure GaussianProcess (α : Type) where
  kernel : Kernel α
  noiseLevel : α
  fixedNoise : Bool
  scalingLevel : α
  fixedScaling : Bool
  jitter : α
  cholesky : Mat α
  lowerBounds : Mat α
  upperBounds : Mat α
  fixedBounds : Bool
  obsX : Mat α
  obsY : Mat α
  predX : Mat α
  predMean : Mat α
  predCov : Mat α
  paramCount : Nat
  augParamCount : Nat
  K : Mat α
  distMatrix : Mat α
  _alpha : Mat α
  term : Mat α
  cppOptLibgrad : Mat α

namespace GaussianProcess

/-- Constructor `GaussianProcess() { }` with the default member initialisers of
`GPs.h`; matrices start empty, and the members left uninitialised (the kernel
pointer, `paramCount`, `augParamCount`) are arguments. -/
def new [Field α] (kernel : Kernel α) (paramCount augParamCount : Nat) : GaussianProcess α :=
  { kernel := kernel, noiseLevel := 0.0, fixedNoise := false, scalingLevel := 1.0,
    fixedScaling := false, jitter := 1e-10,
    cholesky := ⟨0, 0, fun _ _ => 0⟩,
    lowerBounds := ⟨0, 1, fun _ _ => 0⟩, upperBounds := ⟨0, 1, fun _ _ => 0⟩,
    fixedBounds := false,
    obsX := ⟨0, 0, fun _ _ => 0⟩, obsY := ⟨0, 0, fun _ _ => 0⟩,
    predX := ⟨0, 0, fun _ _ => 0⟩, predMean := ⟨0, 0, fun _ _ => 0⟩,
    predCov := ⟨0, 0, fun _ _ => 0⟩,
    paramCount := paramCount, augParamCount := augParamCount,
    K := ⟨0, 0, fun _ _ => 0⟩, distMatrix := ⟨0, 0, fun _ _ => 0⟩,
    _alpha := ⟨0, 0, fun _ _ => 0⟩, term := ⟨0, 0, fun _ _ => 0⟩,
    cppOptLibgrad := ⟨0, 1, fun _ _ => 0⟩ }

/-- `void setObs(Matrix & x, Matrix & y) { obsX = x; obsY = y; }` -/
def setObs (gp : GaussianProcess α) (x y : Mat α) : GaussianProcess α :=
  { gp with obsX := x, obsY := y }

/-- `void setKernel(Kernel & k) { kernel = &k; }` -/
def setKernel (gp : GaussianProcess α) (k : Kernel α) : GaussianProcess α :=
  { gp with kernel := k }

/-- `void setPred(Matrix & px) { predX = px; }` -/
def setPred (gp : GaussianProcess α) (px : Mat α) : GaussianProcess α :=
  { gp with predX := px }

/-- `void setNoise(double noise) { fixedNoise = true; noiseLevel = noise; }` -/
def setNoise (gp : GaussianProcess α) (noise : α) : GaussianProcess α :=
  { gp with fixedNoise := true, noiseLevel := noise }

/-- `void setBounds(Vector & lbs, Vector & ubs)
{ lowerBounds = lbs; upperBounds = ubs; fixedBounds=true; }` -/
def setBounds (gp : GaussianProcess α) (lbs ubs : Mat α) : GaussianProcess α :=
  { gp with lowerBounds := lbs, upperBounds := ubs, fixedBounds := true }

end GaussianProcess

/-- `static const double PI = std::atan(1)*4;` -/
def PI [Field α] (F : Libm α) : α := F.atan 1 * 4

/-- `GP::GaussianProcess::computeDistMat()`. -/
def computeDistMat [Field α] (gp : GaussianProcess α) : GaussianProcess α :=
  { gp with distMatrix := pdist gp.distMatrix gp.obsX gp.obsX }

/-- What `evalNLML` produces: the model with its caches overwritten, the
gradient vector `g`, the indices of `g` it wrote (in order), and the returned
value. -/
structure NLMLResult (α : Type) where
  gp : GaussianProcess α
  g : Mat α
  gWrites : List Nat
  value : α

/-- The loop `for (dK_i = gradList.begin(); ...) g(index++) = 0.5 * (term * (*dK_i)).trace()`;
the state is `(g, index, writes)`. -/
def gradLoop [Field α] (term : Mat α) (gradList : List (Mat α))
    (s : Mat α × Nat × List Nat) : Mat α × Nat × List Nat :=
  gradList.foldl
    (fun s dK => (s.1.set s.2.1 0 (0.5 * (term.mul dK).trace), s.2.1 + 1, s.2.2 ++ [s.2.1])) s

/-- `GP::GaussianProcess::evalNLML(p, g, evalGrad)`. -/
def evalNLML [Field α] (F : Libm α) (E : Eigen α) (gp : GaussianProcess α) (p g : Mat α)
    (evalGrad : Bool) : NLMLResult α :=
  let n := gp.obsX.rows
  let params := p.map F.exp
  let cov := RBF.computeCov F.exp gp.kernel (gp.K.resize n n) gp.distMatrix params gp.jitter
    evalGrad
  let cholesky := E.llt cov.K
  let alpha := E.lltSolve cholesky gp.obsY
  let v1 := 0.5 * (gp.obsY.transpose.mul alpha).coeff 0 0
  let v2 := v1 + (cholesky.diagonal.map F.log).sum
  let v3 := v2 + 0.5 * (n : α) * F.log (2 * PI F)
  if evalGrad then
    let term := (E.lltSolve cholesky (Mat.identity n n)).sub (alpha.mul alpha.transpose)
    let s0 : Mat α × Nat × List Nat :=
      if !gp.fixedNoise then
        (g.set 0 0 (0.5 * (term.mulScalar (params.coeff 0 0)).trace), 1, [0])
      else (g, 0, [])
    let s1 := gradLoop term cov.gradList s0
    { gp := { gp with kernel := cov.kernel, K := cov.K, cholesky := cholesky, _alpha := alpha,
                      term := term },
      g := s1.1, gWrites := s1.2.2, value := v3 }
  else
    { gp := { gp with kernel := cov.kernel, K := cov.K, cholesky := cholesky, _alpha := alpha },
      g := g, gWrites := [], value := v3 }

/-- The contract of Eigen's `LLT` on n x n matrices that the objective relies
on: for a positive definite `A`, `llt A` is the n x n lower-triangular factor
with positive diagonal and `L * Lᵀ = A`, and `lltSolve (llt A) B` is `A⁻¹ * B`. -/
def LLTContract (E : Eigen ℝ) (n : Nat) : Prop :=
  ∀ A : Mat ℝ, A.rows = n → A.cols = n → (A.toMatrix n n).PosDef →
    (E.llt A).rows = n ∧ (E.llt A).cols = n ∧
    (∀ i j, i < j → j < n → (E.llt A).coeff i j = 0) ∧
    (∀ i, i < n → 0 < (E.llt A).coeff i i) ∧
    (E.llt A).toMatrix n n * ((E.llt A).toMatrix n n).transpose = A.toMatrix n n ∧
    ∀ B : Mat ℝ, B.rows = n →
      (E.lltSolve (E.llt A) B).rows = n ∧ (E.lltSolve (E.llt A) B).cols = B.cols ∧
      (E.lltSolve (E.llt A) B).toMatrix n B.cols = (A.toMatrix n n)⁻¹ * B.toMatrix n B.cols

/-- Cholesky factorisation and solves for 2 x 2 matrices, written out, with the
square root as an argument: an instance of the linear algebra for the runs on
two observations. -/
def llt2 [Field α] (sqrt : α → α) : Eigen α :=
  { llt := fun A =>
      Mat.ofRows [[sqrt (A.coeff 0 0), 0],
        [A.coeff 1 0 / sqrt (A.coeff 0 0),
          sqrt (A.coeff 1 1 - A.coeff 1 0 * A.coeff 1 0 / A.coeff 0 0)]]
    lltSolve := fun L B =>
      { rows := 2, cols := B.cols,
        coeff := fun i j =>
          if i = 0 then
            ((L.coeff 1 0 * L.coeff 1 0 + L.coeff 1 1 * L.coeff 1 1) * B.coeff 0 j
              - L.coeff 0 0 * L.coeff 1 0 * B.coeff 1 j)
              / (L.coeff 0 0 * L.coeff 0 0 * (L.coeff 1 0 * L.coeff 1 0 + L.coeff 1 1 * L.coeff 1 1)
                  - L.coeff 0 0 * L.coeff 1 0 * (L.coeff 0 0 * L.coeff 1 0))
          else
            (L.coeff 0 0 * L.coeff 0 0 * B.coeff 1 j - L.coeff 0 0 * L.coeff 1 0 * B.coeff 0 j)
              / (L.coeff 0 0 * L.coeff 0 0 * (L.coeff 1 0 * L.coeff 1 0 + L.coeff 1 1 * L.coeff 1 1)
                  - L.coeff 0 0 * L.coeff 1 0 * (L.coeff 0 0 * L.coeff 1 0)) }
    triSolve := fun L B =>
      { rows := 2, cols := B.cols,
        coeff := fun i j =>
          if i = 0 then B.coeff 0 j / L.coeff 0 0
          else (B.coeff 1 j - L.coeff 1 0 * (B.coeff 0 j / L.coeff 0 0)) / L.coeff 1 1 } }

/-! ## More of Eigen -/

namespace Mat

/-- Coefficient-wise sum `A + B` (dimensions of `A`). -/
def add [Add α] (A B : Mat α) : Mat α :=
  { rows := A.rows, cols := A.cols, coeff := fun a b => A.coeff a b + B.coeff a b }

/-- `Eigen::MatrixXd::Ones(r, c)`. -/
def ones [One α] (r c : Nat) : Mat α :=
  { rows := r, cols := c, coeff := fun _ _ => 1 }

/-- `Eigen::MatrixXd::Zero(r, c)`. -/
def zero [Zero α] (r c : Nat) : Mat α :=
  { rows := r, cols := c, coeff := fun _ _ => 0 }

/-- Eigen `replicate(rowFactor, colFactor)`: the matrix tiled. -/
def replicate (M : Mat α) (rowFactor colFactor : Nat) : Mat α :=
  { rows := M.rows * rowFactor, cols := M.cols * colFactor,
    coeff := fun a b => M.coeff (a % M.rows) (b % M.cols) }

/-- Eigen `head(k)` of a vector: its first `k` coefficients. -/
def head (v : Mat α) (k : Nat) : Mat α :=
  { rows := k, cols := 1, coeff := fun a _ => v.coeff a 0 }

/-- Eigen `tail(k)` of a vector: its last `k` coefficients. -/
def tail (v : Mat α) (k : Nat) : Mat α :=
  { rows := k, cols := 1, coeff := fun a _ => v.coeff (v.size - k + a) 0 }

/-- `X.rowwise() - r` for a row vector `r`: `r` subtracted from every row. -/
def rowwiseSub [Sub α] (X r : Mat α) : Mat α :=
  { rows := X.rows, cols := X.cols, coeff := fun a b => X.coeff a b - r.coeff 0 b }

/-- `M.rowwise().squaredNorm()`: the column vector of the squared norms of the
rows. -/
def rowwiseSquaredNorm [Add α] [Mul α] [Zero α] (M : Mat α) : Mat α :=
  { rows := M.rows, cols := 1,
    coeff := fun a _ => ((List.range M.cols).map (fun b => M.coeff a b * M.coeff a b)).sum }

/-- Assignment `K.col(j) = v`: the `K.rows` coefficients of column `j` are
overwritten with those of the vector `v`. -/
def setCol (K : Mat α) (j : Nat) (v : Mat α) : Mat α :=
  { K with coeff := fun a b => if b = j ∧ a < K.rows then v.coeff a 0 else K.coeff a b }

end Mat

namespace RBF

/-- `GP::RBF::computeCrossCov(K, X1, X2, params)`: for `j` in `irange(0, m)`,
`K.col(j) = ((X1.rowwise() - X2.row(j)).rowwise().squaredNorm()).unaryExpr(lambda)`
with `lambda(d) = evalDistKernel(d, params, 0)`.  It is a member of the kernel
`ker`, of which it reads nothing. -/
def computeCrossCov [Field α] (exp : α → α) (_ker : Kernel α) (K X1 X2 params : Mat α) : Mat α :=
  let m := X2.rows
  (irange 0 m).foldl
    (fun K j => K.setCol j
      (((X1.rowwiseSub (X2.row j)).rowwiseSquaredNorm).map
        (fun d => evalDistKernel exp d params 0))) K

end RBF

namespace GaussianProcess

/-- `double getNoise() { return noiseLevel; }` -/
def getNoise (gp : GaussianProcess α) : α := gp.noiseLevel

/-- `Vector getParams() { return (*kernel).getParams(); }` -/
def getParams (gp : GaussianProcess α) : Mat α := gp.kernel.getParams

/-- `Matrix getPredMean() { return predMean; }` -/
def getPredMean (gp : GaussianProcess α) : Mat α := gp.predMean

/-- `Matrix getPredVar()
{ return predCov.diagonal() + noiseLevel*Eigen::VectorXd::Ones(predMean.size()); }` -/
def getPredVar [Field α] (gp : GaussianProcess α) : Mat α :=
  gp.predCov.diagonal.add ((Mat.ones gp.predMean.size 1).map (fun x => gp.noiseLevel * x))

end GaussianProcess

/-- `evalNLML(p)`: the interface without gradient,
`Vector nullGrad(0); return evalNLML(p, nullGrad, false);`. -/
def evalNLML1 [Field α] (F : Libm α) (E : Eigen α) (gp : GaussianProcess α) (p : Mat α) :
    NLMLResult α :=
  evalNLML F E gp p ⟨0, 1, fun _ _ => 0⟩ false

/-! ## Bounds -/

/-- What `parseBounds` leaves in `lbs` and `ubs`, and the indices at which it
read the caller's `lowerBounds` and `upperBounds`, in order. -/
structure Bounds (α : Type) where
  lbs : Mat α
  ubs : Mat α
  readsLower : List Nat
  readsUpper : List Nat

/-- `GP::GaussianProcess::parseBounds(lbs, ubs, augParamCount)`. -/
def parseBounds [Field α] (F : Libm α) (gp : GaussianProcess α) (lbs ubs : Mat α)
    (augParamCount : Nat) : Bounds α :=
  let lbs := lbs.resize augParamCount 1
  let ubs := ubs.resize augParamCount 1
  let defaultLowerBound : α := 0.00001
  let defaultUpperBound : α := 5.0
  if gp.fixedBounds then
    if gp.lowerBounds.size < augParamCount then
      (irange 1 augParamCount).foldl
        (fun s bi =>
          { lbs := s.lbs.set bi 0 (F.log (gp.lowerBounds.coeff (bi - 1) 0)),
            ubs := s.ubs.set bi 0 (F.log (gp.upperBounds.coeff (bi - 1) 0)),
            readsLower := s.readsLower ++ [bi - 1],
            readsUpper := s.readsUpper ++ [bi - 1] })
        { lbs := lbs.set 0 0 (F.log defaultLowerBound),
          ubs := ubs.set 0 0 (F.log defaultUpperBound),
          readsLower := [], readsUpper := [] }
    else
      { lbs := gp.lowerBounds.map F.log, ubs := gp.upperBounds.map F.log,
        readsLower := List.range gp.lowerBounds.size,
        readsUpper := List.range gp.upperBounds.size }
  else
    { lbs := ((Mat.ones augParamCount 1).map (fun x => defaultLowerBound * x)).map F.log,
      ubs := ((Mat.ones augParamCount 1).map (fun x => defaultUpperBound * x)).map F.log,
      readsLower := [], readsUpper := [] }

/-! ## The optimiser -/

/-- The bounded solver `cppoptlib::LbfgsbSolver`, taken through its interface:
from the bounds, the starting point and the points, values and gradients seen
so far it asks for the objective at one more point (`next`) or stops, and
`result` is the point it leaves in `optParams`; `maxEvals` caps the number of
evaluations. -/
structure Solver (α : Type) where
  maxEvals : Nat
  next : Mat α → Mat α → Mat α → List (Mat α × α × Mat α) → Option (Mat α)
  result : Mat α → Mat α → Mat α → List (Mat α × α × Mat α) → Mat α

/-- Modelled from the spec: the members through which the solver evaluates the
objective are not in `GPs.h` as given (its last lines keep them as a comment:
`value(p)` returns `evalNLML(p, cppOptLibgrad, true)` and `gradient(p, g)` copies
`cppOptLibgrad`).  One evaluation at `p` returns the value and the gradient and
leaves the gradient in `cppOptLibgrad`. -/
def objective [Field α] (F : Libm α) (E : Eigen α) (gp : GaussianProcess α) (p : Mat α) :
    NLMLResult α :=
  let r := evalNLML F E gp p gp.cppOptLibgrad true
  { r with gp := { r.gp with cppOptLibgrad := r.g } }

/-- `solver.minimize(*this, optParams)`: the solver evaluates the objective on
the model until it stops or has used its evaluations; the result is the
model with the caches the evaluations left and the point of the solver. -/
def minimize [Field α] (F : Libm α) (E : Eigen α) (S : Solver α) (lbs ubs x0 : Mat α) :
    Nat → GaussianProcess α → List (Mat α × α × Mat α) → GaussianProcess α × Mat α
  | 0, gp, h => (gp, S.result lbs ubs x0 h)
  | fuel + 1, gp, h =>
    match S.next lbs ubs x0 h with
    | none => (gp, S.result lbs ubs x0 h)
    | some p =>
      minimize F E S lbs ubs x0 fuel (objective F E gp p).gp
        (h ++ [(p, (objective F E gp p).value, (objective F E gp p).g)])

/-- What `fitModel` produces: the fitted model, the bounds handed to the solver
and the point (in log space) the solver returned. -/
structure FitResult (α : Type) where
  gp : GaussianProcess α
  lbs : Mat α
  ubs : Mat α
  solverPoint : Mat α

/-- The statements of `fitModel` before the bounds are parsed: the parameter
counts, the noise handed to the kernel when it is fixed, the distance matrix
and the size of `cppOptLibgrad`. -/
def fitSetup [Field α] (gp : GaussianProcess α) : GaussianProcess α :=
  let paramCount := gp.kernel.getParamCount
  let augParamCount := if gp.fixedNoise then paramCount else paramCount + 1
  let gp1 := { gp with paramCount := paramCount, augParamCount := augParamCount }
  let gp2 := if gp1.fixedNoise then { gp1 with kernel := gp1.kernel.setNoise gp1.noiseLevel }
    else gp1
  let gp3 := computeDistMat gp2
  { gp3 with cppOptLibgrad := gp3.cppOptLibgrad.resize augParamCount 1 }

/-- `GP::GaussianProcess::fitModel()`, from the parsing of the bounds on.  The
last call of `computeCov` passes three arguments; the default values of
`jitter` and `evalGrad` are in the declaration, which `GPs.h` as given does not
have, and are the arguments `covJitter`, `covEvalGrad`.  `lbs0`, `ubs0` are the
local vectors as declared. -/
def fitModel [Field α] (F : Libm α) (E : Eigen α) (S : Solver α) (covJitter : α)
    (covEvalGrad : Bool) (gp : GaussianProcess α) (lbs0 ubs0 : Mat α) : FitResult α :=
  let gp4 := fitSetup gp
  let b := parseBounds F gp4 lbs0 ubs0 gp4.augParamCount
  let run := minimize F E S b.lbs b.ubs (Mat.zero gp4.augParamCount 1) S.maxEvals gp4 []
  let gp5 := run.1
  let optParams := run.2.map F.exp
  let cov := RBF.computeCov F.exp gp5.kernel gp5.K gp5.distMatrix optParams covJitter covEvalGrad
  let cholesky := E.llt cov.K
  let gp6 := { gp5 with kernel := cov.kernel, K := cov.K, cholesky := cholesky,
                        _alpha := E.lltSolve cholesky gp5.obsY }
  if !gp6.fixedNoise then
    { gp := { gp6 with noiseLevel := (optParams.head 1).coeff 0 0,
                       kernel := gp6.kernel.setParams (optParams.tail (gp6.augParamCount - 1)) },
      lbs := b.lbs, ubs := b.ubs, solverPoint := run.2 }
  else
    { gp := { gp6 with kernel := gp6.kernel.setParams optParams },
      lbs := b.lbs, ubs := b.ubs, solverPoint := run.2 }

/-- The members of the model that an evaluation of the objective leaves alone
are the same in `a` and `b`: everything but the caches `K`, `cholesky`,
`_alpha`, `term`, `cppOptLibgrad` and the work buffers of the kernel. -/
def SameSettings (a b : GaussianProcess α) : Prop :=
  a.kernel.kernelParams = b.kernel.kernelParams ∧ a.kernel.paramCount = b.kernel.paramCount ∧
  a.kernel.noiseLevel = b.kernel.noiseLevel ∧ a.kernel.scalingLevel = b.kernel.scalingLevel ∧
  a.kernel.fixedNoise = b.kernel.fixedNoise ∧ a.kernel.fixedScaling = b.kernel.fixedScaling ∧
  a.noiseLevel = b.noiseLevel ∧ a.fixedNoise = b.fixedNoise ∧
  a.scalingLevel = b.scalingLevel ∧ a.fixedScaling = b.fixedScaling ∧ a.jitter = b.jitter ∧
  a.lowerBounds = b.lowerBounds ∧ a.upperBounds = b.upperBounds ∧
  a.fixedBounds = b.fixedBounds ∧ a.obsX = b.obsX ∧ a.obsY = b.obsY ∧ a.predX = b.predX ∧
  a.predMean = b.predMean ∧ a.predCov = b.predCov ∧ a.paramCount = b.paramCount ∧
  a.augParamCount = b.augParamCount ∧ a.distMatrix = b.distMatrix

/-! ## Prediction and sampling -/

/-- `GP::GaussianProcess::predict()`; `kstar0`, `kstarmat0` are the local
matrices as declared. -/
def predict [Field α] (F : Libm α) (E : Eigen α) (gp : GaussianProcess α)
    (kstar0 kstarmat0 : Mat α) : GaussianProcess α :=
  let n := gp.obsX.rows
  let m := gp.predX.rows
  let params := gp.kernel.getParams
  let kstar := RBF.computeCrossCov F.exp gp.kernel (kstar0.resize n m) gp.obsX gp.predX params
  let kstarmat :=
    RBF.computeCrossCov F.exp gp.kernel (kstarmat0.resize m m) gp.predX gp.predX params
  let cholMat := gp.cholesky
  let v := E.triSolve cholMat kstar
  { gp with predMean := kstar.transpose.mul gp._alpha,
            predCov := kstarmat.sub (v.transpose.mul v) }

/-- The loop of `getSamples` that fills `uVals`: `uVals(i,j) = normal(generator)`
for `i` in `irange(0, n)` and `j` in `irange(0, count)`; `draw k` is the value of
the `k`-th call of `normal(generator)`, and the log records `(i, j, k)`. -/
def uValsLoop (draw : Nat → α) (uVals : Mat α) (n count : Nat) : Fill α :=
  (irange 0 n).foldl
    (fun s i => (irange 0 count).foldl
      (fun s j =>
        { M := s.M.set i j (draw s.k), k := s.k + 1, log := s.log ++ [(i, j, s.k)] }) s)
    { M := uVals.resize n count, k := 0, log := [] }

/-- `GP::GaussianProcess::getSamples(count)`, with the values of the random
generator as the argument `draw`. -/
def getSamples [Field α] (E : Eigen α) (gp : GaussianProcess α) (draw : Nat → α)
    (uVals0 : Mat α) (count : Nat) : Mat α :=
  let n := gp.predX.rows
  let uVals := (uValsLoop draw uVals0 n count).M
  let L := E.llt (gp.predCov.add
    ((Mat.identity gp.predCov.cols gp.predCov.cols).map
      (fun x => (gp.noiseLevel + gp.jitter) * x)))
  (gp.predMean.replicate 1 count).add (L.mul uVals)

/-- The logarithms `computeNLML(p, noise)` passes to `evalNLML`; `logparams0` is
the content of `Vector logparams(augParamCount)` as constructed. -/
def computeNLMLPoint [Field α] (F : Libm α) (gp : GaussianProcess α) (logparams0 p : Mat α)
    (noise : α) : Mat α :=
  let logparams := logparams0.resize gp.augParamCount 1
  if !gp.fixedNoise then
    (irange 1 gp.augParamCount).foldl
      (fun lp i => lp.set i 0 (F.log (p.coeff (i - 1) 0)))
      (logparams.set 0 0 (F.log noise))
  else
    logparams.map F.log

/-- `GP::GaussianProcess::computeNLML(p, noise)`. -/
def computeNLML [Field α] (F : Libm α) (E : Eigen α) (gp : GaussianProcess α)
    (logparams0 p : Mat α) (noise : α) : NLMLResult α :=
  evalNLML1 F E gp (computeNLMLPoint F gp logparams0 p noise)

/-! ## Concrete data for the instances -/

/-- Three points of the plane: (0,0), (3,4), (1,1). -/
def pointsZ : Mat ℤ := Mat.ofRows [[0, 0], [3, 4], [1, 1]]

/-- An unsized matrix with arbitrary content, as a freshly declared `Matrix`. -/
def freshZ : Mat ℤ := { rows := 0, cols := 0, coeff := fun _ _ => 7 }

/-- An unsized real matrix with arbitrary content. -/
def freshR : Mat ℝ := { rows := 0, cols := 0, coeff := fun _ _ => 7 }

/-- A 3 x 3 real matrix with arbitrary content, as `K` after `K.resize(3,3)`. -/
def fresh3R : Mat ℝ := { rows := 3, cols := 3, coeff := fun _ _ => 7 }

/-- A condensed vector for three points: d01 = 25, d02 = 2, d12 = 13. -/
def condensedR : Mat ℝ := Mat.ofCol [25, 2, 13]

/-- A freshly constructed RBF kernel whose uninitialised members hold 0
(noise level), 1 (scaling level) and `buf` (work buffers). -/
def rbfNew [Field α] (buf : Mat α) : Kernel α := RBF.new 0 1 buf buf buf

/-- Two coincident points on the line. -/
def twinX [Field α] : Mat α := Mat.ofRows [[0], [0]]

/-- Targets 1 and 0. -/
def twinY [Field α] : Mat α := Mat.ofCol [1, 0]

/-- A model with fixed noise `noise` on the two coincident points, after
`setKernel`, `setObs`, `setNoise`, `kernel.setNoise` and `computeDistMat`. -/
def twinFixed [Field α] (noise : α) : GaussianProcess α :=
  computeDistMat ((((GaussianProcess.new (rbfNew ⟨0, 0, fun _ _ => 0⟩) 1 1).setKernel
    ((rbfNew ⟨0, 0, fun _ _ => 0⟩).setNoise noise)).setObs twinX twinY).setNoise noise)

/-- The same model with the noise left to the optimiser. -/
def twinJoint [Field α] : GaussianProcess α :=
  computeDistMat (((GaussianProcess.new (rbfNew ⟨0, 0, fun _ _ => 0⟩) 1 2).setKernel
    (rbfNew ⟨0, 0, fun _ _ => 0⟩)).setObs twinX twinY)

/-- A model with the noise left to the optimiser and bounds [2], [3] given for
the length-scale only. -/
def boundedGP [Field α] : GaussianProcess α :=
  (GaussianProcess.new (rbfNew ⟨0, 0, fun _ _ => 0⟩) 1 2).setBounds (Mat.ofCol [2]) (Mat.ofCol [3])

/-- The model with fixed noise 1 on the two coincident points and the bounds
[5], [1] for the length-scale: the lower bound is above the upper bound. -/
def invertedGP [Field α] : GaussianProcess α :=
  (twinFixed 1).setBounds (Mat.ofCol [5]) (Mat.ofCol [1])

/-- A solver that evaluates the objective once, at the starting point, and
returns the starting point. -/
def probeSolver : Solver α :=
  { maxEvals := 1
    next := fun _ _ x0 h => if h.isEmpty then some x0 else none
    result := fun _ _ x0 _ => x0 }

/-- Two test points on the line, 0 and 1. -/
def predPts [Field α] : Mat α := Mat.ofRows [[0], [1]]

/-- The model on the two coincident points after one evaluation of the
objective at the log-parameters (0, 0), with the test points 0 and 1 set. -/
def twinEvaluated [Field α] (F : Libm α) (E : Eigen α) : GaussianProcess α :=
  (evalNLML F E twinJoint (Mat.ofCol [0, 0]) ⟨0, 1, fun _ _ => 0⟩ false).gp.setPred predPts

/-- A model with fixed noise `noise` on the two points 0 and 1 of the line
with targets (1, 0), after `setKernel`, `setObs`, `setNoise`, `kernel.setNoise`
and `computeDistMat`. -/
def pairFixed [Field α] (noise : α) : GaussianProcess α :=
  computeDistMat ((((GaussianProcess.new (rbfNew ⟨0, 0, fun _ _ => 0⟩) 1 1).setKernel
    ((rbfNew ⟨0, 0, fun _ _ => 0⟩).setNoise noise)).setObs predPts twinY).setNoise noise)

/-- A single point of the plane, (3, 4). -/
def onePointZ : Mat ℤ := Mat.ofRows [[3, 4]]

/-- A model after a prediction at the test points 0 and 1: posterior mean
(1, 2) and posterior covariance the identity, noise 0. -/
def sampleGP [Field α] : GaussianProcess α :=
  { (GaussianProcess.new (rbfNew ⟨0, 0, fun _ _ => 0⟩) 1 2).setPred predPts with
    predMean := Mat.ofCol [1, 2], predCov := Mat.identity 2 2 }

namespace RBF

/-- `GP::RBF::evalKernel(x, y, params, n)`; the default case prints
"UNDEFINED DERIVATIVE" and returns `0.0`. -/
def evalKernel [Field α] (exp : α → α) (x y params : Mat α) (n : Int) : α :=
  match n with
  | 0 => exp (-(x.sub y).squaredNorm / (2.0 * (params.coeff 0 0) ^ 2))
  | 1 => (x.sub y).squaredNorm / (params.coeff 0 0) ^ 3
      * exp (-(x.sub y).squaredNorm / (2.0 * (params.coeff 0 0) ^ 2))
  | _ => 0.0

/-- What `evalKernel` and `evalDistKernel` write to `std::cout` for the
derivative order `n`: nothing in the cases 0 and 1, the line of the default
case otherwise. -/
def kernelCout (n : Int) : List String :=
  match n with
  | 0 => []
  | 1 => []
  | _ => ["\n[*] UNDEFINED DERIVATIVE\n"]

end RBF

/-! # Theorems -/

/-! ## The pair enumeration: lemmas -/

theorem foldl_nested {σ : Type} (step : σ → Nat × Nat → σ) (js : Nat → List Nat)
    (l : List Nat) (s : σ) :
    l.foldl (fun s i => (js i).foldl (fun s j => step s (i, j)) s) s
      = (l.flatMap (fun i => (js i).map (fun j => (i, j)))).foldl step s := by
  induction l generalizing s with
  | nil => rfl
  | cons i l ih =>
    simp only [List.foldl_cons, List.flatMap_cons, List.foldl_append, List.foldl_map]
    exact ih _

theorem tri_succ (m : Nat) : (m + 1) * (m + 1 + 1) / 2 = m * (m + 1) / 2 + (m + 1) := by
  have h : (m + 1) * (m + 1 + 1) = m * (m + 1) + 2 * (m + 1) := by ring
  rw [h, Nat.add_mul_div_left _ _ (by norm_num : 0 < 2)]

theorem tri_le (m n : Nat) (h : m ≤ n) : m * (m + 1) / 2 ≤ m * n := by
  induction m with
  | zero => simp
  | succ m ih =>
    rw [tri_succ]
    have := ih (by omega)
    have e : (m + 1) * n = m * n + n := by ring
    omega

/-- Number of pairs in the rows before row `m`. -/
theorem length_rows (n m : Nat) (h : m ≤ n) :
    ((List.range m).flatMap (pairRow n)).length = m * n - m * (m + 1) / 2 := by
  induction m with
  | zero => simp
  | succ m ih =>
    have := ih (by omega)
    have t := tri_le m n (by omega)
    have e : (m + 1) * n = m * n + n := by ring
    rw [List.range_succ, List.flatMap_append, List.length_append, this, tri_succ]
    simp [pairRow, irange]
    omega

theorem pairs_eq (n : Nat) : pairs n = (List.range (n - 1)).flatMap (pairRow n) := by
  simp [pairs, irange, List.range_eq_range']

theorem length_pairs (n : Nat) : (pairs n).length = n * (n - 1) / 2 := by
  rw [pairs_eq]
  rcases Nat.eq_zero_or_pos n with h | h
  · subst h; simp
  · rw [length_rows n (n - 1) (by omega)]
    obtain ⟨m, rfl⟩ : ∃ m, n = m + 1 := ⟨n - 1, by omega⟩
    simp only [Nat.add_sub_cancel]
    have t := tri_le m (m + 1) (by omega)
    have e : (m + 1) * m = m * (m + 1) := by ring
    rw [e]
    have h2 : m * (m + 1) % 2 = 0 := by
      have := Nat.even_mul_succ_self m
      exact Nat.even_iff.mp this
    omega


theorem condensedIndex_eq (n i j : Nat) :
    condensedIndex n i j = i * n - i * (i + 1) / 2 + (j - i - 1) := rfl

/-- The pair at a given position of the rows before row `m`. -/
theorem rows_getElem? (n m : Nat) (hm : m ≤ n) (t : Nat) (p : Nat × Nat) :
    ((List.range m).flatMap (pairRow n))[t]? = some p ↔
      (p.1 < m ∧ p.1 < p.2 ∧ p.2 < n ∧ t = condensedIndex n p.1 p.2) := by
  induction m generalizing t with
  | zero => simp
  | succ m ih =>
    have hlen := length_rows n m (by omega)
    have tl := tri_le m n (by omega)
    rw [List.range_succ, List.flatMap_append, List.getElem?_append]
    obtain ⟨i, j⟩ := p
    simp only [condensedIndex_eq] at ih ⊢
    split
    · rename_i hlt
      rw [ih (by omega)]
      constructor
      · rintro ⟨h1, h2, h3, h4⟩
        exact ⟨by omega, h2, h3, h4⟩
      · rintro ⟨h1, h2, h3, h4⟩
        refine ⟨?_, h2, h3, h4⟩
        by_contra hc
        have : i = m := by omega
        subst this
        omega
    · rename_i hge
      simp only [List.flatMap_cons, List.flatMap_nil, List.append_nil, pairRow, irange,
        List.getElem?_map]
      rw [hlen]
      by_cases hlt : t - (m * n - m * (m + 1) / 2) < n - (m + 1)
      · rw [List.getElem?_range' _ _ hlt]
        simp only [Option.map_some', Option.some.injEq, Prod.mk.injEq, Nat.one_mul]
        constructor
        · rintro ⟨rfl, rfl⟩
          omega
        · rintro ⟨h1, h2, h3, h4⟩
          by_cases hi : i < m
          · have := (ih (by omega) t).2 ⟨hi, h2, h3, h4⟩
            have hl : t < ((List.range m).flatMap (pairRow n)).length := by
              by_contra hc
              rw [List.getElem?_eq_none (by omega)] at this
              exact absurd this (by simp)
            omega
          · have : i = m := by omega
            subst this
            omega
      · rw [List.getElem?_eq_none (by simp; omega)]
        simp only [Option.map_none']
        refine ⟨fun h => absurd h (by simp), ?_⟩
        rintro ⟨h1, h2, h3, h4⟩
        exfalso
        by_cases hi : i < m
        · have := (ih (by omega) t).2 ⟨hi, h2, h3, h4⟩
          have hl : t < ((List.range m).flatMap (pairRow n)).length := by
            by_contra hc
            rw [List.getElem?_eq_none (by omega)] at this
            exact absurd this (by simp)
          omega
        · have : i = m := by omega
          subst this
          omega

/-- The pair at position `t` of the enumeration is the one whose closed-form
index is `t`. -/
theorem pairs_getElem? (n t : Nat) (p : Nat × Nat) :
    (pairs n)[t]? = some p ↔ (p.1 < p.2 ∧ p.2 < n ∧ t = condensedIndex n p.1 p.2) := by
  rw [pairs_eq, rows_getElem? n (n - 1) (by omega)]
  constructor
  · rintro ⟨_, h2, h3, h4⟩
    exact ⟨h2, h3, h4⟩
  · rintro ⟨h2, h3, h4⟩
    exact ⟨by omega, h2, h3, h4⟩

theorem mem_pairs (n : Nat) (p : Nat × Nat) : p ∈ pairs n ↔ p.1 < p.2 ∧ p.2 < n := by
  rw [List.mem_iff_getElem?]
  constructor
  · rintro ⟨t, ht⟩
    have := (pairs_getElem? n t p).1 ht
    exact ⟨this.1, this.2.1⟩
  · rintro ⟨h1, h2⟩
    exact ⟨_, (pairs_getElem? n _ p).2 ⟨h1, h2, rfl⟩⟩

theorem nodup_pairs (n : Nat) : (pairs n).Nodup := by
  rw [List.nodup_iff_getElem?_ne_getElem?]
  intro i j hij hj heq
  have hi : i < (pairs n).length := by omega
  have h1 := (pairs_getElem? n i (pairs n)[i]).1 (List.getElem?_eq_getElem hi)
  have h2 := (pairs_getElem? n j (pairs n)[i]).1 (by rw [← heq]; exact List.getElem?_eq_getElem hi)
  omega

theorem condensedIndex_lt (n i j : Nat) (hij : i < j) (hj : j < n) :
    condensedIndex n i j < n * (n - 1) / 2 := by
  have h := (pairs_getElem? n (condensedIndex n i j) (i, j)).2 ⟨hij, hj, rfl⟩
  rw [← length_pairs]
  by_contra hc
  rw [List.getElem?_eq_none (by omega)] at h
  exact absurd h (by simp)


/-! ## The two loops as folds over the enumeration -/

theorem pdistLoop_eq [CommRing α] (Dv X1 X2 : Mat α) :
    pdistLoop Dv X1 X2 = (pairs X1.rows).foldl
      (fun s p =>
        { M := s.M.set s.k 0 ((X1.row p.1).sub (X2.row p.2)).squaredNorm,
          k := s.k + 1,
          log := s.log ++ [(p.1, p.2, s.k)] })
      { M := Dv.resize (pdistEntryCount X1.rows).toNat 1, k := 0, log := [] } := by
  unfold pdistLoop pairs pairRow
  exact foldl_nested
    (fun (s : Fill α) p =>
      { M := s.M.set s.k 0 ((X1.row p.1).sub (X2.row p.2)).squaredNorm,
        k := s.k + 1,
        log := s.log ++ [(p.1, p.2, s.k)] }) (fun i => irange (i + 1) X1.rows) _ _

theorem squareFormLoop_eq (D Dv : Mat α) (n : Nat) :
    squareFormLoop D Dv n = (pairs n).foldl
      (fun s p =>
        { M := (s.M.set p.2 p.1 (Dv.coeff s.k 0)).set p.1 p.2 (Dv.coeff s.k 0),
          k := s.k + 1,
          log := s.log ++ [(p.1, p.2, s.k)] })
      { M := D.resize n n, k := 0, log := [] } := by
  unfold squareFormLoop pairs pairRow
  exact foldl_nested
    (fun (s : Fill α) p =>
      { M := (s.M.set p.2 p.1 (Dv.coeff s.k 0)).set p.1 p.2 (Dv.coeff s.k 0),
        k := s.k + 1,
        log := s.log ++ [(p.1, p.2, s.k)] }) (fun i => irange (i + 1) n) _ _

/-- The log of a loop that advances `k` by one per pair. -/
theorem fold_log (w : Mat α → Nat × Nat → Nat → Mat α) (c : Nat × Nat → Nat)
    (ps : List (Nat × Nat)) (s : Fill α)
    (h : ∀ t p, ps[t]? = some p → c p = s.k + t) :
    (ps.foldl (fun s p => { M := w s.M p s.k, k := s.k + 1, log := s.log ++ [(p.1, p.2, s.k)] })
      s).log = s.log ++ ps.map (fun p => (p.1, p.2, c p)) := by
  induction ps generalizing s with
  | nil => simp
  | cons q ps ih =>
    simp only [List.foldl_cons, List.map_cons]
    rw [ih]
    · have := h 0 q (by simp)
      simp [this]
    · intro t p ht
      have := h (t + 1) p (by simpa using ht)
      simp only
      omega

/-- Dimensions are kept by a loop of coefficient writes. -/
theorem fold_dims (w : Mat α → Nat × Nat → Nat → Mat α)
    (hw : ∀ M p k, (w M p k).rows = M.rows ∧ (w M p k).cols = M.cols)
    (ps : List (Nat × Nat)) (s : Fill α) :
    (ps.foldl (fun s p => { M := w s.M p s.k, k := s.k + 1, log := s.log ++ [(p.1, p.2, s.k)] })
      s).M.rows = s.M.rows ∧
    (ps.foldl (fun s p => { M := w s.M p s.k, k := s.k + 1, log := s.log ++ [(p.1, p.2, s.k)] })
      s).M.cols = s.M.cols := by
  induction ps generalizing s with
  | nil => simp
  | cons q ps ih =>
    simp only [List.foldl_cons]
    rw [(ih _).1, (ih _).2]
    exact hw _ _ _

/-- Writes of `pdist` at positions `k` and later leave earlier positions alone. -/
theorem fold_pdist_untouched (f : Nat × Nat → α) (ps : List (Nat × Nat)) (s : Fill α)
    (a b : Nat) (h : a < s.k ∨ b ≠ 0) :
    (ps.foldl (fun s p =>
      { M := s.M.set s.k 0 (f p), k := s.k + 1, log := s.log ++ [(p.1, p.2, s.k)] })
      s).M.coeff a b = s.M.coeff a b := by
  induction ps generalizing s with
  | nil => rfl
  | cons q ps ih =>
    simp only [List.foldl_cons]
    rw [ih]
    · simp only [Mat.set]
      rw [if_neg]
      omega
    · simp only
      omega

/-- The value `pdist` leaves at the position of the `t`-th pair. -/
theorem fold_pdist_coeff (f : Nat × Nat → α) (ps : List (Nat × Nat)) (s : Fill α)
    (t : Nat) (p : Nat × Nat) (h : ps[t]? = some p) :
    (ps.foldl (fun s p =>
      { M := s.M.set s.k 0 (f p), k := s.k + 1, log := s.log ++ [(p.1, p.2, s.k)] })
      s).M.coeff (s.k + t) 0 = f p := by
  induction ps generalizing s t with
  | nil => simp at h
  | cons q ps ih =>
    simp only [List.foldl_cons]
    cases t with
    | zero =>
      simp only [List.getElem?_cons_zero, Option.some.injEq] at h
      subst h
      rw [fold_pdist_untouched _ _ _ _ _ (Or.inl (by simp))]
      simp [Mat.set]
    | succ t =>
      simp only [List.getElem?_cons_succ] at h
      have := ih { M := s.M.set s.k 0 (f q), k := s.k + 1, log := s.log ++ [(q.1, q.2, s.k)] } t h
      simp only at this
      have e : s.k + (t + 1) = s.k + 1 + t := by omega
      rw [e]
      exact this

/-- Coefficients off the visited pairs are left alone by `squareForm`. -/
theorem fold_sq_untouched (Dv : Mat α) (ps : List (Nat × Nat)) (s : Fill α)
    (a b : Nat) (h1 : (a, b) ∉ ps) (h2 : (b, a) ∉ ps) :
    (ps.foldl (fun s p =>
      { M := (s.M.set p.2 p.1 (Dv.coeff s.k 0)).set p.1 p.2 (Dv.coeff s.k 0),
        k := s.k + 1, log := s.log ++ [(p.1, p.2, s.k)] })
      s).M.coeff a b = s.M.coeff a b := by
  induction ps generalizing s with
  | nil => rfl
  | cons q ps ih =>
    simp only [List.foldl_cons]
    simp only [List.mem_cons, not_or] at h1 h2
    rw [ih _ h1.2 h2.2]
    obtain ⟨q1, q2⟩ := q
    have e1 : ¬ (a = q1 ∧ b = q2) := fun h => h1.1 (by rw [h.1, h.2])
    have e2 : ¬ (a = q2 ∧ b = q1) := fun h => h2.1 (by rw [h.1, h.2])
    simp only [Mat.set, if_neg e1, if_neg e2]

/-- Both coefficients `squareForm` writes for the `t`-th pair. -/
theorem fold_sq_coeff (Dv : Mat α) (ps : List (Nat × Nat)) (s : Fill α)
    (hnd : ps.Nodup) (hlt : ∀ p ∈ ps, p.1 < p.2)
    (t : Nat) (i j : Nat) (h : ps[t]? = some (i, j)) :
    (ps.foldl (fun s p =>
      { M := (s.M.set p.2 p.1 (Dv.coeff s.k 0)).set p.1 p.2 (Dv.coeff s.k 0),
        k := s.k + 1, log := s.log ++ [(p.1, p.2, s.k)] })
      s).M.coeff i j = Dv.coeff (s.k + t) 0 ∧
    (ps.foldl (fun s p =>
      { M := (s.M.set p.2 p.1 (Dv.coeff s.k 0)).set p.1 p.2 (Dv.coeff s.k 0),
        k := s.k + 1, log := s.log ++ [(p.1, p.2, s.k)] })
      s).M.coeff j i = Dv.coeff (s.k + t) 0 := by
  induction ps generalizing s t with
  | nil => simp at h
  | cons q ps ih =>
    simp only [List.foldl_cons]
    rw [List.nodup_cons] at hnd
    cases t with
    | zero =>
      simp only [List.getElem?_cons_zero, Option.some.injEq] at h
      subst h
      have hij : i < j := hlt (i, j) (by simp)
      have hsw : (j, i) ∉ ps := fun hm => by
        have := hlt (j, i) (List.mem_cons_of_mem _ hm)
        simp only at this
        omega
      rw [fold_sq_untouched Dv ps _ i j hnd.1 hsw, fold_sq_untouched Dv ps _ j i hsw hnd.1]
      have hne : ¬ (j = i ∧ i = j) := by omega
      simp [Mat.set, hne]
    | succ t =>
      simp only [List.getElem?_cons_succ] at h
      have := ih { M := (s.M.set q.2 q.1 (Dv.coeff s.k 0)).set q.1 q.2 (Dv.coeff s.k 0),
                   k := s.k + 1, log := s.log ++ [(q.1, q.2, s.k)] } hnd.2
        (fun p hp => hlt p (List.mem_cons_of_mem _ hp)) t h
      simp only at this
      have e : s.k + (t + 1) = s.k + 1 + t := by omega
      rw [e]
      exact this


/-! ## Results of `pdist` and `squareForm` -/

theorem list_sum_range_map {β : Type} [AddCommMonoid β] (f : Nat → β) (n : Nat) :
    ((List.range n).map f).sum = ∑ c in Finset.range n, f c := by
  induction n with
  | zero => simp
  | succ n ih => rw [List.range_succ, List.map_append, List.sum_append, ih, Finset.sum_range_succ]; simp

/-- The squared norm `pdist` takes is the sum of the squared coordinate differences. -/
theorem squaredNorm_row_sub [CommRing α] (X1 X2 : Mat α) (i j : Nat) :
    ((X1.row i).sub (X2.row j)).squaredNorm
      = ∑ c in Finset.range X1.cols, (X1.coeff i c - X2.coeff j c) ^ 2 := by
  have h1 : List.range 1 = [0] := rfl
  simp only [Mat.squaredNorm, Mat.sub, Mat.row, h1, List.map_cons, List.map_nil,
    List.sum_cons, List.sum_nil, add_zero]
  rw [list_sum_range_map]
  exact Finset.sum_congr rfl (fun c _ => by ring)

theorem wrapInt_of_range (z : Int) (h0 : -2147483648 ≤ z) (h1 : z ≤ 2147483647) :
    wrapInt z = z := by
  unfold wrapInt
  omega

/-- Within the range of `int` the entry count is the number of pairs. -/
theorem pdistEntryCount_eq (n : Nat) (h : n * (n - 1) ≤ 2147483647) :
    pdistEntryCount n = ((n * (n - 1) / 2 : Nat) : Int) := by
  have hc : (n : Int) * ((n : Int) - 1) = ((n * (n - 1) : Nat) : Int) := by
    rcases Nat.eq_zero_or_pos n with h0 | h0
    · subst h0
      simp
    · rw [Nat.cast_mul, Nat.cast_sub h0, Nat.cast_one]
  unfold pdistEntryCount
  rw [hc, wrapInt_of_range _ (by omega) (by omega)]
  exact (Int.ofNat_tdiv _ _).symm

/-- Dimensions of the vector `pdist` leaves: the `int` entry count, one column. -/
theorem pdist_dims_int [CommRing α] (Dv X1 X2 : Mat α) :
    (pdist Dv X1 X2).rows = (pdistEntryCount X1.rows).toNat ∧ (pdist Dv X1 X2).cols = 1 := by
  unfold pdist
  rw [pdistLoop_eq]
  exact fold_dims (fun M p k => M.set k 0 ((X1.row p.1).sub (X2.row p.2)).squaredNorm)
    (fun M p k => ⟨rfl, rfl⟩) _ _

theorem pdist_dims [CommRing α] (Dv X1 X2 : Mat α)
    (h : X1.rows * (X1.rows - 1) ≤ 2147483647) :
    (pdist Dv X1 X2).rows = X1.rows * (X1.rows - 1) / 2 ∧ (pdist Dv X1 X2).cols = 1 := by
  have hd := pdist_dims_int Dv X1 X2
  rw [pdistEntryCount_eq _ h, Int.toNat_ofNat] at hd
  exact hd

theorem pdist_coeff [CommRing α] (Dv X1 X2 : Mat α) (i j : Nat) (hij : i < j)
    (hj : j < X1.rows) :
    (pdist Dv X1 X2).coeff (condensedIndex X1.rows i j) 0
      = ∑ c in Finset.range X1.cols, (X1.coeff i c - X2.coeff j c) ^ 2 := by
  unfold pdist
  rw [pdistLoop_eq]
  have h := (pairs_getElem? X1.rows (condensedIndex X1.rows i j) (i, j)).2 ⟨hij, hj, rfl⟩
  have := fold_pdist_coeff (fun p => ((X1.row p.1).sub (X2.row p.2)).squaredNorm)
    (pairs X1.rows) { M := Dv.resize (pdistEntryCount X1.rows).toNat 1, k := 0, log := [] } _ _ h
  simp only [Nat.zero_add] at this
  rw [this, squaredNorm_row_sub]

theorem pdistLoop_log [CommRing α] (Dv X1 X2 : Mat α) :
    (pdistLoop Dv X1 X2).log = canonicalLog X1.rows := by
  rw [pdistLoop_eq]
  have := fold_log (fun M p k => M.set k 0 ((X1.row p.1).sub (X2.row p.2)).squaredNorm)
    (fun p => condensedIndex X1.rows p.1 p.2) (pairs X1.rows)
    { M := Dv.resize (pdistEntryCount X1.rows).toNat 1, k := 0, log := [] }
    (fun t p h => by
      have := ((pairs_getElem? X1.rows t p).1 h).2.2
      simp only [Nat.zero_add]
      exact this.symm)
  simpa [canonicalLog] using this

theorem squareFormLoop_log (D Dv : Mat α) (n : Nat) :
    (squareFormLoop D Dv n).log = canonicalLog n := by
  rw [squareFormLoop_eq]
  have := fold_log (fun M p k => (M.set p.2 p.1 (Dv.coeff k 0)).set p.1 p.2 (Dv.coeff k 0))
    (fun p => condensedIndex n p.1 p.2) (pairs n)
    { M := D.resize n n, k := 0, log := [] }
    (fun t p h => by
      have := ((pairs_getElem? n t p).1 h).2.2
      simp only [Nat.zero_add]
      exact this.symm)
  simpa [canonicalLog] using this

/-- The positions in the canonical log are `0, 1, ..., n(n-1)/2 - 1` in this order. -/
theorem canonicalLog_positions (n : Nat) :
    (canonicalLog n).map (fun e => e.2.2) = List.range (n * (n - 1) / 2) := by
  apply List.ext_getElem?
  intro t
  simp only [canonicalLog, List.map_map, List.getElem?_map]
  by_cases ht : t < (pairs n).length
  · have h := (pairs_getElem? n t (pairs n)[t]).1 (List.getElem?_eq_getElem ht)
    rw [List.getElem?_eq_getElem ht, List.getElem?_eq_getElem (by simpa [length_pairs] using ht)]
    simp only [Option.map_some', Function.comp_apply, List.getElem_range, Option.some.injEq]
    exact h.2.2.symm
  · rw [List.getElem?_eq_none (by omega), List.getElem?_eq_none (by
      simp only [List.length_range]; rw [← length_pairs]; omega)]
    rfl

theorem mem_canonicalLog (n i j k : Nat) :
    (i, j, k) ∈ canonicalLog n ↔ i < j ∧ j < n ∧ k = condensedIndex n i j := by
  simp only [canonicalLog, List.mem_map, Prod.mk.injEq, Prod.exists, mem_pairs]
  constructor
  · rintro ⟨a, b, ⟨h1, h2⟩, rfl, rfl, rfl⟩
    exact ⟨h1, h2, rfl⟩
  · rintro ⟨h1, h2, rfl⟩
    exact ⟨i, j, ⟨h1, h2⟩, rfl, rfl, rfl⟩

theorem squareForm_dims [Mul α] [One α] (D Dv : Mat α) (n : Nat) (d : α) :
    (squareForm D Dv n d).rows = n ∧ (squareForm D Dv n d).cols = n := by
  unfold squareForm Mat.setDiagonal
  simp only
  rw [squareFormLoop_eq]
  exact fold_dims (fun M p k => (M.set p.2 p.1 (Dv.coeff k 0)).set p.1 p.2 (Dv.coeff k 0))
    (fun M p k => ⟨rfl, rfl⟩) _ _

/-- Off-diagonal coefficients of `squareForm`: both `(i, j)` and `(j, i)` hold the
condensed entry of the pair `i < j`. -/
theorem squareForm_coeff [Mul α] [One α] (D Dv : Mat α) (n : Nat) (d : α) (i j : Nat)
    (hij : i < j) (hj : j < n) :
    (squareForm D Dv n d).coeff i j = Dv.coeff (condensedIndex n i j) 0 ∧
    (squareForm D Dv n d).coeff j i = Dv.coeff (condensedIndex n i j) 0 := by
  have h := (pairs_getElem? n (condensedIndex n i j) (i, j)).2 ⟨hij, hj, rfl⟩
  have := fold_sq_coeff Dv (pairs n) { M := D.resize n n, k := 0, log := [] } (nodup_pairs n)
    (fun p hp => ((mem_pairs n p).1 hp).1) _ i j h
  simp only [Nat.zero_add] at this
  unfold squareForm Mat.setDiagonal
  rw [squareFormLoop_eq]
  simp only
  rw [if_neg (by omega), if_neg (by omega)]
  exact this

/-- Diagonal of `squareForm`. -/
theorem squareForm_diag [MulOneClass α] (D Dv : Mat α) (n : Nat) (d : α) (i : Nat)
    (hi : i < n) : (squareForm D Dv n d).coeff i i = d := by
  have hd := squareForm_dims D Dv n (1 : α)
  unfold squareForm Mat.setDiagonal at hd ⊢
  simp only at hd ⊢
  rw [hd.1, hd.2, Nat.min_self, if_pos ⟨trivial, hi⟩, mul_one]


/-! ## C1, C2: the distance engine -/

/-- Within the range of `int` the call of `pdist` returns: for at least one point
and `n(n-1) ≤ INT_MAX` the entry count is the number of pairs and every write
of the loop is inside the vector. -/
theorem pdistCall_in_range [CommRing α] (Dv X1 X2 : Mat α) (h1 : 1 ≤ X1.rows)
    (h : X1.rows * (X1.rows - 1) ≤ 2147483647) :
    pdistCall Dv X1 X2 = some (pdist Dv X1 X2) := by
  have he := pdistEntryCount_eq _ h
  unfold pdistCall
  simp only
  rw [if_neg, if_pos]
  · rw [List.all_eq_true]
    intro e hmem
    have hpos : e.2.2 ∈ (pdistLoop Dv X1 X2).log.map (fun e => e.2.2) :=
      List.mem_map.2 ⟨e, hmem, rfl⟩
    rw [pdistLoop_log, canonicalLog_positions, List.mem_range] at hpos
    rw [he, Int.toNat_ofNat]
    exact decide_eq_true hpos
  · rw [he]
    intro hc
    rcases hc with hc | hc
    · omega
    · exact absurd hc (by omega)

/-- The round trip of the distance engine within the range of `int`.  For a
point matrix `X` with `n ≥ 2` rows, `n(n-1) ≤ INT_MAX`, and any `d`, the call
`pdist(X, X)` returns, and the matrix `squareForm(pdist(X, X), n, d)` is n x n,
holds at `(i, j)`, `i ≠ j`, the squared Euclidean distance between rows `i`
and `j` of `X`, and holds `d` on its diagonal; whatever the buffers `D0` and
`Dv0` held before. -/
theorem squareForm_pdist_roundtrip [CommRing α] (X D0 Dv0 : Mat α) (d : α)
    (hn : 2 ≤ X.rows) (hint : X.rows * (X.rows - 1) ≤ 2147483647) :
    pdistCall Dv0 X X = some (pdist Dv0 X X) ∧
    (squareForm D0 (pdist Dv0 X X) X.rows d).rows = X.rows ∧
    (squareForm D0 (pdist Dv0 X X) X.rows d).cols = X.rows ∧
    (∀ i j, i < X.rows → j < X.rows → i ≠ j →
      (squareForm D0 (pdist Dv0 X X) X.rows d).coeff i j
        = ∑ c in Finset.range X.cols, (X.coeff i c - X.coeff j c) ^ 2) ∧
    (∀ i, i < X.rows → (squareForm D0 (pdist Dv0 X X) X.rows d).coeff i i = d) := by
  refine ⟨pdistCall_in_range _ _ _ (by omega) hint, (squareForm_dims _ _ _ _).1,
    (squareForm_dims _ _ _ _).2, ?_, ?_⟩
  · intro i j hi hj hne
    rcases Nat.lt_or_gt_of_ne hne with h | h
    · rw [(squareForm_coeff D0 _ X.rows d i j h hj).1, pdist_coeff Dv0 X X i j h hj]
    · rw [(squareForm_coeff D0 _ X.rows d j i h hi).2, pdist_coeff Dv0 X X j i h hi]
      exact Finset.sum_congr rfl (fun c _ => by ring)
  · intro i hi
    exact squareForm_diag _ _ _ _ i hi

/-- The round trip at the three points (0,0), (3,4), (1,1) with diagonal value 5. -/
theorem squareForm_pdist_roundtrip_example :
    pdistCall freshZ pointsZ pointsZ = some (pdist freshZ pointsZ pointsZ) ∧
    (squareForm freshZ (pdist freshZ pointsZ pointsZ) pointsZ.rows 5).coeff 2 1 = 13 ∧
    (squareForm freshZ (pdist freshZ pointsZ pointsZ) pointsZ.rows 5).coeff 1 1 = 5 :=
  ⟨(squareForm_pdist_roundtrip pointsZ freshZ freshZ 5 (by decide) (by decide)).1,
   ((squareForm_pdist_roundtrip pointsZ freshZ freshZ 5 (by decide) (by decide)).2.2.2.1 2 1
      (by decide) (by decide) (by decide)).trans (by decide),
   (squareForm_pdist_roundtrip pointsZ freshZ freshZ 5 (by decide) (by decide)).2.2.2.2 1
      (by decide)⟩

/-- C1 fails on the program at 46342 points (here in one dimension, all at 0):
`n*(n-1) = 2147534622` is above `INT_MAX = 2147483647`, the `int` product wraps
to `-2147432674`, the entry count is `-1073716337` although the number of pairs,
`1073767311`, is in the range of `int`; `Dv.resize(entryCount, 1)` is given a
negative size and the call of `pdist` has no result, so there is no condensed
vector for `squareForm` to assemble.  One point fewer is still in range. -/
theorem C1_roundtrip_int_overflow :
    (2 : Nat) ≤ (Mat.zero 46342 1 : Mat ℤ).rows ∧
    (46342 * (46342 - 1) / 2 : Nat) = 1073767311 ∧
    wrapInt ((46342 : Int) * (46342 - 1)) = -2147432674 ∧
    pdistEntryCount 46342 = -1073716337 ∧
    pdistCall freshZ (Mat.zero 46342 1 : Mat ℤ) (Mat.zero 46342 1) = none ∧
    pdistEntryCount 46341 = 1073720970 := by
  have he : pdistEntryCount 46342 = -1073716337 := by decide
  refine ⟨by decide, by decide, by decide, he, ?_, by decide⟩
  unfold pdistCall
  simp only
  rw [if_pos]
  right
  have hr : (Mat.zero 46342 1 : Mat ℤ).rows = 46342 := rfl
  rw [hr, he]
  decide

/-- The canonical condensed ordering within the range of `int`.  For `X1`, `X2`
with `n ≥ 2` rows each and `n(n-1) ≤ INT_MAX`, the call of `pdist` returns a
vector of `n(n-1)/2` entries, its writes go to the positions
`0, 1, ..., n(n-1)/2 - 1` in this order (each position once, all in range),
the entry at `i*n - i(i+1)/2 + (j-i-1)` is the squared norm of
`X1.row(i) - X2.row(j)` for every `i < j < n`, and `pdist` and `squareForm`
visit the same pairs at the same positions: the enumeration `i` ascending, then
`j > i` ascending, in which the pair `(i, j)` has exactly that position. -/
theorem canonical_condensed_ordering [CommRing α] (Dv X1 X2 D Dv2 : Mat α)
    (hn : 2 ≤ X1.rows) (hrows : X2.rows = X1.rows)
    (hint : X1.rows * (X1.rows - 1) ≤ 2147483647) :
    pdistCall Dv X1 X2 = some (pdist Dv X1 X2) ∧
    pdistEntryCount X1.rows = ((X1.rows * (X1.rows - 1) / 2 : Nat) : Int) ∧
    (pdist Dv X1 X2).rows = X1.rows * (X1.rows - 1) / 2 ∧
    (pdist Dv X1 X2).cols = 1 ∧
    (pdistLoop Dv X1 X2).log.map (fun e => e.2.2) = List.range (X1.rows * (X1.rows - 1) / 2) ∧
    (∀ i j, i < j → j < X1.rows →
      (pdist Dv X1 X2).coeff (i * X1.rows - i * (i + 1) / 2 + (j - i - 1)) 0
        = ∑ c in Finset.range X1.cols, (X1.coeff i c - X2.coeff j c) ^ 2) ∧
    (pdistLoop Dv X1 X2).log = (pairs X1.rows).map (fun p => (p.1, p.2, condensedIndex X1.rows p.1 p.2)) ∧
    (squareFormLoop D Dv2 X1.rows).log
      = (pairs X1.rows).map (fun p => (p.1, p.2, condensedIndex X1.rows p.1 p.2)) ∧
    (∀ i j k, (i, j, k) ∈ (squareFormLoop D Dv2 X1.rows).log ↔
      (i < j ∧ j < X1.rows ∧ k = i * X1.rows - i * (i + 1) / 2 + (j - i - 1))) := by
  have _ := hrows
  refine ⟨pdistCall_in_range _ _ _ (by omega) hint, pdistEntryCount_eq _ hint,
    (pdist_dims _ _ _ hint).1, (pdist_dims _ _ _ hint).2, ?_, ?_, pdistLoop_log _ _ _,
    squareFormLoop_log _ _ _, ?_⟩
  · rw [pdistLoop_log, canonicalLog_positions]
  · intro i j hij hj
    exact pdist_coeff Dv X1 X2 i j hij hj
  · intro i j k
    rw [squareFormLoop_log]
    exact mem_canonicalLog _ i j k

/-- The ordering at the three points (0,0), (3,4), (1,1): the three writes of
`pdist` and the three reads of `squareForm`. -/
theorem canonical_condensed_ordering_example :
    (pdistLoop freshZ pointsZ pointsZ).log = [(0, 1, 0), (0, 2, 1), (1, 2, 2)] ∧
    (squareFormLoop freshZ freshZ pointsZ.rows).log = [(0, 1, 0), (0, 2, 1), (1, 2, 2)] ∧
    (pdist freshZ pointsZ pointsZ).coeff 2 0 = 13 :=
  ⟨(canonical_condensed_ordering freshZ pointsZ pointsZ freshZ freshZ
      (by decide) rfl (by decide)).2.2.2.2.2.2.1.trans (by decide),
   (canonical_condensed_ordering freshZ pointsZ pointsZ freshZ freshZ
      (by decide) rfl (by decide)).2.2.2.2.2.2.2.1.trans (by decide),
   ((canonical_condensed_ordering freshZ pointsZ pointsZ freshZ freshZ
      (by decide) rfl (by decide)).2.2.2.2.2.1 1 2 (by decide) (by decide)).trans (by decide)⟩

/-- C2 fails on the program for `X1`, `X2` of 46342 rows (two columns, all 0 and
all 1): the claim has `pdist` write the `n(n-1)/2 = 1073767311` entries, every
write in range; the program sizes the vector by the `int` product `n*(n-1)`,
which wraps, so the entry count is `-1073716337`, not the number of pairs, no
write is in range of it, and the call has no result. -/
theorem C2_entry_count_int_overflow :
    (2 : Nat) ≤ (Mat.zero 46342 2 : Mat ℤ).rows ∧
    (Mat.ones 46342 2 : Mat ℤ).rows = (Mat.zero 46342 2 : Mat ℤ).rows ∧
    pdistEntryCount (Mat.zero 46342 2 : Mat ℤ).rows = -1073716337 ∧
    pdistEntryCount (Mat.zero 46342 2 : Mat ℤ).rows
      ≠ ((46342 * (46342 - 1) / 2 : Nat) : Int) ∧
    pdistCall freshZ (Mat.zero 46342 2 : Mat ℤ) (Mat.ones 46342 2) = none := by
  have hr : (Mat.zero 46342 2 : Mat ℤ).rows = 46342 := rfl
  have he : pdistEntryCount 46342 = -1073716337 := by decide
  refine ⟨by decide, rfl, ?_, ?_, ?_⟩
  · rw [hr, he]
  · rw [hr, he]
    decide
  · unfold pdistCall
    simp only
    rw [if_pos]
    right
    rw [hr, he]
    decide

/-! ## C3, C4: the covariance matrix of the RBF kernel -/

/-- `squareForm` produces a symmetric matrix. -/
theorem squareForm_symm [Mul α] [One α] (D Dv : Mat α) (n : Nat) (d : α) (i j : Nat)
    (hi : i < n) (hj : j < n) :
    (squareForm D Dv n d).coeff i j = (squareForm D Dv n d).coeff j i := by
  rcases Nat.lt_trichotomy i j with h | h | h
  · rw [(squareForm_coeff D Dv n d i j h hj).1, (squareForm_coeff D Dv n d i j h hj).2]
  · rw [h]
  · rw [(squareForm_coeff D Dv n d j i h hi).1, (squareForm_coeff D Dv n d j i h hi).2]

/-- Off-diagonal coefficient of `squareForm` for an unordered pair. -/
theorem squareForm_offdiag [Mul α] [One α] (D Dv : Mat α) (n : Nat) (d : α) (i j : Nat)
    (hi : i < n) (hj : j < n) (hne : i ≠ j) :
    (squareForm D Dv n d).coeff i j = Dv.coeff (condensedIndex n (min i j) (max i j)) 0 := by
  rcases Nat.lt_or_gt_of_ne hne with h | h
  · rw [Nat.min_eq_left (by omega), Nat.max_eq_right (by omega)]
    exact (squareForm_coeff D Dv n d i j h hj).1
  · rw [Nat.min_eq_right (by omega), Nat.max_eq_left (by omega)]
    exact (squareForm_coeff D Dv n d j i h hi).2

theorem computeCov_K [Field α] (exp : α → α) (ker : Kernel α) (K Dv params : Mat α)
    (jitter : α) (evalGrad : Bool) :
    (RBF.computeCov exp ker K Dv params jitter evalGrad).K
      = (RBF.covBranch exp ker K Dv params jitter).2.1 := by
  unfold RBF.computeCov
  cases evalGrad <;> rfl

theorem computeCov_K_joint [Field α] (exp : α → α) (ker : Kernel α) (K Dv params : Mat α)
    (jitter : α) (evalGrad : Bool) (h : ker.paramCount < params.size) :
    (RBF.computeCov exp ker K Dv params jitter evalGrad).K
      = squareForm K ((Dv.map (fun d => (-0.5 / (params.coeff 1 0) ^ 2) * d)).map exp) K.rows
          (1.0 + params.coeff 0 0 + jitter) := by
  rw [computeCov_K]
  unfold RBF.covBranch
  simp only [gt_iff_lt, h, if_true]

theorem computeCov_K_fixed [Field α] (exp : α → α) (ker : Kernel α) (K Dv params : Mat α)
    (jitter : α) (evalGrad : Bool) (h : ¬ ker.paramCount < params.size) :
    (RBF.computeCov exp ker K Dv params jitter evalGrad).K
      = squareForm K ((Dv.map (fun d => (-0.5 / (params.coeff 0 0) ^ 2) * d)).map exp) K.rows
          (1.0 + ker.noiseLevel + jitter) := by
  rw [computeCov_K]
  unfold RBF.covBranch
  simp only [gt_iff_lt, h, if_false]

theorem computeCov_grad_joint [Field α] (exp : α → α) (ker : Kernel α) (K Dv params : Mat α)
    (jitter : α) (h : ker.paramCount < params.size) :
    (RBF.computeCov exp ker K Dv params jitter true).gradList
      = [squareForm ker.dK_i
          ((Dv.cwiseMul ((Dv.map (fun d => (-0.5 / (params.coeff 1 0) ^ 2) * d)).map exp)).map
            (fun x => 1 / (params.coeff 1 0) ^ 2 * x)) K.rows 0.0] := by
  unfold RBF.computeCov RBF.covBranch
  simp only [gt_iff_lt, h, if_true]

theorem computeCov_grad_fixed [Field α] (exp : α → α) (ker : Kernel α) (K Dv params : Mat α)
    (jitter : α) (h : ¬ ker.paramCount < params.size) :
    (RBF.computeCov exp ker K Dv params jitter true).gradList
      = [squareForm ker.dK_i
          ((Dv.cwiseMul ((Dv.map (fun d => (-0.5 / (params.coeff 0 0) ^ 2) * d)).map exp)).map
            (fun x => 1 / (params.coeff 0 0) ^ 2 * x)) K.rows 0.0] := by
  unfold RBF.computeCov RBF.covBranch
  simp only [gt_iff_lt, h, if_false, if_true]

theorem computeCov_grad_none [Field α] (exp : α → α) (ker : Kernel α) (K Dv params : Mat α)
    (jitter : α) : (RBF.computeCov exp ker K Dv params jitter false).gradList = [] := by
  unfold RBF.computeCov
  simp

/-- The argument of the exponential, in the form of the specification. -/
theorem exp_arg (l d : ℝ) : -0.5 / l ^ 2 * d = -d / (2 * l ^ 2) := by
  rw [div_mul_eq_mul_div, mul_comm (2 : ℝ), ← div_div]
  norm_num
  ring

/-- C3: entries of the RBF covariance matrix and layout of the parameter
vector.  For `n = K.rows() ≥ 2`, any condensed vector `Dv` and any jitter,
`computeCov` leaves an n x n matrix `K` with `K(i,j) = exp(-d_ij / (2 l^2))`
for `i ≠ j` (`d_ij` the condensed entry of the pair) and
`K(i,i) = 1 + noise + jitter`, where `(noise, l) = (params(0), params(1))` when
`params.size() > paramCount` and `(noise, l) = (noiseLevel, params(0))`
otherwise. -/
theorem C3_computeCov_entries (ker : Kernel ℝ) (K Dv params : Mat ℝ) (jitter : ℝ)
    (evalGrad : Bool) (hn : 2 ≤ K.rows) :
    (RBF.computeCov Real.exp ker K Dv params jitter evalGrad).K.rows = K.rows ∧
    (RBF.computeCov Real.exp ker K Dv params jitter evalGrad).K.cols = K.rows ∧
    (ker.paramCount < params.size →
      (∀ i j, i < K.rows → j < K.rows → i ≠ j →
        (RBF.computeCov Real.exp ker K Dv params jitter evalGrad).K.coeff i j
          = Real.exp (-(Dv.coeff (condensedIndex K.rows (min i j) (max i j)) 0)
              / (2 * (params.coeff 1 0) ^ 2))) ∧
      (∀ i, i < K.rows →
        (RBF.computeCov Real.exp ker K Dv params jitter evalGrad).K.coeff i i
          = 1 + params.coeff 0 0 + jitter)) ∧
    (¬ ker.paramCount < params.size →
      (∀ i j, i < K.rows → j < K.rows → i ≠ j →
        (RBF.computeCov Real.exp ker K Dv params jitter evalGrad).K.coeff i j
          = Real.exp (-(Dv.coeff (condensedIndex K.rows (min i j) (max i j)) 0)
              / (2 * (params.coeff 0 0) ^ 2))) ∧
      (∀ i, i < K.rows →
        (RBF.computeCov Real.exp ker K Dv params jitter evalGrad).K.coeff i i
          = 1 + ker.noiseLevel + jitter)) := by
  have _ := hn
  have h1 : (1.0 : ℝ) = 1 := by norm_num
  refine ⟨?_, ?_, ?_, ?_⟩
  · by_cases h : ker.paramCount < params.size
    · rw [computeCov_K_joint _ _ _ _ _ _ _ h]; exact (squareForm_dims _ _ _ _).1
    · rw [computeCov_K_fixed _ _ _ _ _ _ _ h]; exact (squareForm_dims _ _ _ _).1
  · by_cases h : ker.paramCount < params.size
    · rw [computeCov_K_joint _ _ _ _ _ _ _ h]; exact (squareForm_dims _ _ _ _).2
    · rw [computeCov_K_fixed _ _ _ _ _ _ _ h]; exact (squareForm_dims _ _ _ _).2
  · intro h
    rw [computeCov_K_joint _ _ _ _ _ _ _ h]
    refine ⟨fun i j hi hj hne => ?_, fun i hi => ?_⟩
    · rw [squareForm_offdiag _ _ _ _ i j hi hj hne]
      simp only [Mat.map]
      rw [exp_arg]
    · rw [squareForm_diag _ _ _ _ i hi, h1]
  · intro h
    rw [computeCov_K_fixed _ _ _ _ _ _ _ h]
    refine ⟨fun i j hi hj hne => ?_, fun i hi => ?_⟩
    · rw [squareForm_offdiag _ _ _ _ i j hi hj hne]
      simp only [Mat.map]
      rw [exp_arg]
    · rw [squareForm_diag _ _ _ _ i hi, h1]

/-- C3 on three points in both layouts: `[noise, l] = [1/2, 1]` and `[l] = [2]`
with the kernel's noise level 0; jitter 1/4. -/
theorem C3_computeCov_entries_witness :
    2 ≤ fresh3R.rows ∧
    (RBF.computeCov Real.exp (rbfNew freshR) fresh3R condensedR (Mat.ofCol [1 / 2, 1]) (1 / 4) false).K.coeff
      2 1 = Real.exp (-13 / 2) ∧
    (RBF.computeCov Real.exp (rbfNew freshR) fresh3R condensedR (Mat.ofCol [1 / 2, 1]) (1 / 4) false).K.coeff
      1 1 = 7 / 4 ∧
    (RBF.computeCov Real.exp (rbfNew freshR) fresh3R condensedR (Mat.ofCol [2]) (1 / 4) false).K.coeff
      0 2 = Real.exp (-1 / 4) ∧
    (RBF.computeCov Real.exp (rbfNew freshR) fresh3R condensedR (Mat.ofCol [2]) (1 / 4) false).K.coeff
      0 0 = 5 / 4 :=
  ⟨by decide,
   (((C3_computeCov_entries (rbfNew freshR) fresh3R condensedR (Mat.ofCol [1 / 2, 1]) (1 / 4) false
      (by decide)).2.2.1 (by decide)).1 2 1 (by decide) (by decide) (by decide)).trans
      (by norm_num [condensedR, Mat.ofCol, fresh3R, condensedIndex]),
   (((C3_computeCov_entries (rbfNew freshR) fresh3R condensedR (Mat.ofCol [1 / 2, 1]) (1 / 4) false
      (by decide)).2.2.1 (by decide)).2 1 (by decide)).trans
      (by norm_num [Mat.ofCol]),
   (((C3_computeCov_entries (rbfNew freshR) fresh3R condensedR (Mat.ofCol [2]) (1 / 4) false
      (by decide)).2.2.2 (by decide)).1 0 2 (by decide) (by decide) (by decide)).trans
      (by norm_num [condensedR, Mat.ofCol, fresh3R, condensedIndex]),
   (((C3_computeCov_entries (rbfNew freshR) fresh3R condensedR (Mat.ofCol [2]) (1 / 4) false
      (by decide)).2.2.2 (by decide)).2 0 (by decide)).trans
      (by norm_num [rbfNew, RBF.new])⟩

/-- C4: the covariance matrix is symmetric.  For every condensed vector, every
hyperparameter vector and every jitter, the matrix `K` that `computeCov` leaves
and every matrix of the gradient list it returns satisfy `M(i,j) = M(j,i)` for
all `i, j` in `[0, n)`, `n = K.rows()`. -/
theorem C4_covariance_symmetric [Field α] (exp : α → α) (ker : Kernel α)
    (K Dv params : Mat α) (jitter : α) (evalGrad : Bool) :
    (∀ i j, i < K.rows → j < K.rows →
      (RBF.computeCov exp ker K Dv params jitter evalGrad).K.coeff i j
        = (RBF.computeCov exp ker K Dv params jitter evalGrad).K.coeff j i) ∧
    (∀ G ∈ (RBF.computeCov exp ker K Dv params jitter evalGrad).gradList,
      ∀ i j, i < K.rows → j < K.rows → G.coeff i j = G.coeff j i) := by
  constructor
  · intro i j hi hj
    by_cases h : ker.paramCount < params.size
    · rw [computeCov_K_joint _ _ _ _ _ _ _ h]; exact squareForm_symm _ _ _ _ i j hi hj
    · rw [computeCov_K_fixed _ _ _ _ _ _ _ h]; exact squareForm_symm _ _ _ _ i j hi hj
  · intro G hG i j hi hj
    cases evalGrad with
    | false => rw [computeCov_grad_none] at hG; simp at hG
    | true =>
      by_cases h : ker.paramCount < params.size
      · rw [computeCov_grad_joint _ _ _ _ _ _ h, List.mem_singleton] at hG
        rw [hG]; exact squareForm_symm _ _ _ _ i j hi hj
      · rw [computeCov_grad_fixed _ _ _ _ _ _ h, List.mem_singleton] at hG
        rw [hG]; exact squareForm_symm _ _ _ _ i j hi hj

/-- C4 on three points: two mirrored coefficients of `K`. -/
theorem C4_covariance_symmetric_witness :
    (2 < fresh3R.rows ∧ 0 < fresh3R.rows) ∧
    (RBF.computeCov Real.exp (rbfNew freshR) fresh3R condensedR (Mat.ofCol [1 / 2, 1]) (1 / 4) true).K.coeff
      2 0 =
    (RBF.computeCov Real.exp (rbfNew freshR) fresh3R condensedR (Mat.ofCol [1 / 2, 1]) (1 / 4) true).K.coeff
      0 2 :=
  ⟨⟨by decide, by decide⟩,
   (C4_covariance_symmetric Real.exp (rbfNew freshR) fresh3R condensedR (Mat.ofCol [1 / 2, 1]) (1 / 4)
      true).1 2 0 (by decide) (by decide)⟩


/-! ## C9, C10: the gradient list of the RBF kernel -/

/-- Derivative in `θ = log l` of the kernel value, in the form `computeCov`
evaluates it. -/
theorem hasDerivAt_rbf (d θ : ℝ) :
    HasDerivAt (fun t => Real.exp (-0.5 / (Real.exp t) ^ 2 * d))
      (1 / (Real.exp θ) ^ 2 * (d * Real.exp (-0.5 / (Real.exp θ) ^ 2 * d))) θ := by
  have hg : HasDerivAt (fun t : ℝ => -0.5 * d * Real.exp (-2 * t))
      (-0.5 * d * (Real.exp (-2 * θ) * (-2))) θ := by
    have h1 : HasDerivAt (fun t : ℝ => -2 * t) (-2) θ := by
      simpa using (hasDerivAt_id θ).const_mul (-2 : ℝ)
    exact (h1.exp).const_mul (-0.5 * d)
  have hf := hg.exp
  have e : ∀ t : ℝ, Real.exp (-2 * t) = 1 / (Real.exp t) ^ 2 := by
    intro t
    rw [← Real.exp_nat_mul, one_div, ← Real.exp_neg]
    congr 1
    push_cast
    ring
  have hfun : (fun t => Real.exp (-0.5 / (Real.exp t) ^ 2 * d))
      = (fun t => Real.exp (-0.5 * d * Real.exp (-2 * t))) := by
    funext t
    rw [e t]
    congr 1
    ring
  rw [hfun]
  convert hf using 1
  rw [e θ]
  have : -0.5 / Real.exp θ ^ 2 * d = -0.5 * d * (1 / Real.exp θ ^ 2) := by ring
  rw [this]
  norm_num
  ring


/-- The gradient matrix of `computeCov` is, coefficient by coefficient, the
derivative of `K` in `θ = log l`; fixed-noise layout `params = [exp θ]`. -/
theorem grad_fixed (ker : Kernel ℝ) (K Dv : Mat ℝ) (jitter θ : ℝ) (evalGrad : Bool)
    (hpc : ker.paramCount = 1) :
    ∃ G, (RBF.computeCov Real.exp ker K Dv (Mat.ofCol [Real.exp θ]) jitter true).gradList = [G] ∧
      G.rows = K.rows ∧ G.cols = K.rows ∧
      (∀ i j, i < K.rows → j < K.rows → i ≠ j →
        G.coeff i j = Dv.coeff (condensedIndex K.rows (min i j) (max i j)) 0 / (Real.exp θ) ^ 2
          * Real.exp (-(Dv.coeff (condensedIndex K.rows (min i j) (max i j)) 0)
              / (2 * (Real.exp θ) ^ 2))) ∧
      (∀ i, i < K.rows → G.coeff i i = 0) ∧
      (∀ i j, i < K.rows → j < K.rows →
        HasDerivAt (fun t =>
          (RBF.computeCov Real.exp ker K Dv (Mat.ofCol [Real.exp t]) jitter evalGrad).K.coeff i j)
          (G.coeff i j) θ) := by
  have hsz : ∀ t : ℝ, ¬ ker.paramCount < (Mat.ofCol [Real.exp t]).size := by
    intro t; simp [Mat.ofCol, Mat.size, hpc]
  have hc : ∀ t : ℝ, (Mat.ofCol [Real.exp t]).coeff 0 0 = Real.exp t := by
    intro t; simp [Mat.ofCol]
  refine ⟨_, computeCov_grad_fixed _ _ _ _ _ _ (hsz θ), (squareForm_dims _ _ _ _).1,
    (squareForm_dims _ _ _ _).2, ?_, ?_, ?_⟩
  · intro i j hi hj hne
    rw [squareForm_offdiag _ _ _ _ i j hi hj hne]
    simp only [Mat.map, Mat.cwiseMul, hc, exp_arg]
    ring
  · intro i hi
    rw [squareForm_diag _ _ _ _ i hi]; norm_num
  · intro i j hi hj
    by_cases hne : i = j
    · subst hne
      rw [squareForm_diag _ _ _ _ i hi]
      have hfun : (fun t => (RBF.computeCov Real.exp ker K Dv (Mat.ofCol [Real.exp t]) jitter
          evalGrad).K.coeff i i) = fun _ => 1.0 + ker.noiseLevel + jitter := by
        funext t
        rw [computeCov_K_fixed _ _ _ _ _ _ _ (hsz t), squareForm_diag _ _ _ _ i hi]
      rw [hfun]
      have h0 : (0.0 : ℝ) = 0 := by norm_num
      rw [h0]
      exact hasDerivAt_const θ _
    · rw [squareForm_offdiag _ _ _ _ i j hi hj hne]
      have hfun : (fun t => (RBF.computeCov Real.exp ker K Dv (Mat.ofCol [Real.exp t]) jitter
          evalGrad).K.coeff i j) = fun t => Real.exp (-0.5 / (Real.exp t) ^ 2
            * Dv.coeff (condensedIndex K.rows (min i j) (max i j)) 0) := by
        funext t
        rw [computeCov_K_fixed _ _ _ _ _ _ _ (hsz t), squareForm_offdiag _ _ _ _ i j hi hj hne]
        simp only [Mat.map, hc]
      rw [hfun]
      simp only [Mat.map, Mat.cwiseMul, hc]
      exact hasDerivAt_rbf _ θ

/-- The same in the joint layout `params = [noise, exp θ]`. -/
theorem grad_joint (ker : Kernel ℝ) (K Dv : Mat ℝ) (jitter noise θ : ℝ) (evalGrad : Bool)
    (hpc : ker.paramCount = 1) :
    ∃ G, (RBF.computeCov Real.exp ker K Dv (Mat.ofCol [noise, Real.exp θ]) jitter
        true).gradList = [G] ∧
      G.rows = K.rows ∧ G.cols = K.rows ∧
      (∀ i j, i < K.rows → j < K.rows → i ≠ j →
        G.coeff i j = Dv.coeff (condensedIndex K.rows (min i j) (max i j)) 0 / (Real.exp θ) ^ 2
          * Real.exp (-(Dv.coeff (condensedIndex K.rows (min i j) (max i j)) 0)
              / (2 * (Real.exp θ) ^ 2))) ∧
      (∀ i, i < K.rows → G.coeff i i = 0) ∧
      (∀ i j, i < K.rows → j < K.rows →
        HasDerivAt (fun t =>
          (RBF.computeCov Real.exp ker K Dv (Mat.ofCol [noise, Real.exp t]) jitter
            evalGrad).K.coeff i j)
          (G.coeff i j) θ) := by
  have hsz : ∀ t : ℝ, ker.paramCount < (Mat.ofCol [noise, Real.exp t]).size := by
    intro t; simp [Mat.ofCol, Mat.size, hpc]
  have hc : ∀ t : ℝ, (Mat.ofCol [noise, Real.exp t]).coeff 1 0 = Real.exp t := by
    intro t; simp [Mat.ofCol]
  have hc0 : ∀ t : ℝ, (Mat.ofCol [noise, Real.exp t]).coeff 0 0 = noise := by
    intro t; simp [Mat.ofCol]
  refine ⟨_, computeCov_grad_joint _ _ _ _ _ _ (hsz θ), (squareForm_dims _ _ _ _).1,
    (squareForm_dims _ _ _ _).2, ?_, ?_, ?_⟩
  · intro i j hi hj hne
    rw [squareForm_offdiag _ _ _ _ i j hi hj hne]
    simp only [Mat.map, Mat.cwiseMul, hc, exp_arg]
    ring
  · intro i hi
    rw [squareForm_diag _ _ _ _ i hi]; norm_num
  · intro i j hi hj
    by_cases hne : i = j
    · subst hne
      rw [squareForm_diag _ _ _ _ i hi]
      have hfun : (fun t => (RBF.computeCov Real.exp ker K Dv (Mat.ofCol [noise, Real.exp t])
          jitter evalGrad).K.coeff i i) = fun _ => 1.0 + noise + jitter := by
        funext t
        rw [computeCov_K_joint _ _ _ _ _ _ _ (hsz t), squareForm_diag _ _ _ _ i hi, hc0]
      rw [hfun]
      have h0 : (0.0 : ℝ) = 0 := by norm_num
      rw [h0]
      exact hasDerivAt_const θ _
    · rw [squareForm_offdiag _ _ _ _ i j hi hj hne]
      have hfun : (fun t => (RBF.computeCov Real.exp ker K Dv (Mat.ofCol [noise, Real.exp t])
          jitter evalGrad).K.coeff i j) = fun t => Real.exp (-0.5 / (Real.exp t) ^ 2
            * Dv.coeff (condensedIndex K.rows (min i j) (max i j)) 0) := by
        funext t
        rw [computeCov_K_joint _ _ _ _ _ _ _ (hsz t), squareForm_offdiag _ _ _ _ i j hi hj hne]
        simp only [Mat.map, hc]
      rw [hfun]
      simp only [Mat.map, Mat.cwiseMul, hc]
      exact hasDerivAt_rbf _ θ


theorem computeCov_grad_length [Field α] (exp : α → α) (ker : Kernel α) (K Dv params : Mat α)
    (jitter : α) : (RBF.computeCov exp ker K Dv params jitter true).gradList.length = 1 := by
  by_cases h : ker.paramCount < params.size
  · rw [computeCov_grad_joint _ _ _ _ _ _ h]; rfl
  · rw [computeCov_grad_fixed _ _ _ _ _ _ h]; rfl

/-- C9: the length-scale gradient matrix is the derivative of `K` in log space.
With `l = exp θ`, the value `d / l^2 * exp(-d / (2 l^2))` (derivative order 1 of
`evalDistKernel`) is the derivative in `θ` of `exp(-d / (2 exp(θ)^2))`
(derivative order 0); in both parameter layouts the one matrix `G` of the
gradient list of `computeCov` holds that value off the diagonal and zero on
it, and every coefficient of `G` is the derivative in `θ` of the same
coefficient of `K`, whose diagonal `1 + noise + jitter` is constant. -/
theorem C9_gradient_matrix_is_log_derivative (ker : Kernel ℝ) (K Dv : Mat ℝ)
    (jitter noise θ : ℝ) (hpc : ker.paramCount = 1) :
    (∀ d : ℝ, HasDerivAt (fun t => Real.exp (-d / (2 * (Real.exp t) ^ 2)))
      (d / (Real.exp θ) ^ 2 * Real.exp (-d / (2 * (Real.exp θ) ^ 2))) θ) ∧
    (∀ d : ℝ, HasDerivAt (fun t => RBF.evalDistKernel Real.exp d (Mat.ofCol [Real.exp t]) 0)
      (RBF.evalDistKernel Real.exp d (Mat.ofCol [Real.exp θ]) 1) θ) ∧
    (∃ G, (RBF.computeCov Real.exp ker K Dv (Mat.ofCol [Real.exp θ]) jitter true).gradList = [G] ∧
      (∀ i j, i < K.rows → j < K.rows → i ≠ j →
        G.coeff i j = Dv.coeff (condensedIndex K.rows (min i j) (max i j)) 0 / (Real.exp θ) ^ 2
          * Real.exp (-(Dv.coeff (condensedIndex K.rows (min i j) (max i j)) 0)
              / (2 * (Real.exp θ) ^ 2))) ∧
      (∀ i, i < K.rows → G.coeff i i = 0) ∧
      (∀ i j, i < K.rows → j < K.rows →
        HasDerivAt (fun t =>
          (RBF.computeCov Real.exp ker K Dv (Mat.ofCol [Real.exp t]) jitter true).K.coeff i j)
          (G.coeff i j) θ)) ∧
    (∃ G, (RBF.computeCov Real.exp ker K Dv (Mat.ofCol [noise, Real.exp θ]) jitter
        true).gradList = [G] ∧
      (∀ i j, i < K.rows → j < K.rows → i ≠ j →
        G.coeff i j = Dv.coeff (condensedIndex K.rows (min i j) (max i j)) 0 / (Real.exp θ) ^ 2
          * Real.exp (-(Dv.coeff (condensedIndex K.rows (min i j) (max i j)) 0)
              / (2 * (Real.exp θ) ^ 2))) ∧
      (∀ i, i < K.rows → G.coeff i i = 0) ∧
      (∀ i j, i < K.rows → j < K.rows →
        HasDerivAt (fun t =>
          (RBF.computeCov Real.exp ker K Dv (Mat.ofCol [noise, Real.exp t]) jitter
            true).K.coeff i j)
          (G.coeff i j) θ)) := by
  have hd : ∀ d : ℝ, HasDerivAt (fun t => Real.exp (-d / (2 * (Real.exp t) ^ 2)))
      (d / (Real.exp θ) ^ 2 * Real.exp (-d / (2 * (Real.exp θ) ^ 2))) θ := by
    intro d
    have h := hasDerivAt_rbf d θ
    simp only [exp_arg] at h
    convert h using 1
    ring
  have h2 : (2.0 : ℝ) = 2 := by norm_num
  refine ⟨hd, ?_, ?_, ?_⟩
  · intro d
    simpa [RBF.evalDistKernel, Mat.ofCol, h2] using hd d
  · obtain ⟨G, h1, _, _, h4, h5, h6⟩ := grad_fixed ker K Dv jitter θ true hpc
    exact ⟨G, h1, h4, h5, h6⟩
  · obtain ⟨G, h1, _, _, h4, h5, h6⟩ := grad_joint ker K Dv jitter noise θ true hpc
    exact ⟨G, h1, h4, h5, h6⟩

/-- C9 for the distance 25 at `θ = 0`, with a fresh RBF kernel. -/
theorem C9_gradient_matrix_is_log_derivative_witness :
    (rbfNew freshR).paramCount = 1 ∧
    HasDerivAt (fun t => Real.exp (-25 / (2 * (Real.exp t) ^ 2)))
      (25 / (Real.exp 0) ^ 2 * Real.exp (-25 / (2 * (Real.exp 0) ^ 2))) 0 :=
  ⟨rfl, (C9_gradient_matrix_is_log_derivative (rbfNew freshR) fresh3R condensedR (1 / 4) (1 / 2)
    0 rfl).1 25⟩

/-- C10 as stated fails: with noise not fixed (`params = [noise, l]`, longer
than `paramCount = 1`) there are two active hyperparameters, and the gradient
list `computeCov` returns has one matrix, not two; its diagonal is zero, so it
is not the derivative in the log of the noise, which is `noise = 1/2` there. -/
theorem C10_gradient_list_counterexample :
    (rbfNew freshR).paramCount < (Mat.ofCol [(1 / 2 : ℝ), 1]).size ∧
    (RBF.computeCov Real.exp (rbfNew freshR) fresh3R condensedR (Mat.ofCol [1 / 2, 1]) (1 / 4)
      true).gradList.length ≠ (rbfNew freshR).paramCount + 1 ∧
    (∀ G ∈ (RBF.computeCov Real.exp (rbfNew freshR) fresh3R condensedR (Mat.ofCol [1 / 2, 1])
      (1 / 4) true).gradList, G.coeff 0 0 = 0) := by
  refine ⟨by decide, ?_, ?_⟩
  · rw [computeCov_grad_length]; decide
  · intro G hG
    rw [computeCov_grad_joint _ _ _ _ _ _ (by decide), List.mem_singleton] at hG
    rw [hG, squareForm_diag _ _ _ _ 0 (by decide)]
    norm_num

/-- C10, amended: when the gradient is requested `computeCov` returns exactly
one n x n matrix, one per kernel parameter (`paramCount = 1`) and none for the
noise, in both parameter layouts; that matrix has a zero diagonal and is the
derivative of `K` in the log of the length-scale; when the gradient is not
requested the list is empty. -/
theorem C10_gradient_list_shape (ker : Kernel ℝ) (K Dv : Mat ℝ) (jitter noise θ : ℝ)
    (hpc : ker.paramCount = 1) :
    (∀ params, (RBF.computeCov Real.exp ker K Dv params jitter false).gradList = []) ∧
    (∀ params,
      (RBF.computeCov Real.exp ker K Dv params jitter true).gradList.length = ker.paramCount) ∧
    (∃ G, (RBF.computeCov Real.exp ker K Dv (Mat.ofCol [Real.exp θ]) jitter true).gradList = [G] ∧
      G.rows = K.rows ∧ G.cols = K.rows ∧ (∀ i, i < K.rows → G.coeff i i = 0) ∧
      (∀ i j, i < K.rows → j < K.rows →
        HasDerivAt (fun t =>
          (RBF.computeCov Real.exp ker K Dv (Mat.ofCol [Real.exp t]) jitter true).K.coeff i j)
          (G.coeff i j) θ)) ∧
    (∃ G, (RBF.computeCov Real.exp ker K Dv (Mat.ofCol [noise, Real.exp θ]) jitter
        true).gradList = [G] ∧
      G.rows = K.rows ∧ G.cols = K.rows ∧ (∀ i, i < K.rows → G.coeff i i = 0) ∧
      (∀ i j, i < K.rows → j < K.rows →
        HasDerivAt (fun t =>
          (RBF.computeCov Real.exp ker K Dv (Mat.ofCol [noise, Real.exp t]) jitter
            true).K.coeff i j)
          (G.coeff i j) θ)) := by
  refine ⟨fun params => computeCov_grad_none _ _ _ _ _ _, fun params => ?_, ?_, ?_⟩
  · rw [computeCov_grad_length, hpc]
  · obtain ⟨G, h1, h2, h3, _, h5, h6⟩ := grad_fixed ker K Dv jitter θ true hpc
    exact ⟨G, h1, h2, h3, h5, h6⟩
  · obtain ⟨G, h1, h2, h3, _, h5, h6⟩ := grad_joint ker K Dv jitter noise θ true hpc
    exact ⟨G, h1, h2, h3, h5, h6⟩

/-- C10 (amended) with a fresh RBF kernel on three points: one matrix in the
joint layout, none without the gradient. -/
theorem C10_gradient_list_shape_witness :
    (rbfNew freshR).paramCount = 1 ∧
    (RBF.computeCov Real.exp (rbfNew freshR) fresh3R condensedR (Mat.ofCol [1 / 2, 1]) (1 / 4)
      true).gradList.length = 1 ∧
    (RBF.computeCov Real.exp (rbfNew freshR) fresh3R condensedR (Mat.ofCol [1 / 2, 1]) (1 / 4)
      false).gradList = [] :=
  ⟨rfl,
   (C10_gradient_list_shape (rbfNew freshR) fresh3R condensedR (1 / 4) (1 / 2) 0 rfl).2.1
     (Mat.ofCol [1 / 2, 1]),
   (C10_gradient_list_shape (rbfNew freshR) fresh3R condensedR (1 / 4) (1 / 2) 0 rfl).1
     (Mat.ofCol [1 / 2, 1])⟩


/-! ## C6: the value of the objective -/

theorem list_sum_range_fin {β : Type} [AddCommMonoid β] (f : Nat → β) (n : Nat) :
    ((List.range n).map f).sum = ∑ i : Fin n, f i.val := by
  rw [list_sum_range_map, Finset.sum_range]

theorem sum_diagonal_map (f : ℝ → ℝ) (L : Mat ℝ) (n : Nat) (hr : L.rows = n) (hc : L.cols = n) :
    (L.diagonal.map f).sum = ∑ i : Fin n, f (L.coeff i i) := by
  subst hr
  have h1 : List.range 1 = [0] := rfl
  simp only [Mat.sum, Mat.map, Mat.diagonal, hc, Nat.min_self, h1, List.map_cons, List.map_nil,
    List.sum_cons, List.sum_nil, add_zero]
  exact list_sum_range_fin _ _

theorem transpose_mul_coeff (y a : Mat ℝ) (n : Nat) (hy : y.rows = n) :
    (y.transpose.mul a).coeff 0 0 = Matrix.dotProduct (y.toVec n) (a.toVec n) := by
  subst hy
  simp only [Mat.mul, Mat.transpose, Matrix.dotProduct, Mat.toVec]
  exact list_sum_range_fin _ _

/-- The value `evalNLML` returns, in terms of the factor and `alpha` it caches. -/
theorem evalNLML_value (E : Eigen ℝ) (gp : GaussianProcess ℝ) (p g : Mat ℝ) (evalGrad : Bool)
    (hY : gp.obsY.rows = gp.obsX.rows)
    (hr : (evalNLML ⟨Real.exp, Real.log, Real.arctan⟩ E gp p g evalGrad).gp.cholesky.rows
      = gp.obsX.rows)
    (hc : (evalNLML ⟨Real.exp, Real.log, Real.arctan⟩ E gp p g evalGrad).gp.cholesky.cols
      = gp.obsX.rows) :
    (evalNLML ⟨Real.exp, Real.log, Real.arctan⟩ E gp p g evalGrad).value
      = 0.5 * Matrix.dotProduct (gp.obsY.toVec gp.obsX.rows)
          ((evalNLML ⟨Real.exp, Real.log, Real.arctan⟩ E gp p g evalGrad).gp._alpha.toVec
            gp.obsX.rows)
        + ∑ i : Fin gp.obsX.rows, Real.log
            ((evalNLML ⟨Real.exp, Real.log, Real.arctan⟩ E gp p g evalGrad).gp.cholesky.coeff i i)
        + 0.5 * (gp.obsX.rows : ℝ) * Real.log (2 * Real.pi) := by
  have hpi : PI (⟨Real.exp, Real.log, Real.arctan⟩ : Libm ℝ) = Real.pi := by
    simp [PI, Real.arctan_one]
  cases evalGrad
  all_goals
    simp only [evalNLML, Bool.false_eq_true, if_false, if_true] at hr hc ⊢
    rw [hpi, sum_diagonal_map Real.log _ _ hr hc, transpose_mul_coeff _ _ _ hY]


/-- For a lower-triangular `L` with positive diagonal and `L * Lᵀ = K`, the sum of
the logarithms of the diagonal of `L` is half the logarithm of `det K`. -/
theorem sum_log_diag_eq {n : Nat} (L K : Matrix (Fin n) (Fin n) ℝ)
    (hlow : ∀ i j, i < j → L i j = 0) (hpos : ∀ i, 0 < L i i) (h : L * L.transpose = K) :
    0 < K.det ∧ ∑ i, Real.log (L i i) = 0.5 * Real.log K.det := by
  have hdet : L.det = ∏ i, L i i := by
    apply Matrix.det_of_lowerTriangular
    intro i j hij
    exact hlow i j hij
  have hp : 0 < ∏ i, L i i := Finset.prod_pos (fun i _ => hpos i)
  have hK : K.det = (∏ i, L i i) * (∏ i, L i i) := by
    rw [← h, Matrix.det_mul, Matrix.det_transpose, hdet]
  refine ⟨by rw [hK]; positivity, ?_⟩
  rw [hK, Real.log_mul hp.ne' hp.ne', Real.log_prod _ _ (fun i _ => (hpos i).ne')]
  norm_num
  ring


/-- C6: the value of `evalNLML` is the negative log marginal likelihood.  When
the factor `L` that `evalNLML` caches is n x n lower triangular with positive
diagonal and `L * Lᵀ = K`, and the cached `alpha` is `K⁻¹ y`, the returned value
`0.5 yᵀ alpha + Σ log L(i,i) + 0.5 n log(2π)` equals
`0.5 yᵀ K⁻¹ y + 0.5 log(det K) + 0.5 n log(2π)`, which is minus the logarithm of
the density of `N(0, K)` at `y`. -/
theorem C6_nlml_is_negative_log_likelihood (E : Eigen ℝ) (gp : GaussianProcess ℝ)
    (p g : Mat ℝ) (evalGrad : Bool) (r : NLMLResult ℝ)
    (hres : evalNLML ⟨Real.exp, Real.log, Real.arctan⟩ E gp p g evalGrad = r)
    (hY : gp.obsY.rows = gp.obsX.rows)
    (hrows : r.gp.cholesky.rows = gp.obsX.rows) (hcols : r.gp.cholesky.cols = gp.obsX.rows)
    (hlow : ∀ i j, i < j → j < gp.obsX.rows → r.gp.cholesky.coeff i j = 0)
    (hpos : ∀ i, i < gp.obsX.rows → 0 < r.gp.cholesky.coeff i i)
    (hLLt : r.gp.cholesky.toMatrix gp.obsX.rows gp.obsX.rows
        * (r.gp.cholesky.toMatrix gp.obsX.rows gp.obsX.rows).transpose
      = r.gp.K.toMatrix gp.obsX.rows gp.obsX.rows)
    (halpha : r.gp._alpha.toVec gp.obsX.rows
      = (r.gp.K.toMatrix gp.obsX.rows gp.obsX.rows)⁻¹.mulVec (gp.obsY.toVec gp.obsX.rows)) :
    r.value
      = 0.5 * Matrix.dotProduct (gp.obsY.toVec gp.obsX.rows)
          ((r.gp.K.toMatrix gp.obsX.rows gp.obsX.rows)⁻¹.mulVec (gp.obsY.toVec gp.obsX.rows))
        + 0.5 * Real.log (r.gp.K.toMatrix gp.obsX.rows gp.obsX.rows).det
        + 0.5 * (gp.obsX.rows : ℝ) * Real.log (2 * Real.pi) ∧
    r.value
      = -Real.log (Real.exp (-(1 / 2) * Matrix.dotProduct (gp.obsY.toVec gp.obsX.rows)
          ((r.gp.K.toMatrix gp.obsX.rows gp.obsX.rows)⁻¹.mulVec (gp.obsY.toVec gp.obsX.rows)))
        / Real.sqrt ((2 * Real.pi) ^ gp.obsX.rows
            * (r.gp.K.toMatrix gp.obsX.rows gp.obsX.rows).det)) := by
  subst hres
  have hv := evalNLML_value E gp p g evalGrad hY hrows hcols
  have hs := sum_log_diag_eq _ _ (fun i j hij => hlow i j hij j.isLt) (fun i => hpos i i.isLt) hLLt
  have hs2 : ∑ i : Fin gp.obsX.rows, Real.log
      ((evalNLML ⟨Real.exp, Real.log, Real.arctan⟩ E gp p g evalGrad).gp.cholesky.coeff i i)
      = 0.5 * Real.log ((evalNLML ⟨Real.exp, Real.log, Real.arctan⟩ E gp p g
          evalGrad).gp.K.toMatrix gp.obsX.rows gp.obsX.rows).det := hs.2
  rw [hs2, halpha] at hv
  refine ⟨hv, ?_⟩
  rw [hv]
  have hpi : (0 : ℝ) < (2 * Real.pi) ^ gp.obsX.rows := by positivity
  have hdet := hs.1
  rw [Real.log_div (Real.exp_pos _).ne' (Real.sqrt_pos.2 (mul_pos hpi hdet)).ne', Real.log_exp,
    Real.log_sqrt (mul_pos hpi hdet).le, Real.log_mul hpi.ne' hdet.ne', Real.log_pow]
  norm_num
  ring


theorem evalNLML_K [Field α] (F : Libm α) (E : Eigen α) (gp : GaussianProcess α) (p g : Mat α)
    (evalGrad : Bool) :
    (evalNLML F E gp p g evalGrad).gp.K
      = (RBF.computeCov F.exp gp.kernel (gp.K.resize gp.obsX.rows gp.obsX.rows) gp.distMatrix
          (p.map F.exp) gp.jitter evalGrad).K := by
  cases evalGrad <;> rfl

theorem evalNLML_cholesky [Field α] (F : Libm α) (E : Eigen α) (gp : GaussianProcess α)
    (p g : Mat α) (evalGrad : Bool) :
    (evalNLML F E gp p g evalGrad).gp.cholesky = E.llt (evalNLML F E gp p g evalGrad).gp.K := by
  cases evalGrad <;> rfl

theorem evalNLML_alpha [Field α] (F : Libm α) (E : Eigen α) (gp : GaussianProcess α)
    (p g : Mat α) (evalGrad : Bool) :
    (evalNLML F E gp p g evalGrad).gp._alpha
      = E.lltSolve (evalNLML F E gp p g evalGrad).gp.cholesky gp.obsY := by
  cases evalGrad <;> rfl

/-- The covariance matrix of the two coincident points with fixed noise. -/
theorem twinFixed_K (F : Libm ℝ) (hF : F.exp = Real.exp) (E : Eigen ℝ) (noise : ℝ) (p g : Mat ℝ)
    (hp : p.size = 1) (evalGrad : Bool) :
    (evalNLML F E (twinFixed noise) p g evalGrad).gp.K.toMatrix 2 2
      = !![1 + noise + 1e-10, 1; 1, 1 + noise + 1e-10] := by
  rw [evalNLML_K]
  have hsz : ¬ (twinFixed noise).kernel.paramCount < (p.map F.exp).size := by
    have : (p.map F.exp).size = 1 := hp
    rw [this]
    have hpc : (twinFixed noise).kernel.paramCount = 1 := rfl
    rw [hpc]; decide
  rw [computeCov_K_fixed _ _ _ _ _ _ _ hsz]
  have hn : ((twinFixed noise).K.resize (twinFixed noise).obsX.rows
      (twinFixed noise).obsX.rows).rows = 2 := rfl
  rw [hn]
  have h01 := squareForm_coeff ((twinFixed noise).K.resize (twinFixed noise).obsX.rows
      (twinFixed noise).obsX.rows)
    (((twinFixed noise).distMatrix.map (fun d => (-0.5 / ((p.map F.exp).coeff 0 0) ^ 2) * d)).map
      F.exp) 2 (1.0 + (twinFixed noise).kernel.noiseLevel + (twinFixed noise).jitter) 0 1
    (by decide) (by decide)
  have hd := fun i (hi : i < 2) => squareForm_diag ((twinFixed noise).K.resize
      (twinFixed noise).obsX.rows (twinFixed noise).obsX.rows)
    (((twinFixed noise).distMatrix.map (fun d => (-0.5 / ((p.map F.exp).coeff 0 0) ^ 2) * d)).map
      F.exp) 2 (1.0 + (twinFixed noise).kernel.noiseLevel + (twinFixed noise).jitter) i hi
  have hdist : (twinFixed noise).distMatrix.coeff (condensedIndex 2 0 1) 0 = 0 := by
    have := pdist_coeff (GaussianProcess.new (rbfNew (⟨0, 0, fun _ _ => 0⟩ : Mat ℝ)) 1
      1).distMatrix (twinX : Mat ℝ) twinX 0 1 (by decide) (by decide)
    simp only [twinFixed, computeDistMat, GaussianProcess.setNoise, GaussianProcess.setObs,
      GaussianProcess.setKernel]
    have hr : (twinX : Mat ℝ).rows = 2 := rfl
    rw [hr] at this
    rw [this]
    simp [twinX, Mat.ofRows]
  have hval : (((twinFixed noise).distMatrix.map
      (fun d => (-0.5 / ((p.map F.exp).coeff 0 0) ^ 2) * d)).map F.exp).coeff
        (condensedIndex 2 0 1) 0 = 1 := by
    simp only [Mat.map, hdist, hF, mul_zero, Real.exp_zero]
  have hnoise : (1.0 : ℝ) + (twinFixed noise).kernel.noiseLevel + (twinFixed noise).jitter
      = 1 + noise + 1e-10 := by
    have h1 : (1.0 : ℝ) = 1 := by norm_num
    simp [twinFixed, computeDistMat, GaussianProcess.setNoise, GaussianProcess.setObs,
      GaussianProcess.setKernel, GaussianProcess.new, Kernel.setNoise, h1]
  ext i j
  fin_cases i <;> fin_cases j
  · simpa [Mat.toMatrix, hnoise] using hd 0 (by decide)
  · simpa [Mat.toMatrix, hval] using h01.1
  · simpa [Mat.toMatrix, hval] using h01.2
  · simpa [Mat.toMatrix, hnoise] using hd 1 (by decide)


theorem inv_two_by_two (a : ℝ) (ha : a * a - 1 ≠ 0) :
    (!![a, 1; 1, a] : Matrix (Fin 2) (Fin 2) ℝ)⁻¹
      = !![a / (a * a - 1), -1 / (a * a - 1); -1 / (a * a - 1), a / (a * a - 1)] := by
  apply Matrix.inv_eq_right_inv
  ext i j
  fin_cases i <;> fin_cases j <;>
    simp [Matrix.mul_apply, Fin.sum_univ_two] <;> field_simp <;> ring

/-- C6 on two coincident points with targets (1, 0), fixed noise `3 - 1e-10`
and `p = [0]`: `K = [[4, 1], [1, 4]]`, factor `[[2, 0], [1/2, √15/2]]`,
`alpha = [4/15, -1/15]`. -/
theorem C6_nlml_is_negative_log_likelihood_witness :
    (evalNLML ⟨Real.exp, Real.log, Real.arctan⟩
      ⟨fun _ => Mat.ofRows [[2, 0], [1 / 2, Real.sqrt 15 / 2]],
        fun _ _ => Mat.ofCol [4 / 15, -1 / 15], fun _ B => B⟩
      (twinFixed (3 - 1e-10)) (Mat.ofCol [0]) freshR false).value
      = 0.5 * (4 / 15) + 0.5 * Real.log 15 + 0.5 * ((2 : ℕ) : ℝ) * Real.log (2 * Real.pi) := by
  have hK := twinFixed_K ⟨Real.exp, Real.log, Real.arctan⟩ rfl
    ⟨fun _ => Mat.ofRows [[2, 0], [1 / 2, Real.sqrt 15 / 2]],
      fun _ _ => Mat.ofCol [4 / 15, -1 / 15], fun _ B => B⟩
    (3 - 1e-10) (Mat.ofCol [0]) freshR rfl false
  have h4 : (1 : ℝ) + (3 - 1e-10) + 1e-10 = 4 := by norm_num
  rw [h4] at hK
  have hinv := inv_two_by_two 4 (by norm_num)
  have h := (C6_nlml_is_negative_log_likelihood
    ⟨fun _ => Mat.ofRows [[2, 0], [1 / 2, Real.sqrt 15 / 2]],
      fun _ _ => Mat.ofCol [4 / 15, -1 / 15], fun _ B => B⟩
    (twinFixed (3 - 1e-10)) (Mat.ofCol [0]) freshR false _ rfl rfl rfl rfl
    (by
      intro i j hij hj
      have hj2 : j < 2 := hj
      interval_cases j
      · omega
      · interval_cases i
        simp [evalNLML, Mat.ofRows])
    (by
      intro i hi
      have hi2 : i < 2 := hi
      interval_cases i
      · simp [evalNLML, Mat.ofRows]
      · simp [evalNLML, Mat.ofRows])
    (by
      have e : (twinFixed (3 - 1e-10 : ℝ)).obsX.rows = 2 := rfl
      rw [e, hK]
      ext i j
      fin_cases i <;> fin_cases j <;>
        simp [evalNLML, Mat.ofRows, Mat.toMatrix, Matrix.mul_apply, Fin.sum_univ_two]
      · norm_num
      · field_simp
        norm_num)
    (by
      have e : (twinFixed (3 - 1e-10 : ℝ)).obsX.rows = 2 := rfl
      rw [e, hK, hinv]
      ext i
      fin_cases i <;>
        simp [evalNLML, Mat.ofCol, Mat.toVec, Matrix.mulVec, Matrix.dotProduct,
          Fin.sum_univ_two, twinFixed, computeDistMat, GaussianProcess.setNoise,
          GaussianProcess.setObs, twinY] <;> norm_num)).1
  have e : (twinFixed (3 - 1e-10 : ℝ)).obsX.rows = 2 := rfl
  rw [e, hK, hinv] at h
  rw [h]
  have hdet : (!![4, 1; 1, 4] : Matrix (Fin 2) (Fin 2) ℝ).det = 15 := by
    rw [Matrix.det_fin_two_of]; norm_num
  rw [hdet]
  congr 2
  simp [Mat.toVec, Matrix.mulVec, Matrix.dotProduct, Fin.sum_univ_two, twinFixed,
    computeDistMat, GaussianProcess.setNoise, GaussianProcess.setObs, twinY, Mat.ofCol]
  norm_num


/-! ## C7: the gradient vector -/

theorem trace_mulScalar [Field α] (M : Mat α) (c : α) :
    (M.mulScalar c).trace = M.trace * c := by
  simp only [Mat.trace, Mat.mulScalar, Mat.map]
  generalize List.range (min M.rows M.cols) = l
  induction l with
  | nil => simp
  | cons a l ih => simp only [List.map_cons, List.sum_cons, ih]; ring

theorem computeCov_grad_exists [Field α] (exp : α → α) (ker : Kernel α) (K Dv params : Mat α)
    (jitter : α) : ∃ dK, (RBF.computeCov exp ker K Dv params jitter true).gradList = [dK] := by
  by_cases h : ker.paramCount < params.size
  · exact ⟨_, computeCov_grad_joint _ _ _ _ _ _ h⟩
  · exact ⟨_, computeCov_grad_fixed _ _ _ _ _ _ h⟩

/-- C7: layout and formula of the gradient vector.  With the gradient
requested, `evalNLML` caches `term = solve(I) - alpha alphaᵀ`, which is
`K⁻¹ - alpha alphaᵀ` when the solve against the identity returns `K⁻¹`; with
`dK` the one matrix of the gradient list of `computeCov`, it writes, when noise
is not fixed, `g(0) = 0.5 trace(term) exp(p(0))` and then
`g(1) = 0.5 trace(term * dK)`, and when noise is fixed `g(0) = 0.5 trace(term * dK)`;
the entries written are `0, ..., augParamCount - 1` in this order, with
`augParamCount = paramCount + (1 if noise is not fixed)`, and no other entry
of `g` changes. -/
theorem C7_gradient_vector_layout (F : Libm ℝ) (E : Eigen ℝ) (gp : GaussianProcess ℝ)
    (p g : Mat ℝ) (r : NLMLResult ℝ) (hres : evalNLML F E gp p g true = r)
    (hpc : gp.kernel.paramCount = 1) :
    r.gp.term = (E.lltSolve r.gp.cholesky (Mat.identity gp.obsX.rows gp.obsX.rows)).sub
      (r.gp._alpha.mul r.gp._alpha.transpose) ∧
    ((E.lltSolve r.gp.cholesky (Mat.identity gp.obsX.rows gp.obsX.rows)).toMatrix
        gp.obsX.rows gp.obsX.rows = (r.gp.K.toMatrix gp.obsX.rows gp.obsX.rows)⁻¹ →
      r.gp._alpha.cols = 1 →
      r.gp.term.toMatrix gp.obsX.rows gp.obsX.rows
        = (r.gp.K.toMatrix gp.obsX.rows gp.obsX.rows)⁻¹
          - Matrix.vecMulVec (r.gp._alpha.toVec gp.obsX.rows) (r.gp._alpha.toVec gp.obsX.rows)) ∧
    (∃ dK, (RBF.computeCov F.exp gp.kernel (gp.K.resize gp.obsX.rows gp.obsX.rows)
        gp.distMatrix (p.map F.exp) gp.jitter true).gradList = [dK] ∧
      (gp.fixedNoise = false →
        r.gWrites = [0, 1] ∧
        r.g.coeff 0 0 = 0.5 * (r.gp.term.trace * F.exp (p.coeff 0 0)) ∧
        r.g.coeff 1 0 = 0.5 * (r.gp.term.mul dK).trace) ∧
      (gp.fixedNoise = true →
        r.gWrites = [0] ∧
        r.g.coeff 0 0 = 0.5 * (r.gp.term.mul dK).trace)) ∧
    r.gWrites = List.range (gp.kernel.paramCount + (if gp.fixedNoise then 0 else 1)) ∧
    (∀ a b, ¬ (a ∈ r.gWrites ∧ b = 0) → r.g.coeff a b = g.coeff a b) := by
  subst hres
  obtain ⟨dK, hdK⟩ := computeCov_grad_exists F.exp gp.kernel
    (gp.K.resize gp.obsX.rows gp.obsX.rows) gp.distMatrix (p.map F.exp) gp.jitter
  refine ⟨rfl, ?_, ⟨dK, hdK, ?_, ?_⟩, ?_, ?_⟩
  · intro hinv hcol
    have hterm : (evalNLML F E gp p g true).gp.term
        = (E.lltSolve (evalNLML F E gp p g true).gp.cholesky
            (Mat.identity gp.obsX.rows gp.obsX.rows)).sub
          ((evalNLML F E gp p g true).gp._alpha.mul
            (evalNLML F E gp p g true).gp._alpha.transpose) := rfl
    rw [hterm, ← hinv]
    ext i j
    have h1 : List.range 1 = [0] := rfl
    simp [Mat.toMatrix, Mat.sub, Mat.mul, Mat.transpose, Matrix.vecMulVec_apply, Mat.toVec,
      hcol, h1]
  all_goals
    have hg : (evalNLML F E gp p g true).g
        = (gradLoop (evalNLML F E gp p g true).gp.term [dK]
            (if !gp.fixedNoise then
              (g.set 0 0 (0.5 * ((evalNLML F E gp p g true).gp.term.mulScalar
                ((p.map F.exp).coeff 0 0)).trace), 1, [0])
            else (g, 0, []))).1 := by
      rw [← hdK]; rfl
    have hw : (evalNLML F E gp p g true).gWrites
        = (gradLoop (evalNLML F E gp p g true).gp.term [dK]
            (if !gp.fixedNoise then
              (g.set 0 0 (0.5 * ((evalNLML F E gp p g true).gp.term.mulScalar
                ((p.map F.exp).coeff 0 0)).trace), 1, [0])
            else (g, 0, []))).2.2 := by
      rw [← hdK]; rfl
    simp only [hg, hw]
    generalize (evalNLML F E gp p g true).gp.term = T
  · intro hf
    simp [hf, gradLoop, Mat.set, trace_mulScalar, Mat.map]
  · intro hf
    simp [hf, gradLoop, Mat.set]
  · cases hf : gp.fixedNoise
    · simp [gradLoop, hpc]
      rfl
    · simp [gradLoop, hpc]
      rfl
  · intro a b hab
    cases hf : gp.fixedNoise
    · rw [hf] at hab
      simp only [gradLoop, Bool.not_false, if_true, List.foldl_cons, List.foldl_nil,
        List.cons_append, List.nil_append, Mat.set, List.mem_cons, List.mem_singleton,
        List.not_mem_nil, or_false] at hab ⊢
      have h0 : ¬ (a = 0 ∧ b = 0) := fun h => hab ⟨Or.inl h.1, h.2⟩
      have h1 : ¬ (a = 0 + 1 ∧ b = 0) := fun h => hab ⟨Or.inr h.1, h.2⟩
      simp only [Nat.zero_add] at h1
      simp [h0, h1]
    · rw [hf] at hab
      simp only [gradLoop, Bool.not_true, if_false, List.foldl_cons, List.foldl_nil,
        List.nil_append, Mat.set, List.mem_singleton, Bool.false_eq_true] at hab ⊢
      have h0 : ¬ (a = 0 ∧ b = 0) := fun h => hab h
      simp [h0]


/-- C7 on the two coincident points with the noise left to the optimiser:
`augParamCount = 2` entries are written, index 0 (noise) first. -/
theorem C7_gradient_vector_layout_witness :
    (twinJoint : GaussianProcess ℝ).kernel.paramCount = 1 ∧
    (evalNLML ⟨Real.exp, Real.log, Real.arctan⟩ ⟨fun K => K, fun _ B => B, fun _ B => B⟩
      twinJoint (Mat.ofCol [0, 0]) (Mat.ofCol [0, 0]) true).gWrites = [0, 1] :=
  ⟨rfl,
   (C7_gradient_vector_layout ⟨Real.exp, Real.log, Real.arctan⟩
      ⟨fun K => K, fun _ B => B, fun _ B => B⟩ twinJoint (Mat.ofCol [0, 0]) (Mat.ofCol [0, 0])
      _ rfl rfl).2.2.2.1.trans (by decide)⟩


/-! ## C5: the training covariance is positive definite -/

/-- The Gram form of the power kernel `(x, y) ↦ ⟨x, y⟩ ^ m` is a sum of squares. -/
theorem gram_pow_nonneg {n d : Nat} (x : Fin n → Fin d → ℝ) (w : Fin n → ℝ) (m : Nat) :
    0 ≤ ∑ i, ∑ j, w i * w j * (∑ k, x i k * x j k) ^ m := by
  have key : ∀ i j, (∑ k, x i k * x j k) ^ m
      = ∑ q : Fin m → Fin d, (∏ r, x i (q r)) * (∏ r, x j (q r)) := by
    intro i j
    rw [← Fin.prod_const, Finset.prod_univ_sum, Fintype.piFinset_univ]
    exact Finset.sum_congr rfl (fun q _ => Finset.prod_mul_distrib)
  have e : ∑ i, ∑ j, w i * w j * (∑ k, x i k * x j k) ^ m
      = ∑ q : Fin m → Fin d, (∑ i, w i * ∏ r, x i (q r)) * (∑ j, w j * ∏ r, x j (q r)) := by
    simp_rw [key, Finset.mul_sum, Finset.sum_mul]
    rw [Finset.sum_comm]
    conv_lhs => arg 2; ext; rw [Finset.sum_comm]
    rw [Finset.sum_comm]
    refine Finset.sum_congr rfl (fun q _ => ?_)
    rw [Finset.sum_comm]
    refine Finset.sum_congr rfl (fun i _ => Finset.sum_congr rfl (fun j _ => ?_))
    ring
  rw [e]
  exact Finset.sum_nonneg (fun q _ => mul_self_nonneg _)

/-- The Gram form of the kernel `(x, y) ↦ exp(s ⟨x, y⟩)`, by the exponential series. -/
theorem gram_exp_nonneg {n d : Nat} (x : Fin n → Fin d → ℝ) (w : Fin n → ℝ) (s : ℝ)
    (hs : 0 ≤ s) :
    0 ≤ ∑ i, ∑ j, w i * w j * Real.exp (s * ∑ k, x i k * x j k) := by
  have h : HasSum (fun m : ℕ => ∑ i, ∑ j, w i * w j * ((s * ∑ k, x i k * x j k) ^ m / m.factorial))
      (∑ i, ∑ j, w i * w j * Real.exp (s * ∑ k, x i k * x j k)) := by
    refine hasSum_sum (fun i _ => hasSum_sum (fun j _ => HasSum.mul_left _ ?_))
    rw [Real.exp_eq_exp_ℝ]
    exact NormedSpace.expSeries_div_hasSum_exp ℝ _
  refine h.nonneg (fun m => ?_)
  have e : ∑ i, ∑ j, w i * w j * ((s * ∑ k, x i k * x j k) ^ m / m.factorial)
      = (s ^ m / m.factorial) * ∑ i, ∑ j, w i * w j * (∑ k, x i k * x j k) ^ m := by
    rw [Finset.mul_sum]
    refine Finset.sum_congr rfl (fun i _ => ?_)
    rw [Finset.mul_sum]
    refine Finset.sum_congr rfl (fun j _ => ?_)
    rw [mul_pow]
    ring
  rw [e]
  exact mul_nonneg (by positivity) (gram_pow_nonneg x w m)

/-- The Gram form of the Gaussian kernel `(x, y) ↦ exp(-c |x - y|²)`. -/
theorem gram_gauss_nonneg {n d : Nat} (x : Fin n → Fin d → ℝ) (w : Fin n → ℝ) (c : ℝ)
    (hc : 0 ≤ c) :
    0 ≤ ∑ i, ∑ j, w i * w j * Real.exp (-c * ∑ k, (x i k - x j k) ^ 2) := by
  have h := gram_exp_nonneg x (fun i => w i * Real.exp (-c * ∑ k, x i k ^ 2)) (2 * c)
    (by positivity)
  refine le_of_le_of_eq h ?_
  refine Finset.sum_congr rfl (fun i _ => Finset.sum_congr rfl (fun j _ => ?_))
  have e : -c * ∑ k, (x i k - x j k) ^ 2
      = -c * ∑ k, x i k ^ 2 + -c * ∑ k, x j k ^ 2 + 2 * c * ∑ k, x i k * x j k := by
    simp only [Finset.mul_sum, ← Finset.sum_add_distrib]
    exact Finset.sum_congr rfl (fun k _ => by ring)
  rw [e, Real.exp_add, Real.exp_add]
  ring

/-- A matrix with Gaussian kernel values off the diagonal and `1 + a` on it,
`a > 0`, is positive definite. -/
theorem posDef_gauss_plus {n d : Nat} (x : Fin n → Fin d → ℝ) (c a : ℝ) (hc : 0 ≤ c)
    (ha : 0 < a) (A : Matrix (Fin n) (Fin n) ℝ)
    (hA : ∀ i j, A i j = if i = j then 1 + a else Real.exp (-c * ∑ k, (x i k - x j k) ^ 2)) :
    A.PosDef := by
  have hsplit : A = Matrix.of (fun i j => Real.exp (-c * ∑ k, (x i k - x j k) ^ 2))
      + Matrix.diagonal (fun _ => a) := by
    ext i j
    rw [hA i j]
    by_cases h : i = j
    · subst h
      simp
    · simp [h]
  rw [hsplit]
  refine Matrix.PosDef.posSemidef_add ⟨?_, fun w => ?_⟩ (Matrix.PosDef.diagonal (fun _ => ha))
  · ext i j
    simp only [Matrix.conjTranspose_apply, Matrix.of_apply, star_trivial]
    congr 2
    exact Finset.sum_congr rfl (fun k _ => by ring)
  · have h := gram_gauss_nonneg x w c hc
    refine le_of_le_of_eq h ?_
    simp only [Matrix.dotProduct, Matrix.mulVec, Matrix.of_apply, star_trivial, Pi.star_apply,
      Finset.mul_sum]
    exact Finset.sum_congr rfl (fun i _ => Finset.sum_congr rfl (fun j _ => by ring))

/-- Jacobi's formula: derivative of the determinant of a matrix of differentiable entries. -/
theorem hasDerivAt_det {n : Nat} (K : ℝ → Matrix (Fin n) (Fin n) ℝ)
    (K' : Matrix (Fin n) (Fin n) ℝ) (t0 : ℝ)
    (hK : ∀ i j, HasDerivAt (fun t => K t i j) (K' i j) t0) :
    HasDerivAt (fun t => (K t).det) (Matrix.trace ((K t0).adjugate * K')) t0 := by
  have h1 : ∀ σ : Equiv.Perm (Fin n),
      HasDerivAt (fun t => ((Equiv.Perm.sign σ : ℤ) : ℝ) * ∏ i, K t (σ i) i)
        (((Equiv.Perm.sign σ : ℤ) : ℝ) *
          ∑ i, (∏ j in Finset.univ.erase i, K t0 (σ j) j) • K' (σ i) i) t0 := by
    intro σ
    have hprod : HasDerivAt (fun t => ∏ i, K t (σ i) i)
        (∑ i, (∏ j in Finset.univ.erase i, K t0 (σ j) j) • K' (σ i) i) t0 :=
      HasDerivAt.finset_prod (fun i _ => hK (σ i) i)
    exact hprod.const_mul _
  have h2 := HasDerivAt.sum (u := Finset.univ) (fun σ _ => h1 σ)
  have hfun : (fun t => (K t).det)
      = (fun t => ∑ σ : Equiv.Perm (Fin n), ((Equiv.Perm.sign σ : ℤ) : ℝ) * ∏ i, K t (σ i) i) := by
    funext t
    rw [Matrix.det_apply']
  rw [hfun]
  convert h2 using 1
  · rw [Matrix.trace]
    simp only [Matrix.diag_apply, Matrix.mul_apply]
    have hcol : ∀ i, ∑ r, (K t0).adjugate i r * K' r i
        = ∑ σ : Equiv.Perm (Fin n), ((Equiv.Perm.sign σ : ℤ) : ℝ) *
            ((∏ j in Finset.univ.erase i, K t0 (σ j) j) * K' (σ i) i) := by
      intro i
      have e1 : ∑ r, (K t0).adjugate i r * K' r i
          = ((K t0).updateColumn i (fun r => K' r i)).det := by
        rw [← Matrix.cramer_apply, Matrix.cramer_eq_adjugate_mulVec]
        rfl
      rw [e1, Matrix.det_apply']
      refine Finset.sum_congr rfl (fun σ _ => ?_)
      congr 1
      rw [← Finset.mul_prod_erase Finset.univ _ (Finset.mem_univ i)]
      rw [Matrix.updateColumn_self, mul_comm]
      congr 1
      refine Finset.prod_congr rfl (fun j hj => ?_)
      rw [Matrix.updateColumn_ne (Finset.ne_of_mem_erase hj)]
    simp_rw [hcol, smul_eq_mul, Finset.mul_sum]
    rw [Finset.sum_comm]

theorem eventually_det_ne_zero {n : Nat} (K : ℝ → Matrix (Fin n) (Fin n) ℝ)
    (K' : Matrix (Fin n) (Fin n) ℝ) (t0 : ℝ)
    (hK : ∀ i j, HasDerivAt (fun t => K t i j) (K' i j) t0) (hdet : (K t0).det ≠ 0) :
    ∀ᶠ t in nhds t0, (K t).det ≠ 0 :=
  (hasDerivAt_det K K' t0 hK).continuousAt.eventually_ne hdet

theorem differentiableAt_inv_entry {n : Nat} (K : ℝ → Matrix (Fin n) (Fin n) ℝ)
    (K' : Matrix (Fin n) (Fin n) ℝ) (t0 : ℝ)
    (hK : ∀ i j, HasDerivAt (fun t => K t i j) (K' i j) t0) (hdet : (K t0).det ≠ 0)
    (i j : Fin n) : DifferentiableAt ℝ (fun t => (K t)⁻¹ i j) t0 := by
  have hadj : DifferentiableAt ℝ (fun t => (K t).adjugate i j) t0 := by
    have h := hasDerivAt_det (fun t => (K t).updateRow j (Pi.single i 1))
      (K'.updateRow j 0) t0 (fun a b => by
        by_cases ha : a = j
        · subst ha
          simp only [Matrix.updateRow_self]
          simpa using hasDerivAt_const t0 ((Pi.single i 1 : Fin n → ℝ) b)
        · simp only [Matrix.updateRow_ne ha]
          exact hK a b)
    have hfun : (fun t => (K t).adjugate i j)
        = fun t => ((K t).updateRow j (Pi.single i 1)).det := by
      funext t; rw [Matrix.adjugate_apply]
    rw [hfun]
    exact h.differentiableAt
  have hd := (hasDerivAt_det K K' t0 hK).differentiableAt
  have hfun : (fun t => (K t)⁻¹ i j) = fun t => ((K t).det)⁻¹ * (K t).adjugate i j := by
    funext t
    rw [Matrix.inv_def, Ring.inverse_eq_inv']
    simp
  rw [hfun]
  exact (hd.inv hdet).mul hadj

/-- Derivative of the inverse of a matrix of differentiable entries. -/
theorem hasDerivAt_inv_entry {n : Nat} (K : ℝ → Matrix (Fin n) (Fin n) ℝ)
    (K' : Matrix (Fin n) (Fin n) ℝ) (t0 : ℝ)
    (hK : ∀ i j, HasDerivAt (fun t => K t i j) (K' i j) t0) (hdet : (K t0).det ≠ 0)
    (i j : Fin n) :
    HasDerivAt (fun t => (K t)⁻¹ i j) ((-((K t0)⁻¹ * K' * (K t0)⁻¹)) i j) t0 := by
  -- the derivative exists; call it `M'`
  obtain ⟨M', hM'⟩ : ∃ M' : Matrix (Fin n) (Fin n) ℝ,
      ∀ a b, HasDerivAt (fun t => (K t)⁻¹ a b) (M' a b) t0 :=
    ⟨Matrix.of (fun a b => deriv (fun t => (K t)⁻¹ a b) t0),
     fun a b => (differentiableAt_inv_entry K K' t0 hK hdet a b).hasDerivAt⟩
  -- differentiate `K t * (K t)⁻¹ = 1`
  have hprod : ∀ a b, HasDerivAt (fun t => (K t * (K t)⁻¹) a b)
      ((K' * (K t0)⁻¹ + K t0 * M') a b) t0 := by
    intro a b
    have := HasDerivAt.sum (u := Finset.univ) (fun k _ => (hK a k).mul (hM' k b))
    simp only [Matrix.add_apply, Matrix.mul_apply, ← Finset.sum_add_distrib]
    convert this using 1
  have hone : ∀ a b, HasDerivAt (fun t => (K t * (K t)⁻¹) a b) 0 t0 := by
    intro a b
    refine (hasDerivAt_const t0 ((1 : Matrix (Fin n) (Fin n) ℝ) a b)).congr_of_eventuallyEq ?_
    filter_upwards [eventually_det_ne_zero K K' t0 hK hdet] with t ht
    rw [Matrix.mul_nonsing_inv _ (Ne.isUnit ht)]
  have hzero : K' * (K t0)⁻¹ + K t0 * M' = 0 := by
    ext a b
    exact (hprod a b).unique (hone a b)
  have hM : M' = -((K t0)⁻¹ * K' * (K t0)⁻¹) := by
    have h1 : K t0 * M' = -(K' * (K t0)⁻¹) := eq_neg_of_add_eq_zero_right hzero
    have h2 : (K t0)⁻¹ * (K t0 * M') = M' := by
      rw [← Matrix.mul_assoc, Matrix.nonsing_inv_mul _ (Ne.isUnit hdet), Matrix.one_mul]
    rw [← h2, h1, Matrix.mul_neg, Matrix.mul_assoc]
  rw [← hM]
  exact hM' i j

/-- Derivative of `t ↦ 0.5 yᵀ K(t)⁻¹ y + 0.5 log det K(t) + c` for a symmetric
invertible `K(t0)` with positive determinant. -/
theorem hasDerivAt_neg_log_likelihood {n : Nat} (K : ℝ → Matrix (Fin n) (Fin n) ℝ)
    (K' : Matrix (Fin n) (Fin n) ℝ) (t0 : ℝ)
    (hK : ∀ i j, HasDerivAt (fun t => K t i j) (K' i j) t0)
    (hsymm : (K t0).transpose = K t0) (hdet : 0 < (K t0).det) (y : Fin n → ℝ) (c : ℝ) :
    HasDerivAt
      (fun t => 0.5 * Matrix.dotProduct y ((K t)⁻¹.mulVec y) + 0.5 * Real.log (K t).det + c)
      (0.5 * Matrix.trace (((K t0)⁻¹
        - Matrix.vecMulVec ((K t0)⁻¹.mulVec y) ((K t0)⁻¹.mulVec y)) * K')) t0 := by
  have hq : HasDerivAt (fun t => Matrix.dotProduct y ((K t)⁻¹.mulVec y))
      (∑ i, ∑ j, y i * ((-((K t0)⁻¹ * K' * (K t0)⁻¹)) i j * y j)) t0 := by
    have h := HasDerivAt.sum (u := Finset.univ) (fun i _ =>
      HasDerivAt.sum (u := Finset.univ) (fun j _ =>
        ((hasDerivAt_inv_entry K K' t0 hK hdet.ne' i j).mul_const (y j)).const_mul (y i)))
    convert h using 1
    funext t
    simp [Matrix.dotProduct, Matrix.mulVec, Finset.mul_sum]
  have hl : HasDerivAt (fun t => Real.log (K t).det)
      (Matrix.trace ((K t0).adjugate * K') / (K t0).det) t0 :=
    (hasDerivAt_det K K' t0 hK).log hdet.ne'
  have h := (((hq.const_mul (0.5 : ℝ)).add (hl.const_mul (0.5 : ℝ))).add_const c)
  convert h using 1
  -- the value
  have hinvT : ((K t0)⁻¹).transpose = (K t0)⁻¹ := by
    rw [Matrix.transpose_nonsing_inv, hsymm]
  have hadj : (K t0).adjugate = (K t0).det • (K t0)⁻¹ := by
    rw [Matrix.inv_def, Ring.inverse_eq_inv', smul_smul, mul_inv_cancel₀ hdet.ne', one_smul]
  have e1 : Matrix.trace ((K t0).adjugate * K') / (K t0).det
      = Matrix.trace ((K t0)⁻¹ * K') := by
    rw [hadj, Matrix.smul_mul, Matrix.trace_smul, smul_eq_mul]
    field_simp
  have e2 : ∑ i, ∑ j, y i * ((-((K t0)⁻¹ * K' * (K t0)⁻¹)) i j * y j)
      = -Matrix.trace (Matrix.vecMulVec ((K t0)⁻¹.mulVec y) ((K t0)⁻¹.mulVec y) * K') := by
    have lhs : ∑ i, ∑ j, y i * ((-((K t0)⁻¹ * K' * (K t0)⁻¹)) i j * y j)
        = -Matrix.dotProduct y (((K t0)⁻¹ * K' * (K t0)⁻¹).mulVec y) := by
      simp only [Matrix.dotProduct, Matrix.mulVec, Matrix.neg_apply, Finset.mul_sum, neg_mul,
        mul_neg, Finset.sum_neg_distrib]
    have hvm : Matrix.vecMul y (K t0)⁻¹ = (K t0)⁻¹.mulVec y := by
      rw [← Matrix.mulVec_transpose, hinvT]
    rw [lhs, ← Matrix.mulVec_mulVec, ← Matrix.mulVec_mulVec, Matrix.dotProduct_mulVec, hvm]
    congr 1
    generalize (K t0)⁻¹.mulVec y = α
    simp only [Matrix.trace, Matrix.diag_apply, Matrix.mul_apply, Matrix.vecMulVec_apply,
      Matrix.dotProduct, Matrix.mulVec, Finset.mul_sum]
    rw [Finset.sum_comm]
    exact Finset.sum_congr rfl (fun a _ => Finset.sum_congr rfl (fun b _ => by ring))
  rw [e1, e2, Matrix.sub_mul, Matrix.trace_sub]
  ring

theorem quad_form_eq {n : Nat} (A : Matrix (Fin n) (Fin n) ℝ) (x : Fin n → ℝ) :
    Matrix.dotProduct (star x) (A.mulVec x) = ∑ i, ∑ j, x i * A i j * x j := by
  simp only [Matrix.dotProduct, Matrix.mulVec, star_trivial, Finset.mul_sum]
  exact Finset.sum_congr rfl (fun i _ => Finset.sum_congr rfl (fun j _ => by ring))

/-- Positive definiteness is kept near a point of a curve of symmetric matrices
with continuous entries. -/
theorem eventually_posDef {n : Nat} (K : ℝ → Matrix (Fin n) (Fin n) ℝ) (t0 : ℝ)
    (hc : ∀ i j, ContinuousAt (fun t => K t i j) t0)
    (hsymm : ∀ t, (K t).transpose = K t) (hpd : (K t0).PosDef) :
    ∀ᶠ t in nhds t0, (K t).PosDef := by
  rcases Nat.eq_zero_or_pos n with hn | hn
  · subst hn
    exact Filter.Eventually.of_forall (fun t =>
      ⟨by rw [Matrix.IsHermitian, Matrix.conjTranspose_eq_transpose_of_trivial]; exact hsymm t,
       fun x hx => absurd (Subsingleton.elim x 0) hx⟩)
  haveI : Nonempty (Fin n) := ⟨⟨0, hn⟩⟩
  -- minimum of the quadratic form of `K t0` on the unit sphere
  have hqc : Continuous (fun x : Fin n → ℝ => ∑ i, ∑ j, x i * K t0 i j * x j) := by
    fun_prop
  have hne : (Metric.sphere (0 : Fin n → ℝ) 1).Nonempty :=
    ⟨fun _ => 1, by
      rw [mem_sphere_zero_iff_norm, pi_norm_const, norm_one]⟩
  obtain ⟨xs, hxs, hmin⟩ := (isCompact_sphere (0 : Fin n → ℝ) 1).exists_isMinOn hne
    hqc.continuousOn
  have hxs0 : xs ≠ 0 := by
    intro h
    rw [h, mem_sphere_zero_iff_norm, norm_zero] at hxs
    exact zero_ne_one hxs
  have hm : 0 < ∑ i, ∑ j, xs i * K t0 i j * xs j := by
    rw [← quad_form_eq]
    exact hpd.2 xs hxs0
  -- the entries move by less than the minimum
  have hδc : ContinuousAt (fun t => ∑ i, ∑ j, |K t i j - K t0 i j|) t0 := by
    refine tendsto_finset_sum _ (fun i _ => tendsto_finset_sum _ (fun j _ => ?_))
    exact ((hc i j).sub continuousAt_const).abs
  have hδ0 : (fun t => ∑ i, ∑ j, |K t i j - K t0 i j|) t0 < ∑ i, ∑ j, xs i * K t0 i j * xs j := by
    simpa using hm
  filter_upwards [hδc.eventually (gt_mem_nhds hδ0)] with t ht
  refine ⟨by rw [Matrix.IsHermitian, Matrix.conjTranspose_eq_transpose_of_trivial]; exact hsymm t,
    fun x hx => ?_⟩
  rw [quad_form_eq]
  have hr : 0 < ‖x‖ := norm_pos_iff.2 hx
  have hu : (‖x‖⁻¹ • x) ∈ Metric.sphere (0 : Fin n → ℝ) 1 := by
    rw [mem_sphere_zero_iff_norm, norm_smul, norm_inv, norm_norm, inv_mul_cancel₀ hr.ne']
  have hui : ∀ i, |(‖x‖⁻¹ • x) i| ≤ 1 := by
    intro i
    have := norm_le_pi_norm (‖x‖⁻¹ • x) i
    rw [mem_sphere_zero_iff_norm] at hu
    rwa [hu, Real.norm_eq_abs] at this
  have hq0 : ∑ i, ∑ j, xs i * K t0 i j * xs j
      ≤ ∑ i, ∑ j, (‖x‖⁻¹ • x) i * K t0 i j * (‖x‖⁻¹ • x) j := hmin hu
  have hdiff : ∑ i, ∑ j, (‖x‖⁻¹ • x) i * K t0 i j * (‖x‖⁻¹ • x) j
      - ∑ i, ∑ j, |K t i j - K t0 i j|
      ≤ ∑ i, ∑ j, (‖x‖⁻¹ • x) i * K t i j * (‖x‖⁻¹ • x) j := by
    rw [← Finset.sum_sub_distrib]
    refine Finset.sum_le_sum (fun i _ => ?_)
    rw [← Finset.sum_sub_distrib]
    refine Finset.sum_le_sum (fun j _ => ?_)
    have h1 : |(‖x‖⁻¹ • x) i * (K t i j - K t0 i j) * (‖x‖⁻¹ • x) j| ≤ |K t i j - K t0 i j| := by
      rw [abs_mul, abs_mul]
      calc |(‖x‖⁻¹ • x) i| * |K t i j - K t0 i j| * |(‖x‖⁻¹ • x) j|
          ≤ 1 * |K t i j - K t0 i j| * 1 := by
            gcongr
            · exact hui i
            · exact hui j
        _ = |K t i j - K t0 i j| := by ring
    have h2 := neg_abs_le ((‖x‖⁻¹ • x) i * (K t i j - K t0 i j) * (‖x‖⁻¹ • x) j)
    nlinarith [h1, h2]
  have hpos : 0 < ∑ i, ∑ j, (‖x‖⁻¹ • x) i * K t i j * (‖x‖⁻¹ • x) j := by
    linarith
  have hscale : ∑ i, ∑ j, x i * K t i j * x j
      = ‖x‖ ^ 2 * ∑ i, ∑ j, (‖x‖⁻¹ • x) i * K t i j * (‖x‖⁻¹ • x) j := by
    rw [Finset.mul_sum]
    refine Finset.sum_congr rfl (fun i _ => ?_)
    rw [Finset.mul_sum]
    refine Finset.sum_congr rfl (fun j _ => ?_)
    simp only [Pi.smul_apply, smul_eq_mul]
    field_simp
    ring
  rw [hscale]
  positivity


theorem computeCov_K_dims [Field α] (exp : α → α) (ker : Kernel α) (K Dv params : Mat α)
    (jitter : α) (evalGrad : Bool) :
    (RBF.computeCov exp ker K Dv params jitter evalGrad).K.rows = K.rows ∧
    (RBF.computeCov exp ker K Dv params jitter evalGrad).K.cols = K.rows := by
  by_cases h : ker.paramCount < params.size
  · rw [computeCov_K_joint _ _ _ _ _ _ _ h]; exact squareForm_dims _ _ _ _
  · rw [computeCov_K_fixed _ _ _ _ _ _ _ h]; exact squareForm_dims _ _ _ _

theorem computeCov_K_symm [Field α] (exp : α → α) (ker : Kernel α) (K Dv params : Mat α)
    (jitter : α) (evalGrad : Bool) (i j : Nat) (hi : i < K.rows) (hj : j < K.rows) :
    (RBF.computeCov exp ker K Dv params jitter evalGrad).K.coeff i j
      = (RBF.computeCov exp ker K Dv params jitter evalGrad).K.coeff j i := by
  by_cases h : ker.paramCount < params.size
  · rw [computeCov_K_joint _ _ _ _ _ _ _ h]; exact squareForm_symm _ _ _ _ i j hi hj
  · rw [computeCov_K_fixed _ _ _ _ _ _ _ h]; exact squareForm_symm _ _ _ _ i j hi hj

theorem evalNLML_K_dims [Field α] (F : Libm α) (E : Eigen α) (gp : GaussianProcess α)
    (p g : Mat α) (evalGrad : Bool) :
    (evalNLML F E gp p g evalGrad).gp.K.rows = gp.obsX.rows ∧
    (evalNLML F E gp p g evalGrad).gp.K.cols = gp.obsX.rows := by
  rw [evalNLML_K]
  exact computeCov_K_dims _ _ _ _ _ _ _

theorem evalNLML_K_transpose [Field α] (F : Libm α) (E : Eigen α) (gp : GaussianProcess α)
    (p g : Mat α) (evalGrad : Bool) :
    ((evalNLML F E gp p g evalGrad).gp.K.toMatrix gp.obsX.rows gp.obsX.rows).transpose
      = (evalNLML F E gp p g evalGrad).gp.K.toMatrix gp.obsX.rows gp.obsX.rows := by
  ext i j
  rw [Matrix.transpose_apply, evalNLML_K]
  exact computeCov_K_symm _ _ _ _ _ _ _ j.val i.val j.isLt i.isLt

/-- Under the contract of the factorisation, at a point where `K` is positive
definite, the value of `evalNLML` is `0.5 yᵀ K⁻¹ y + 0.5 log det K + 0.5 n log(2π)`. -/
theorem evalNLML_value_contract (E : Eigen ℝ) (gp : GaussianProcess ℝ) (p g : Mat ℝ)
    (evalGrad : Bool) (hE : LLTContract E gp.obsX.rows)
    (hY : gp.obsY.rows = gp.obsX.rows) (hYc : gp.obsY.cols = 1)
    (hPD : ((evalNLML ⟨Real.exp, Real.log, Real.arctan⟩ E gp p g evalGrad).gp.K.toMatrix
      gp.obsX.rows gp.obsX.rows).PosDef) :
    (evalNLML ⟨Real.exp, Real.log, Real.arctan⟩ E gp p g evalGrad).gp._alpha.toVec gp.obsX.rows
      = ((evalNLML ⟨Real.exp, Real.log, Real.arctan⟩ E gp p g evalGrad).gp.K.toMatrix
          gp.obsX.rows gp.obsX.rows)⁻¹.mulVec (gp.obsY.toVec gp.obsX.rows) ∧
    (evalNLML ⟨Real.exp, Real.log, Real.arctan⟩ E gp p g evalGrad).value
      = 0.5 * Matrix.dotProduct (gp.obsY.toVec gp.obsX.rows)
          (((evalNLML ⟨Real.exp, Real.log, Real.arctan⟩ E gp p g evalGrad).gp.K.toMatrix
            gp.obsX.rows gp.obsX.rows)⁻¹.mulVec (gp.obsY.toVec gp.obsX.rows))
        + 0.5 * Real.log ((evalNLML ⟨Real.exp, Real.log, Real.arctan⟩ E gp p g
            evalGrad).gp.K.toMatrix gp.obsX.rows gp.obsX.rows).det
        + 0.5 * (gp.obsX.rows : ℝ) * Real.log (2 * Real.pi) := by
  have hd := evalNLML_K_dims ⟨Real.exp, Real.log, Real.arctan⟩ E gp p g evalGrad
  obtain ⟨h1, h2, h3, h4, h5, h6⟩ := hE _ hd.1 hd.2 hPD
  rw [← evalNLML_cholesky] at h1 h2 h3 h4 h5 h6
  obtain ⟨_, _, h9⟩ := h6 gp.obsY hY
  rw [← evalNLML_alpha] at h9
  have halpha : (evalNLML ⟨Real.exp, Real.log, Real.arctan⟩ E gp p g evalGrad).gp._alpha.toVec
      gp.obsX.rows
      = ((evalNLML ⟨Real.exp, Real.log, Real.arctan⟩ E gp p g evalGrad).gp.K.toMatrix
          gp.obsX.rows gp.obsX.rows)⁻¹.mulVec (gp.obsY.toVec gp.obsX.rows) := by
    funext i
    have := congrFun (congrFun h9 i) ⟨0, by rw [hYc]; exact Nat.one_pos⟩
    simpa [Mat.toMatrix, Matrix.mul_apply, Mat.toVec, Matrix.mulVec, Matrix.dotProduct]
      using this
  refine ⟨halpha, ?_⟩
  have hv := evalNLML_value E gp p g evalGrad hY h1 h2
  have hs := sum_log_diag_eq _ _ (fun i j hij => h3 i j hij j.isLt) (fun i => h4 i i.isLt) h5
  have hs2 : ∑ i : Fin gp.obsX.rows, Real.log
      ((evalNLML ⟨Real.exp, Real.log, Real.arctan⟩ E gp p g evalGrad).gp.cholesky.coeff i i)
      = 0.5 * Real.log ((evalNLML ⟨Real.exp, Real.log, Real.arctan⟩ E gp p g
          evalGrad).gp.K.toMatrix gp.obsX.rows gp.obsX.rows).det := hs.2
  rw [hs2, halpha] at hv
  exact hv

/-- The derivative of the objective along a curve of log-hyperparameters on
which the coefficients of `K` are differentiable. -/
theorem evalNLML_curve_hasDerivAt (E : Eigen ℝ) (gp : GaussianProcess ℝ) (q : ℝ → Mat ℝ)
    (g : Mat ℝ) (t0 : ℝ) (K' : Matrix (Fin gp.obsX.rows) (Fin gp.obsX.rows) ℝ)
    (hE : LLTContract E gp.obsX.rows)
    (hY : gp.obsY.rows = gp.obsX.rows) (hYc : gp.obsY.cols = 1)
    (hK : ∀ i j, HasDerivAt (fun t =>
      (evalNLML ⟨Real.exp, Real.log, Real.arctan⟩ E gp (q t) g false).gp.K.toMatrix
        gp.obsX.rows gp.obsX.rows i j) (K' i j) t0)
    (hPD : ((evalNLML ⟨Real.exp, Real.log, Real.arctan⟩ E gp (q t0) g false).gp.K.toMatrix
      gp.obsX.rows gp.obsX.rows).PosDef) :
    HasDerivAt (fun t => (evalNLML ⟨Real.exp, Real.log, Real.arctan⟩ E gp (q t) g false).value)
      (0.5 * Matrix.trace
        ((((evalNLML ⟨Real.exp, Real.log, Real.arctan⟩ E gp (q t0) g false).gp.K.toMatrix
            gp.obsX.rows gp.obsX.rows)⁻¹
          - Matrix.vecMulVec
              (((evalNLML ⟨Real.exp, Real.log, Real.arctan⟩ E gp (q t0) g false).gp.K.toMatrix
                gp.obsX.rows gp.obsX.rows)⁻¹.mulVec (gp.obsY.toVec gp.obsX.rows))
              (((evalNLML ⟨Real.exp, Real.log, Real.arctan⟩ E gp (q t0) g false).gp.K.toMatrix
                gp.obsX.rows gp.obsX.rows)⁻¹.mulVec (gp.obsY.toVec gp.obsX.rows))) * K')) t0 := by
  have hφ := hasDerivAt_neg_log_likelihood
    (fun t => (evalNLML ⟨Real.exp, Real.log, Real.arctan⟩ E gp (q t) g false).gp.K.toMatrix
      gp.obsX.rows gp.obsX.rows) K' t0 hK (evalNLML_K_transpose _ _ _ _ _ _) hPD.det_pos
    (gp.obsY.toVec gp.obsX.rows) (0.5 * (gp.obsX.rows : ℝ) * Real.log (2 * Real.pi))
  refine hφ.congr_of_eventuallyEq ?_
  have hev := eventually_posDef
    (fun t => (evalNLML ⟨Real.exp, Real.log, Real.arctan⟩ E gp (q t) g false).gp.K.toMatrix
      gp.obsX.rows gp.obsX.rows) t0 (fun i j => (hK i j).continuousAt)
    (fun t => evalNLML_K_transpose _ _ _ _ _ _) hPD
  filter_upwards [hev] with t ht
  exact (evalNLML_value_contract E gp (q t) g false hE hY hYc ht).2


/-- Coefficients of the covariance matrix `evalNLML` caches at the
log-hyperparameters `p`. -/
theorem evalNLML_K_entry (E : Eigen ℝ) (gp : GaussianProcess ℝ) (p g : Mat ℝ) (evalGrad : Bool)
    (i j : Fin gp.obsX.rows) :
    (evalNLML ⟨Real.exp, Real.log, Real.arctan⟩ E gp p g evalGrad).gp.K.toMatrix
        gp.obsX.rows gp.obsX.rows i j
      = if i = j then
          1 + (if gp.kernel.paramCount < p.size then Real.exp (p.coeff 0 0)
            else gp.kernel.noiseLevel) + gp.jitter
        else Real.exp (-0.5 / (Real.exp
            (p.coeff (if gp.kernel.paramCount < p.size then 1 else 0) 0)) ^ 2
          * gp.distMatrix.coeff (condensedIndex gp.obsX.rows (min i.val j.val) (max i.val j.val))
              0) := by
  have h1 : (1.0 : ℝ) = 1 := by norm_num
  have hsz : (p.map Real.exp).size = p.size := rfl
  have hij : (i = j) ↔ (i.val = j.val) := Fin.ext_iff
  rw [Mat.toMatrix, Matrix.of_apply, evalNLML_K]
  have hn : (gp.K.resize gp.obsX.rows gp.obsX.rows).rows = gp.obsX.rows := rfl
  by_cases h : gp.kernel.paramCount < p.size
  · rw [computeCov_K_joint _ _ _ _ _ _ _ (by rw [hsz]; exact h), hn]
    by_cases hne : i.val = j.val
    · rw [if_pos (hij.2 hne), if_pos h, hne, squareForm_diag _ _ _ _ _ j.isLt, h1]
      rfl
    · rw [if_neg (fun e => hne (hij.1 e)), if_pos h,
        squareForm_offdiag _ _ _ _ _ _ i.isLt j.isLt hne]
      rfl
  · rw [computeCov_K_fixed _ _ _ _ _ _ _ (by rw [hsz]; exact h), hn]
    by_cases hne : i.val = j.val
    · rw [if_pos (hij.2 hne), if_neg h, hne, squareForm_diag _ _ _ _ _ j.isLt, h1]
    · rw [if_neg (fun e => hne (hij.1 e)), if_neg h,
        squareForm_offdiag _ _ _ _ _ _ i.isLt j.isLt hne]
      rfl

/-- The one matrix of the gradient list at the log-hyperparameters `p`. -/
theorem computeCov_grad_entry (gp : GaussianProcess ℝ) (p : Mat ℝ) :
    ∃ G, (RBF.computeCov Real.exp gp.kernel (gp.K.resize gp.obsX.rows gp.obsX.rows)
        gp.distMatrix (p.map Real.exp) gp.jitter true).gradList = [G] ∧
      G.rows = gp.obsX.rows ∧ G.cols = gp.obsX.rows ∧
      ∀ i j : Fin gp.obsX.rows, G.toMatrix gp.obsX.rows gp.obsX.rows i j
        = if i = j then 0
          else 1 / (Real.exp (p.coeff (if gp.kernel.paramCount < p.size then 1 else 0) 0)) ^ 2
            * (gp.distMatrix.coeff
                (condensedIndex gp.obsX.rows (min i.val j.val) (max i.val j.val)) 0
              * Real.exp (-0.5 / (Real.exp
                  (p.coeff (if gp.kernel.paramCount < p.size then 1 else 0) 0)) ^ 2
                * gp.distMatrix.coeff
                    (condensedIndex gp.obsX.rows (min i.val j.val) (max i.val j.val)) 0)) := by
  have h0 : (0.0 : ℝ) = 0 := by norm_num
  have hsz : (p.map Real.exp).size = p.size := rfl
  have hn : (gp.K.resize gp.obsX.rows gp.obsX.rows).rows = gp.obsX.rows := rfl
  by_cases h : gp.kernel.paramCount < p.size
  · refine ⟨_, computeCov_grad_joint _ _ _ _ _ _ (by rw [hsz]; exact h), ?_, ?_, ?_⟩
    · rw [hn]; exact (squareForm_dims _ _ _ _).1
    · rw [hn]; exact (squareForm_dims _ _ _ _).2
    · intro i j
      rw [Mat.toMatrix, Matrix.of_apply, hn]
      by_cases hne : i.val = j.val
      · rw [if_pos (Fin.ext hne), hne, squareForm_diag _ _ _ _ _ j.isLt, h0]
      · rw [if_neg (fun e => hne (Fin.ext_iff.1 e)), if_pos h,
          squareForm_offdiag _ _ _ _ _ _ i.isLt j.isLt hne]
        rfl
  · refine ⟨_, computeCov_grad_fixed _ _ _ _ _ _ (by rw [hsz]; exact h), ?_, ?_, ?_⟩
    · rw [hn]; exact (squareForm_dims _ _ _ _).1
    · rw [hn]; exact (squareForm_dims _ _ _ _).2
    · intro i j
      rw [Mat.toMatrix, Matrix.of_apply, hn]
      by_cases hne : i.val = j.val
      · rw [if_pos (Fin.ext hne), hne, squareForm_diag _ _ _ _ _ j.isLt, h0]
      · rw [if_neg (fun e => hne (Fin.ext_iff.1 e)), if_neg h,
          squareForm_offdiag _ _ _ _ _ _ i.isLt j.isLt hne]
        rfl


/-- The entries of `g` that `evalNLML` writes, for the one matrix `dK` of the
gradient list. -/
theorem evalNLML_g (F : Libm ℝ) (E : Eigen ℝ) (gp : GaussianProcess ℝ) (p g dK : Mat ℝ)
    (hdK : (RBF.computeCov F.exp gp.kernel (gp.K.resize gp.obsX.rows gp.obsX.rows)
        gp.distMatrix (p.map F.exp) gp.jitter true).gradList = [dK]) :
    (gp.fixedNoise = false →
      (evalNLML F E gp p g true).g.coeff 0 0
        = 0.5 * ((evalNLML F E gp p g true).gp.term.trace * F.exp (p.coeff 0 0)) ∧
      (evalNLML F E gp p g true).g.coeff 1 0
        = 0.5 * ((evalNLML F E gp p g true).gp.term.mul dK).trace) ∧
    (gp.fixedNoise = true →
      (evalNLML F E gp p g true).g.coeff 0 0
        = 0.5 * ((evalNLML F E gp p g true).gp.term.mul dK).trace) := by
  have hg : (evalNLML F E gp p g true).g
      = (gradLoop (evalNLML F E gp p g true).gp.term [dK]
          (if !gp.fixedNoise then
            (g.set 0 0 (0.5 * ((evalNLML F E gp p g true).gp.term.mulScalar
              ((p.map F.exp).coeff 0 0)).trace), 1, [0])
          else (g, 0, []))).1 := by
    rw [← hdK]; rfl
  rw [hg]
  generalize (evalNLML F E gp p g true).gp.term = T
  constructor
  · intro hf
    simp [hf, gradLoop, Mat.set, trace_mulScalar, Mat.map]
  · intro hf
    simp [hf, gradLoop, Mat.set]

theorem trace_toMatrix (A : Mat ℝ) (n : Nat) (hr : A.rows = n) (hc : A.cols = n) :
    A.trace = Matrix.trace (A.toMatrix n n) := by
  subst hr
  simp only [Mat.trace, hc, Nat.min_self, Matrix.trace, Matrix.diag_apply, Mat.toMatrix,
    Matrix.of_apply]
  exact list_sum_range_fin _ _

theorem trace_mul_toMatrix (A B : Mat ℝ) (n : Nat) (hr : A.rows = n) (hc : A.cols = n)
    (hB : B.cols = n) :
    (A.mul B).trace = Matrix.trace (A.toMatrix n n * B.toMatrix n n) := by
  subst hr
  simp only [Mat.trace, Mat.mul, hc, hB, Nat.min_self, Matrix.trace, Matrix.diag_apply,
    Mat.toMatrix, Matrix.mul_apply, Matrix.of_apply]
  rw [list_sum_range_fin]
  exact Finset.sum_congr rfl (fun a _ => list_sum_range_fin _ _)

/-- Under the contract of the factorisation, at a point where `K` is positive
definite, the cached `term` is `K⁻¹ - alpha alphaᵀ` with `alpha = K⁻¹ y`. -/
theorem evalNLML_term_contract (E : Eigen ℝ) (gp : GaussianProcess ℝ) (p g : Mat ℝ)
    (hE : LLTContract E gp.obsX.rows)
    (hY : gp.obsY.rows = gp.obsX.rows) (hYc : gp.obsY.cols = 1)
    (hPD : ((evalNLML ⟨Real.exp, Real.log, Real.arctan⟩ E gp p g true).gp.K.toMatrix
      gp.obsX.rows gp.obsX.rows).PosDef) :
    (evalNLML ⟨Real.exp, Real.log, Real.arctan⟩ E gp p g true).gp.term.rows = gp.obsX.rows ∧
    (evalNLML ⟨Real.exp, Real.log, Real.arctan⟩ E gp p g true).gp.term.cols = gp.obsX.rows ∧
    (evalNLML ⟨Real.exp, Real.log, Real.arctan⟩ E gp p g true).gp.term.toMatrix
        gp.obsX.rows gp.obsX.rows
      = ((evalNLML ⟨Real.exp, Real.log, Real.arctan⟩ E gp p g true).gp.K.toMatrix
          gp.obsX.rows gp.obsX.rows)⁻¹
        - Matrix.vecMulVec
            (((evalNLML ⟨Real.exp, Real.log, Real.arctan⟩ E gp p g true).gp.K.toMatrix
              gp.obsX.rows gp.obsX.rows)⁻¹.mulVec (gp.obsY.toVec gp.obsX.rows))
            (((evalNLML ⟨Real.exp, Real.log, Real.arctan⟩ E gp p g true).gp.K.toMatrix
              gp.obsX.rows gp.obsX.rows)⁻¹.mulVec (gp.obsY.toVec gp.obsX.rows)) := by
  have hd := evalNLML_K_dims ⟨Real.exp, Real.log, Real.arctan⟩ E gp p g true
  have halpha := (evalNLML_value_contract E gp p g true hE hY hYc hPD).1
  obtain ⟨_, _, _, _, _, h6⟩ := hE _ hd.1 hd.2 hPD
  rw [← evalNLML_cholesky] at h6
  obtain ⟨h7, h8, h9⟩ := h6 (Mat.identity gp.obsX.rows gp.obsX.rows) rfl
  obtain ⟨_, hac, _⟩ := h6 gp.obsY hY
  rw [← evalNLML_alpha, hYc] at hac
  have hterm : (evalNLML ⟨Real.exp, Real.log, Real.arctan⟩ E gp p g true).gp.term
      = (E.lltSolve (evalNLML ⟨Real.exp, Real.log, Real.arctan⟩ E gp p g true).gp.cholesky
          (Mat.identity gp.obsX.rows gp.obsX.rows)).sub
        ((evalNLML ⟨Real.exp, Real.log, Real.arctan⟩ E gp p g true).gp._alpha.mul
          (evalNLML ⟨Real.exp, Real.log, Real.arctan⟩ E gp p g true).gp._alpha.transpose) := rfl
  have hI : (Mat.identity gp.obsX.rows gp.obsX.rows : Mat ℝ).toMatrix gp.obsX.rows
      gp.obsX.rows = 1 := by
    ext i j
    simp [Mat.toMatrix, Mat.identity, Matrix.one_apply, Fin.ext_iff]
  have h9' : (E.lltSolve (evalNLML ⟨Real.exp, Real.log, Real.arctan⟩ E gp p g true).gp.cholesky
        (Mat.identity gp.obsX.rows gp.obsX.rows)).toMatrix gp.obsX.rows gp.obsX.rows
      = ((evalNLML ⟨Real.exp, Real.log, Real.arctan⟩ E gp p g true).gp.K.toMatrix
          gp.obsX.rows gp.obsX.rows)⁻¹
        * (Mat.identity gp.obsX.rows gp.obsX.rows : Mat ℝ).toMatrix gp.obsX.rows
            gp.obsX.rows := h9
  rw [hI, Matrix.mul_one] at h9'
  refine ⟨by rw [hterm]; exact h7, by rw [hterm]; exact h8, ?_⟩
  rw [← halpha, ← h9', hterm]
  ext i j
  have h1 : List.range 1 = [0] := rfl
  simp [Mat.toMatrix, Mat.sub, Mat.mul, Mat.transpose, Matrix.vecMulVec_apply, Mat.toVec,
    hac, h1]

theorem evalNLML_K_indep [Field α] (F : Libm α) (E : Eigen α) (gp : GaussianProcess α)
    (p g g2 : Mat α) (e e2 : Bool) :
    (evalNLML F E gp p g e).gp.K = (evalNLML F E gp p g2 e2).gp.K := by
  rw [evalNLML_K, evalNLML_K, computeCov_K, computeCov_K]


theorem set_self (p : Mat α) (k : Nat) : p.set k 0 (p.coeff k 0) = p := by
  cases p with
  | mk r c f =>
    simp only [Mat.set, Mat.mk.injEq, true_and]
    funext a b
    split
    · rename_i h; rw [h.1, h.2]
    · rfl

/-- Along the length-scale coordinate `k` of the log-hyperparameters, every
coefficient of `K` has for derivative the same coefficient of the gradient
matrix of `computeCov`. -/
theorem hasDerivAt_K_length (E : Eigen ℝ) (gp : GaussianProcess ℝ) (p g : Mat ℝ) (k : Nat)
    (hk : k = if gp.kernel.paramCount < p.size then 1 else 0) (G : Mat ℝ)
    (hG : ∀ i j : Fin gp.obsX.rows, G.toMatrix gp.obsX.rows gp.obsX.rows i j
        = if i = j then 0
          else 1 / (Real.exp (p.coeff (if gp.kernel.paramCount < p.size then 1 else 0) 0)) ^ 2
            * (gp.distMatrix.coeff
                (condensedIndex gp.obsX.rows (min i.val j.val) (max i.val j.val)) 0
              * Real.exp (-0.5 / (Real.exp
                  (p.coeff (if gp.kernel.paramCount < p.size then 1 else 0) 0)) ^ 2
                * gp.distMatrix.coeff
                    (condensedIndex gp.obsX.rows (min i.val j.val) (max i.val j.val)) 0)))
    (i j : Fin gp.obsX.rows) :
    HasDerivAt (fun t =>
      (evalNLML ⟨Real.exp, Real.log, Real.arctan⟩ E gp (p.set k 0 t) g false).gp.K.toMatrix
        gp.obsX.rows gp.obsX.rows i j)
      (G.toMatrix gp.obsX.rows gp.obsX.rows i j) (p.coeff k 0) := by
  have hsz : ∀ t : ℝ, (p.set k 0 t).size = p.size := fun _ => rfl
  have hck : ∀ t : ℝ, (p.set k 0 t).coeff k 0 = t := by
    intro t; simp [Mat.set]
  rw [hG i j]
  by_cases hij : i = j
  · rw [if_pos hij]
    have hfun : (fun t => (evalNLML ⟨Real.exp, Real.log, Real.arctan⟩ E gp (p.set k 0 t) g
        false).gp.K.toMatrix gp.obsX.rows gp.obsX.rows i j)
        = fun _ => 1 + (if gp.kernel.paramCount < p.size then Real.exp (p.coeff 0 0)
            else gp.kernel.noiseLevel) + gp.jitter := by
      funext t
      rw [evalNLML_K_entry, if_pos hij, hsz]
      by_cases h : gp.kernel.paramCount < p.size
      · rw [if_pos h, if_pos h]
        have hk1 : k = 1 := by rw [hk, if_pos h]
        have : (p.set k 0 t).coeff 0 0 = p.coeff 0 0 := by simp [Mat.set, hk1]
        rw [this]
      · rw [if_neg h, if_neg h]
    rw [hfun]
    exact hasDerivAt_const _ _
  · rw [if_neg hij]
    have hfun : (fun t => (evalNLML ⟨Real.exp, Real.log, Real.arctan⟩ E gp (p.set k 0 t) g
        false).gp.K.toMatrix gp.obsX.rows gp.obsX.rows i j)
        = fun t => Real.exp (-0.5 / (Real.exp t) ^ 2
          * gp.distMatrix.coeff
              (condensedIndex gp.obsX.rows (min i.val j.val) (max i.val j.val)) 0) := by
      funext t
      rw [evalNLML_K_entry, if_neg hij, hsz, ← hk, hck]
    rw [hfun, ← hk]
    exact hasDerivAt_rbf _ _

/-- Along the noise coordinate (joint layout), the derivative of `K` is
`exp(p(0))` times the identity. -/
theorem hasDerivAt_K_noise (E : Eigen ℝ) (gp : GaussianProcess ℝ) (p g : Mat ℝ)
    (h : gp.kernel.paramCount < p.size) (i j : Fin gp.obsX.rows) :
    HasDerivAt (fun t =>
      (evalNLML ⟨Real.exp, Real.log, Real.arctan⟩ E gp (p.set 0 0 t) g false).gp.K.toMatrix
        gp.obsX.rows gp.obsX.rows i j)
      ((Real.exp (p.coeff 0 0) • (1 : Matrix (Fin gp.obsX.rows) (Fin gp.obsX.rows) ℝ)) i j)
      (p.coeff 0 0) := by
  have hsz : ∀ t : ℝ, (p.set 0 0 t).size = p.size := fun _ => rfl
  have hc0 : ∀ t : ℝ, (p.set 0 0 t).coeff 0 0 = t := by
    intro t; simp [Mat.set]
  have hc1 : ∀ t : ℝ, (p.set 0 0 t).coeff 1 0 = p.coeff 1 0 := by
    intro t; simp [Mat.set]
  by_cases hij : i = j
  · have hfun : (fun t => (evalNLML ⟨Real.exp, Real.log, Real.arctan⟩ E gp (p.set 0 0 t) g
        false).gp.K.toMatrix gp.obsX.rows gp.obsX.rows i j)
        = fun t => 1 + Real.exp t + gp.jitter := by
      funext t
      rw [evalNLML_K_entry, if_pos hij, hsz, if_pos h, hc0]
    rw [hfun, hij]
    simp only [Matrix.smul_apply, Matrix.one_apply_eq, smul_eq_mul, mul_one]
    exact ((Real.hasDerivAt_exp _).const_add 1).add_const _
  · have hfun : (fun t => (evalNLML ⟨Real.exp, Real.log, Real.arctan⟩ E gp (p.set 0 0 t) g
        false).gp.K.toMatrix gp.obsX.rows gp.obsX.rows i j)
        = fun _ => Real.exp (-0.5 / (Real.exp (p.coeff 1 0)) ^ 2
          * gp.distMatrix.coeff
              (condensedIndex gp.obsX.rows (min i.val j.val) (max i.val j.val)) 0) := by
      funext t
      rw [evalNLML_K_entry, if_neg hij, hsz, if_pos h, hc1]
    rw [hfun]
    simp only [Matrix.smul_apply, Matrix.one_apply_ne hij, smul_eq_mul, mul_zero]
    exact hasDerivAt_const _ _


/-- C8: the analytic gradient is the true gradient.  In exact real arithmetic,
with the factorisation and solves of Eigen meeting their contract, for a
dataset with `n ≥ 2` targets `y` (n x 1) and a log-hyperparameter point `p` of
`augParamCount = paramCount + (1 if noise is not fixed)` entries at which `K` is
positive definite, every entry `g(k)` that `evalNLML(p, g, true)` writes is the
derivative at `p(k)` of the value of `evalNLML` in the coordinate `p(k)`, the
other coordinates held fixed: for the noise coordinate and for the
log-length-scale coordinate. -/
theorem C8_analytic_gradient_is_derivative (E : Eigen ℝ) (gp : GaussianProcess ℝ)
    (p g g0 : Mat ℝ) (k : Nat)
    (hn : 2 ≤ gp.obsX.rows)
    (hY : gp.obsY.rows = gp.obsX.rows) (hYc : gp.obsY.cols = 1)
    (hpc : gp.kernel.paramCount = 1)
    (hp : p.size = gp.kernel.paramCount + (if gp.fixedNoise then 0 else 1))
    (hk : k < p.size)
    (hE : LLTContract E gp.obsX.rows)
    (hPD : ((evalNLML ⟨Real.exp, Real.log, Real.arctan⟩ E gp p g true).gp.K.toMatrix
      gp.obsX.rows gp.obsX.rows).PosDef) :
    HasDerivAt
      (fun t => (evalNLML ⟨Real.exp, Real.log, Real.arctan⟩ E gp (p.set k 0 t) g0 false).value)
      ((evalNLML ⟨Real.exp, Real.log, Real.arctan⟩ E gp p g true).g.coeff k 0)
      (p.coeff k 0) := by
  have _ := hn
  obtain ⟨G, hGl, hGr, hGc, hG⟩ := computeCov_grad_entry gp p
  have hT := evalNLML_term_contract E gp p g hE hY hYc hPD
  have hgs := evalNLML_g ⟨Real.exp, Real.log, Real.arctan⟩ E gp p g G hGl
  have hPD0 : ((evalNLML ⟨Real.exp, Real.log, Real.arctan⟩ E gp
      (p.set k 0 (p.coeff k 0)) g0 false).gp.K.toMatrix gp.obsX.rows gp.obsX.rows).PosDef := by
    rw [set_self, evalNLML_K_indep _ _ _ _ g0 g false true]
    exact hPD
  -- the derivative of the value for a given derivative `K'` of `K`
  have key : ∀ K' : Matrix (Fin gp.obsX.rows) (Fin gp.obsX.rows) ℝ,
      (∀ i j, HasDerivAt (fun t =>
        (evalNLML ⟨Real.exp, Real.log, Real.arctan⟩ E gp (p.set k 0 t) g0 false).gp.K.toMatrix
          gp.obsX.rows gp.obsX.rows i j) (K' i j) (p.coeff k 0)) →
      HasDerivAt
        (fun t => (evalNLML ⟨Real.exp, Real.log, Real.arctan⟩ E gp (p.set k 0 t) g0
          false).value)
        (0.5 * Matrix.trace
          ((evalNLML ⟨Real.exp, Real.log, Real.arctan⟩ E gp p g true).gp.term.toMatrix
            gp.obsX.rows gp.obsX.rows * K')) (p.coeff k 0) := by
    intro K' hK
    have h := evalNLML_curve_hasDerivAt E gp (fun t => p.set k 0 t) g0 (p.coeff k 0) K' hE hY
      hYc hK hPD0
    simp only [set_self] at h
    rw [evalNLML_K_indep _ _ _ _ g0 g false true] at h
    rw [hT.2.2]
    exact h
  cases hf : gp.fixedNoise
  · -- noise is optimised: `p = [log noise, log l]`
    rw [hf, hpc] at hp
    have hjoint : gp.kernel.paramCount < p.size := by rw [hpc, hp]; decide
    have hk2 : k < 2 := by rw [hp] at hk; exact hk
    interval_cases k
    · rw [(hgs.1 hf).1]
      have h := key _ (hasDerivAt_K_noise E gp p g0 hjoint)
      convert h using 1
      rw [trace_toMatrix _ _ hT.1 hT.2.1, Matrix.mul_smul, Matrix.mul_one, Matrix.trace_smul,
        smul_eq_mul]
      ring
    · rw [(hgs.1 hf).2]
      have h := key _ (hasDerivAt_K_length E gp p g0 1 (by rw [if_pos hjoint]) G hG)
      rw [trace_mul_toMatrix _ _ _ hT.1 hT.2.1 hGc]
      exact h
  · -- noise is fixed: `p = [log l]`
    rw [hf, hpc] at hp
    have hfixed : ¬ gp.kernel.paramCount < p.size := by rw [hpc, hp]; decide
    have hk1 : k < 1 := by rw [hp] at hk; exact hk
    interval_cases k
    rw [hgs.2 hf]
    have h := key _ (hasDerivAt_K_length E gp p g0 0 (by rw [if_neg hfixed]) G hG)
    rw [trace_mul_toMatrix _ _ _ hT.1 hT.2.1 hGc]
    exact h


/-- The written-out 2 x 2 routine meets the contract of the factorisation. -/
theorem llt2_contract : LLTContract (llt2 Real.sqrt) 2 := by
  intro A _ _ hPD
  -- the entries of `A`
  have hsym : A.coeff 0 1 = A.coeff 1 0 := by
    have := congrFun (congrFun hPD.1 (0 : Fin 2)) (1 : Fin 2)
    simpa [Mat.toMatrix, Matrix.conjTranspose_apply] using this.symm
  have ha : 0 < A.coeff 0 0 := by
    have := hPD.2 ![1, 0] (by
      intro h
      have := congrFun h 0
      simp at this)
    simpa [Matrix.dotProduct, Matrix.mulVec, Fin.sum_univ_two, Mat.toMatrix] using this
  have hdet : 0 < A.coeff 0 0 * A.coeff 1 1 - A.coeff 1 0 * A.coeff 1 0 := by
    have := hPD.det_pos
    rw [Matrix.det_fin_two] at this
    simpa [Mat.toMatrix, hsym] using this
  have hschur : 0 < A.coeff 1 1 - A.coeff 1 0 * A.coeff 1 0 / A.coeff 0 0 := by
    have : A.coeff 1 1 - A.coeff 1 0 * A.coeff 1 0 / A.coeff 0 0
        = (A.coeff 0 0 * A.coeff 1 1 - A.coeff 1 0 * A.coeff 1 0) / A.coeff 0 0 := by
      field_simp
      ring
    rw [this]
    exact div_pos hdet ha
  -- the square roots
  obtain ⟨s, hs0, hs⟩ : ∃ s, 0 < s ∧ Real.sqrt (A.coeff 0 0) = s :=
    ⟨_, Real.sqrt_pos.2 ha, rfl⟩
  obtain ⟨r, hr0, hr⟩ : ∃ r, 0 < r ∧
      Real.sqrt (A.coeff 1 1 - A.coeff 1 0 * A.coeff 1 0 / A.coeff 0 0) = r :=
    ⟨_, Real.sqrt_pos.2 hschur, rfl⟩
  have hss : s * s = A.coeff 0 0 := by rw [← hs]; exact Real.mul_self_sqrt ha.le
  have hrr : r * r = A.coeff 1 1 - A.coeff 1 0 * A.coeff 1 0 / A.coeff 0 0 := by
    rw [← hr]; exact Real.mul_self_sqrt hschur.le
  have hL00 : ((llt2 Real.sqrt).llt A).coeff 0 0 = s := by simp [llt2, Mat.ofRows, hs]
  have hL01 : ((llt2 Real.sqrt).llt A).coeff 0 1 = 0 := by simp [llt2, Mat.ofRows]
  have hL10 : ((llt2 Real.sqrt).llt A).coeff 1 0 = A.coeff 1 0 / s := by
    simp [llt2, Mat.ofRows, hs]
  have hL11 : ((llt2 Real.sqrt).llt A).coeff 1 1 = r := by simp [llt2, Mat.ofRows, hr]
  have hc : A.coeff 1 0 / s * (A.coeff 1 0 / s) + r * r = A.coeff 1 1 := by
    rw [hrr, ← hss]; field_simp
  have hb : s * (A.coeff 1 0 / s) = A.coeff 1 0 := by field_simp
  refine ⟨rfl, rfl, ?_, ?_, ?_, ?_⟩
  · intro i j hij hj
    interval_cases j
    · omega
    · interval_cases i
      exact hL01
  · intro i hi
    interval_cases i
    · rw [hL00]; exact hs0
    · rw [hL11]; exact hr0
  · ext i j
    fin_cases i <;> fin_cases j <;>
      simp only [Matrix.mul_apply, Fin.sum_univ_two, Matrix.transpose_apply, Mat.toMatrix,
        Matrix.of_apply, Fin.zero_eta, Fin.mk_one, Fin.val_zero, Fin.val_one, Fin.isValue,
        hL00, hL01, hL10, hL11]
    · rw [hss]; ring
    · rw [hsym, hb]; ring
    · rw [mul_comm, hb]; ring
    · exact hc
  · intro B _
    refine ⟨rfl, rfl, ?_⟩
    generalize (llt2 Real.sqrt).llt A = L at hL00 hL01 hL10 hL11 ⊢
    have hmul : A.toMatrix 2 2 * ((llt2 Real.sqrt).lltSolve L B).toMatrix
        2 B.cols = B.toMatrix 2 B.cols := by
      have hd : s * s * (A.coeff 1 0 / s * (A.coeff 1 0 / s) + r * r)
          - s * (A.coeff 1 0 / s) * (s * (A.coeff 1 0 / s))
          = A.coeff 0 0 * A.coeff 1 1 - A.coeff 1 0 * A.coeff 1 0 := by
        rw [hc, hb, hss]
      ext i j
      fin_cases i <;>
        simp only [Matrix.mul_apply, Fin.sum_univ_two, Mat.toMatrix, Matrix.of_apply,
          Fin.zero_eta, Fin.mk_one, Fin.val_zero, Fin.val_one, Fin.isValue, llt2]
      · show A.coeff 0 0 * _ + A.coeff 0 1 * _ = _
        simp only [if_true, one_ne_zero, if_false, hL00, hL10, hL11, hc, hb, hd, hss, hsym]
        field_simp
        ring
      · show A.coeff 1 0 * _ + A.coeff 1 1 * _ = _
        simp only [if_true, one_ne_zero, if_false, hL00, hL10, hL11, hc, hb, hd, hss, hsym]
        field_simp
        ring
    have hu : IsUnit (A.toMatrix 2 2).det := hPD.det_pos.ne'.isUnit
    calc ((llt2 Real.sqrt).lltSolve L B).toMatrix 2 B.cols
        = (A.toMatrix 2 2)⁻¹ * (A.toMatrix 2 2
            * ((llt2 Real.sqrt).lltSolve L B).toMatrix 2 B.cols) := by
          rw [← Matrix.mul_assoc, Matrix.nonsing_inv_mul _ hu, Matrix.one_mul]
      _ = (A.toMatrix 2 2)⁻¹ * B.toMatrix 2 B.cols := by rw [hmul]


/-- The two coincident points are at distance zero. -/
theorem twinJoint_dist : (twinJoint : GaussianProcess ℝ).distMatrix.coeff 0 0 = 0 := by
  have key : ∀ Dv0 : Mat ℝ, (pdist Dv0 (twinX : Mat ℝ) twinX).coeff 0 0 = 0 := by
    intro Dv0
    have := pdist_coeff Dv0 (twinX : Mat ℝ) twinX 0 1 (by decide) (by decide)
    have hr : (twinX : Mat ℝ).rows = 2 := rfl
    rw [hr] at this
    have hidx : condensedIndex 2 0 1 = 0 := by decide
    rw [hidx] at this
    rw [this]
    simp [twinX, Mat.ofRows]
  exact key _

/-- The covariance matrix of the two coincident points at `p = [0, 0]`. -/
theorem twinJoint_posDef (E : Eigen ℝ) (g : Mat ℝ) (evalGrad : Bool) :
    ((evalNLML ⟨Real.exp, Real.log, Real.arctan⟩ E twinJoint (Mat.ofCol [0, 0]) g
      evalGrad).gp.K.toMatrix 2 2).PosDef := by
  refine posDef_gauss_plus (fun (_ : Fin 2) (_ : Fin 1) => (0 : ℝ)) 0 (Real.exp 0 + 1e-10)
    le_rfl (by positivity) _ (fun i j => ?_)
  have h := evalNLML_K_entry E twinJoint (Mat.ofCol [0, 0]) g evalGrad i j
  have hlt : (twinJoint : GaussianProcess ℝ).kernel.paramCount
      < (Mat.ofCol [(0 : ℝ), 0]).size := by decide
  have hj : (twinJoint : GaussianProcess ℝ).jitter = 1e-10 := rfl
  have hrows : (twinJoint : GaussianProcess ℝ).obsX.rows = 2 := rfl
  rw [if_pos hlt, if_pos hlt, hj] at h
  refine h.trans ?_
  by_cases hij : i = j
  · rw [if_pos hij, if_pos hij]
    simp [Mat.ofCol]
    ring
  · rw [if_neg hij, if_neg hij]
    have hidx : condensedIndex (twinJoint : GaussianProcess ℝ).obsX.rows
        (min i.val j.val) (max i.val j.val) = 0 := by
      rw [hrows]
      fin_cases i <;> fin_cases j <;> first | exact absurd rfl hij | decide
    rw [hidx, twinJoint_dist]
    simp

/-- C8 on two coincident points with targets (1, 0), the noise left to the
optimiser, at `p = [0, 0]`, for the noise coordinate, with the written-out
2 x 2 factorisation. -/
theorem C8_analytic_gradient_is_derivative_witness :
    LLTContract (llt2 Real.sqrt) (twinJoint : GaussianProcess ℝ).obsX.rows ∧
    HasDerivAt
      (fun t => (evalNLML ⟨Real.exp, Real.log, Real.arctan⟩ (llt2 Real.sqrt) twinJoint
        ((Mat.ofCol [0, 0]).set 0 0 t) freshR false).value)
      ((evalNLML ⟨Real.exp, Real.log, Real.arctan⟩ (llt2 Real.sqrt) twinJoint
        (Mat.ofCol [0, 0]) (Mat.ofCol [0, 0]) true).g.coeff 0 0)
      ((Mat.ofCol [(0 : ℝ), 0]).coeff 0 0) :=
  ⟨llt2_contract,
   C8_analytic_gradient_is_derivative (llt2 Real.sqrt) twinJoint (Mat.ofCol [0, 0])
     (Mat.ofCol [0, 0]) freshR 0 (by decide) rfl rfl rfl (by decide) (by decide) llt2_contract
     (twinJoint_posDef _ _ _)⟩

/-! ## Bounds: lemmas -/

/-- The loop of `parseBounds` over a list of indices: every index of the list
holds its value, the other coefficients and the dimensions are kept, and the
reads are logged in order. -/
theorem parseBounds_fold (fl fu : Nat → α) (l : List Nat) (s : Bounds α) (k : Nat) :
    ((l.foldl (fun s bi =>
        ({ lbs := s.lbs.set bi 0 (fl bi), ubs := s.ubs.set bi 0 (fu bi),
           readsLower := s.readsLower ++ [bi - 1],
           readsUpper := s.readsUpper ++ [bi - 1] } : Bounds α)) s).lbs.coeff k 0
      = if k ∈ l then fl k else s.lbs.coeff k 0) ∧
    ((l.foldl (fun s bi =>
        ({ lbs := s.lbs.set bi 0 (fl bi), ubs := s.ubs.set bi 0 (fu bi),
           readsLower := s.readsLower ++ [bi - 1],
           readsUpper := s.readsUpper ++ [bi - 1] } : Bounds α)) s).ubs.coeff k 0
      = if k ∈ l then fu k else s.ubs.coeff k 0) := by
  induction l generalizing s with
  | nil => simp
  | cons a l ih =>
    rw [List.foldl_cons]
    refine ⟨?_, ?_⟩
    · rw [(ih _).1]
      by_cases hk : k ∈ l
      · simp [hk]
      · by_cases hka : k = a
        · subst hka; simp [Mat.set]
        · simp [hk, hka, Mat.set]
    · rw [(ih _).2]
      by_cases hk : k ∈ l
      · simp [hk]
      · by_cases hka : k = a
        · subst hka; simp [Mat.set]
        · simp [hk, hka, Mat.set]

theorem mem_irange (a b k : Nat) : k ∈ irange a b ↔ a ≤ k ∧ k < b := by
  unfold irange
  rw [List.mem_range']
  constructor
  · rintro ⟨i, hi, rfl⟩
    omega
  · rintro ⟨h1, h2⟩
    exact ⟨k - a, by omega, by omega⟩

/-- C11: bounds parsing.  For every augmented parameter count `m`, the vectors
`parseBounds` leaves in `lbs` and `ubs` are on the log scale: (a) with no caller
bounds every entry `k < m` is `(log 1e-5, log 5.0)`; (b) with caller bounds of
length `m`, entry `k < m` is `(log lower(k), log upper(k))`; (c) with caller
bounds of length `m - 1`, entry 0 is the default `(log 1e-5, log 5.0)` and
entry `k ≥ 1` is `(log lower(k-1), log upper(k-1))`. -/
theorem C11_parseBounds_log_scale [Field α] (F : Libm α) (gp : GaussianProcess α)
    (lbs0 ubs0 : Mat α) (m : Nat) :
    (gp.fixedBounds = false → ∀ k, k < m →
      (parseBounds F gp lbs0 ubs0 m).lbs.coeff k 0 = F.log 0.00001 ∧
      (parseBounds F gp lbs0 ubs0 m).ubs.coeff k 0 = F.log 5.0) ∧
    (gp.fixedBounds = true → gp.lowerBounds.size = m → gp.upperBounds.size = m →
      ∀ k, k < m →
        (parseBounds F gp lbs0 ubs0 m).lbs.coeff k 0 = F.log (gp.lowerBounds.coeff k 0) ∧
        (parseBounds F gp lbs0 ubs0 m).ubs.coeff k 0 = F.log (gp.upperBounds.coeff k 0)) ∧
    (gp.fixedBounds = true → gp.lowerBounds.size + 1 = m → gp.upperBounds.size + 1 = m →
      ((parseBounds F gp lbs0 ubs0 m).lbs.coeff 0 0 = F.log 0.00001 ∧
        (parseBounds F gp lbs0 ubs0 m).ubs.coeff 0 0 = F.log 5.0) ∧
      ∀ k, 1 ≤ k → k < m →
        (parseBounds F gp lbs0 ubs0 m).lbs.coeff k 0
          = F.log (gp.lowerBounds.coeff (k - 1) 0) ∧
        (parseBounds F gp lbs0 ubs0 m).ubs.coeff k 0
          = F.log (gp.upperBounds.coeff (k - 1) 0)) := by
  refine ⟨?_, ?_, ?_⟩
  · intro hf k _
    simp [parseBounds, hf, Mat.map, Mat.ones]
  · intro hf hl _ k _
    simp [parseBounds, hf, hl, Mat.map]
  · intro hf hl _
    have hlt : gp.lowerBounds.size < m := by omega
    have h0 : ¬ (0 ∈ irange 1 m) := by rw [mem_irange]; omega
    refine ⟨?_, ?_⟩
    · simp only [parseBounds, hf, hlt, if_true]
      rw [(parseBounds_fold _ _ _ _ 0).1, (parseBounds_fold _ _ _ _ 0).2, if_neg h0, if_neg h0]
      simp [Mat.set]
    · intro k hk1 hkm
      have hk : k ∈ irange 1 m := by rw [mem_irange]; exact ⟨hk1, hkm⟩
      simp only [parseBounds, hf, hlt, if_true]
      rw [(parseBounds_fold _ _ _ _ k).1, (parseBounds_fold _ _ _ _ k).2, if_pos hk, if_pos hk]
      exact ⟨rfl, rfl⟩


theorem sameSettings_refl (a : GaussianProcess α) : SameSettings a a := by
  simp [SameSettings]

theorem sameSettings_trans {a b c : GaussianProcess α} (h1 : SameSettings a b)
    (h2 : SameSettings b c) : SameSettings a c := by
  simp only [SameSettings] at *
  simp [h1, h2]

theorem computeCov_kernel_frame [Field α] (exp : α → α) (ker : Kernel α) (K Dv params : Mat α)
    (jitter : α) (evalGrad : Bool) :
    (RBF.computeCov exp ker K Dv params jitter evalGrad).kernel.kernelParams = ker.kernelParams ∧
    (RBF.computeCov exp ker K Dv params jitter evalGrad).kernel.paramCount = ker.paramCount ∧
    (RBF.computeCov exp ker K Dv params jitter evalGrad).kernel.noiseLevel = ker.noiseLevel ∧
    (RBF.computeCov exp ker K Dv params jitter evalGrad).kernel.scalingLevel = ker.scalingLevel ∧
    (RBF.computeCov exp ker K Dv params jitter evalGrad).kernel.fixedNoise = ker.fixedNoise ∧
    (RBF.computeCov exp ker K Dv params jitter evalGrad).kernel.fixedScaling
      = ker.fixedScaling := by
  cases evalGrad <;> simp [RBF.computeCov]

theorem evalNLML_frame [Field α] (F : Libm α) (E : Eigen α) (gp : GaussianProcess α)
    (p g : Mat α) (evalGrad : Bool) :
    SameSettings (evalNLML F E gp p g evalGrad).gp gp := by
  have h := computeCov_kernel_frame F.exp gp.kernel (gp.K.resize gp.obsX.rows gp.obsX.rows)
    gp.distMatrix (p.map F.exp) gp.jitter evalGrad
  cases evalGrad
  all_goals
    simp only [evalNLML, Bool.false_eq_true, if_false, if_true, SameSettings]
    simp only [h, and_self]

theorem objective_frame [Field α] (F : Libm α) (E : Eigen α) (gp : GaussianProcess α)
    (p : Mat α) : SameSettings (objective F E gp p).gp gp := by
  have h := evalNLML_frame F E gp p gp.cppOptLibgrad true
  simp only [SameSettings] at h ⊢
  simpa [objective] using h

theorem minimize_frame [Field α] (F : Libm α) (E : Eigen α) (S : Solver α) (lbs ubs x0 : Mat α)
    (fuel : Nat) (gp : GaussianProcess α) (h : List (Mat α × α × Mat α)) :
    SameSettings (minimize F E S lbs ubs x0 fuel gp h).1 gp := by
  induction fuel generalizing gp h with
  | zero => exact sameSettings_refl _
  | succ fuel ih =>
    rw [minimize]
    cases hn : S.next lbs ubs x0 h with
    | none => exact sameSettings_refl _
    | some p => exact sameSettings_trans (ih _ _) (objective_frame F E gp p)


theorem fitSetup_fields [Field α] (gp : GaussianProcess α) :
    (fitSetup gp).fixedNoise = gp.fixedNoise ∧ (fitSetup gp).noiseLevel = gp.noiseLevel ∧
    (fitSetup gp).kernel.paramCount = gp.kernel.paramCount ∧
    (fitSetup gp).paramCount = gp.kernel.paramCount ∧
    (fitSetup gp).augParamCount
      = (if gp.fixedNoise then gp.kernel.paramCount else gp.kernel.paramCount + 1) ∧
    (fitSetup gp).fixedBounds = gp.fixedBounds ∧ (fitSetup gp).lowerBounds = gp.lowerBounds ∧
    (fitSetup gp).upperBounds = gp.upperBounds ∧ (fitSetup gp).obsX = gp.obsX ∧
    (fitSetup gp).obsY = gp.obsY ∧ (fitSetup gp).jitter = gp.jitter ∧
    (fitSetup gp).distMatrix = pdist gp.distMatrix gp.obsX gp.obsX := by
  cases h : gp.fixedNoise <;>
    simp [fitSetup, h, computeDistMat, Kernel.getParamCount, Kernel.setNoise]

theorem parseBounds_congr [Field α] (F : Libm α) (a b : GaussianProcess α) (lbs ubs : Mat α)
    (m : Nat) (h1 : a.fixedBounds = b.fixedBounds) (h2 : a.lowerBounds = b.lowerBounds)
    (h3 : a.upperBounds = b.upperBounds) :
    parseBounds F a lbs ubs m = parseBounds F b lbs ubs m := by
  simp only [parseBounds, h1, h2, h3]

/-- The bounds `fitModel` hands to the solver are those of `parseBounds`. -/
theorem fitModel_bounds_raw [Field α] (F : Libm α) (E : Eigen α) (S : Solver α) (covJitter : α)
    (covEvalGrad : Bool) (gp : GaussianProcess α) (lbs0 ubs0 : Mat α) :
    (fitModel F E S covJitter covEvalGrad gp lbs0 ubs0).lbs
      = (parseBounds F (fitSetup gp) lbs0 ubs0 (fitSetup gp).augParamCount).lbs ∧
    (fitModel F E S covJitter covEvalGrad gp lbs0 ubs0).ubs
      = (parseBounds F (fitSetup gp) lbs0 ubs0 (fitSetup gp).augParamCount).ubs ∧
    (fitModel F E S covJitter covEvalGrad gp lbs0 ubs0).solverPoint
      = (minimize F E S
          (parseBounds F (fitSetup gp) lbs0 ubs0 (fitSetup gp).augParamCount).lbs
          (parseBounds F (fitSetup gp) lbs0 ubs0 (fitSetup gp).augParamCount).ubs
          (Mat.zero (fitSetup gp).augParamCount 1) S.maxEvals (fitSetup gp) []).2 := by
  unfold fitModel
  simp only [apply_ite FitResult.lbs, apply_ite FitResult.ubs, apply_ite FitResult.solverPoint,
    ite_self, and_self]

theorem fitModel_bounds [Field α] (F : Libm α) (E : Eigen α) (S : Solver α) (covJitter : α)
    (covEvalGrad : Bool) (gp : GaussianProcess α) (lbs0 ubs0 : Mat α) :
    (fitModel F E S covJitter covEvalGrad gp lbs0 ubs0).lbs
      = (parseBounds F gp lbs0 ubs0
          (if gp.fixedNoise then gp.kernel.paramCount else gp.kernel.paramCount + 1)).lbs ∧
    (fitModel F E S covJitter covEvalGrad gp lbs0 ubs0).ubs
      = (parseBounds F gp lbs0 ubs0
          (if gp.fixedNoise then gp.kernel.paramCount else gp.kernel.paramCount + 1)).ubs := by
  have hs := fitSetup_fields gp
  have hp := parseBounds_congr F (fitSetup gp) gp lbs0 ubs0 (fitSetup gp).augParamCount
    hs.2.2.2.2.2.1 hs.2.2.2.2.2.2.1 hs.2.2.2.2.2.2.2.1
  have hr := fitModel_bounds_raw F E S covJitter covEvalGrad gp lbs0 ubs0
  rw [hr.1, hr.2.1, hp, hs.2.2.2.2.1]
  exact ⟨rfl, rfl⟩


/-- The write-back of `fitModel`, by the mode of the noise. -/
theorem fitModel_write_back [Field α] (F : Libm α) (E : Eigen α) (S : Solver α) (covJitter : α)
    (covEvalGrad : Bool) (gp : GaussianProcess α) (lbs0 ubs0 : Mat α) :
    (gp.fixedNoise = false →
      (fitModel F E S covJitter covEvalGrad gp lbs0 ubs0).gp.noiseLevel
        = F.exp ((fitModel F E S covJitter covEvalGrad gp lbs0 ubs0).solverPoint.coeff 0 0) ∧
      (fitModel F E S covJitter covEvalGrad gp lbs0 ubs0).gp.kernel.kernelParams
        = ((fitModel F E S covJitter covEvalGrad gp lbs0 ubs0).solverPoint.map F.exp).tail
            gp.kernel.paramCount) ∧
    (gp.fixedNoise = true →
      (fitModel F E S covJitter covEvalGrad gp lbs0 ubs0).gp.noiseLevel = gp.noiseLevel ∧
      (fitModel F E S covJitter covEvalGrad gp lbs0 ubs0).gp.kernel.kernelParams
        = (fitModel F E S covJitter covEvalGrad gp lbs0 ubs0).solverPoint.map F.exp) ∧
    (fitModel F E S covJitter covEvalGrad gp lbs0 ubs0).gp.fixedNoise = gp.fixedNoise ∧
    (fitModel F E S covJitter covEvalGrad gp lbs0 ubs0).gp.paramCount = gp.kernel.paramCount ∧
    (fitModel F E S covJitter covEvalGrad gp lbs0 ubs0).gp.augParamCount
      = (if gp.fixedNoise then gp.kernel.paramCount else gp.kernel.paramCount + 1) := by
  have hs := fitSetup_fields gp
  have hf := minimize_frame F E S
    (parseBounds F (fitSetup gp) lbs0 ubs0 (fitSetup gp).augParamCount).lbs
    (parseBounds F (fitSetup gp) lbs0 ubs0 (fitSetup gp).augParamCount).ubs
    (Mat.zero (fitSetup gp).augParamCount 1) S.maxEvals (fitSetup gp) []
  simp only [SameSettings] at hf
  have hfn := hf.2.2.2.2.2.2.2.1.trans hs.1
  have hnl := hf.2.2.2.2.2.2.1.trans hs.2.1
  have hpc := hf.2.2.2.2.2.2.2.2.2.2.2.2.2.2.2.2.2.2.2.1.trans hs.2.2.2.1
  have hac := hf.2.2.2.2.2.2.2.2.2.2.2.2.2.2.2.2.2.2.2.2.1.trans hs.2.2.2.2.1
  cases hfix : gp.fixedNoise
  · rw [hfix] at hfn hac
    simp only [fitModel, hfn, hac, hpc, hnl, Bool.not_false, if_true, Bool.false_eq_true,
      if_false, Nat.add_sub_cancel, Kernel.setParams, Mat.head, Mat.map, true_and, and_true,
      false_implies, implies_true]
  · rw [hfix] at hfn hac
    simp only [fitModel, hfn, hac, hpc, hnl, Bool.not_true, if_true, Bool.false_eq_true,
      if_false, Kernel.setParams, true_and, and_true, and_self,
      false_implies, implies_true, reduceCtorEq]



/-- C11 on a model with the noise left to the optimiser (`m = 2`) and caller
bounds [2], [3] for the length-scale only: the noise entry is the default and
the length-scale entry is `(log 2, log 3)`. -/
theorem C11_parseBounds_log_scale_witness :
    ((parseBounds ⟨Real.exp, Real.log, Real.arctan⟩ (boundedGP : GaussianProcess ℝ)
        freshR freshR 2).lbs.coeff 0 0 = Real.log 0.00001 ∧
      (parseBounds ⟨Real.exp, Real.log, Real.arctan⟩ (boundedGP : GaussianProcess ℝ)
        freshR freshR 2).ubs.coeff 0 0 = Real.log 5.0) ∧
    (parseBounds ⟨Real.exp, Real.log, Real.arctan⟩ (boundedGP : GaussianProcess ℝ)
        freshR freshR 2).lbs.coeff 1 0 = Real.log 2 ∧
    (parseBounds ⟨Real.exp, Real.log, Real.arctan⟩ (boundedGP : GaussianProcess ℝ)
        freshR freshR 2).ubs.coeff 1 0 = Real.log 3 := by
  have h := (C11_parseBounds_log_scale ⟨Real.exp, Real.log, Real.arctan⟩
    (boundedGP : GaussianProcess ℝ) freshR freshR 2).2.2 rfl rfl rfl
  have h1 := h.2 1 (le_refl 1) (by norm_num)
  have e1 : (boundedGP : GaussianProcess ℝ).lowerBounds.coeff (1 - 1) 0 = 2 := by
    simp [boundedGP, GaussianProcess.setBounds, Mat.ofCol]
  have e2 : (boundedGP : GaussianProcess ℝ).upperBounds.coeff (1 - 1) 0 = 3 := by
    simp [boundedGP, GaussianProcess.setBounds, Mat.ofCol]
  rw [e1, e2] at h1
  exact ⟨h.1, h1.1, h1.2⟩


theorem invertedGP_bounds (lbs0 ubs0 : Mat ℝ) :
    parseBounds ⟨Real.exp, Real.log, Real.arctan⟩ (invertedGP : GaussianProcess ℝ) lbs0 ubs0 1
      = { lbs := (Mat.ofCol [5]).map Real.log, ubs := (Mat.ofCol [1]).map Real.log,
          readsLower := [0], readsUpper := [0] } := by
  have h1 : (invertedGP : GaussianProcess ℝ).fixedBounds = true := rfl
  have h2 : (invertedGP : GaussianProcess ℝ).lowerBounds = Mat.ofCol [5] := rfl
  have h3 : (invertedGP : GaussianProcess ℝ).upperBounds = Mat.ofCol [1] := rfl
  have h5 : (Mat.ofCol [5] : Mat ℝ).size = 1 := by simp [Mat.size, Mat.ofCol]
  have h6 : (Mat.ofCol [1] : Mat ℝ).size = 1 := by simp [Mat.size, Mat.ofCol]
  have h7 : List.range 1 = [0] := rfl
  simp only [parseBounds, h1, h2, h3, h5, h6, h7, if_true, lt_irrefl, if_false]

/-- C12 as stated fails: on the model with fixed noise (`m = 1`) and the caller
bounds lower = [5], upper = [1], nothing is reported.  `fitModel` hands the
log-bounds `log 5 > log 1` to the solver, runs it and writes the exponential of
the point it returns into the kernel, for every solver and every linear
algebra. -/
theorem C12_invalid_bounds_counterexample :
    (invertedGP : GaussianProcess ℝ).fixedBounds = true ∧
    (invertedGP : GaussianProcess ℝ).upperBounds.coeff 0 0
      < (invertedGP : GaussianProcess ℝ).lowerBounds.coeff 0 0 ∧
    ∀ (E : Eigen ℝ) (S : Solver ℝ) (covJitter : ℝ) (covEvalGrad : Bool) (lbs0 ubs0 : Mat ℝ),
      (fitModel ⟨Real.exp, Real.log, Real.arctan⟩ E S covJitter covEvalGrad invertedGP
        lbs0 ubs0).lbs.coeff 0 0 = Real.log 5 ∧
      (fitModel ⟨Real.exp, Real.log, Real.arctan⟩ E S covJitter covEvalGrad invertedGP
        lbs0 ubs0).ubs.coeff 0 0 = Real.log 1 ∧
      (fitModel ⟨Real.exp, Real.log, Real.arctan⟩ E S covJitter covEvalGrad invertedGP
        lbs0 ubs0).ubs.coeff 0 0
        < (fitModel ⟨Real.exp, Real.log, Real.arctan⟩ E S covJitter covEvalGrad invertedGP
            lbs0 ubs0).lbs.coeff 0 0 ∧
      (fitModel ⟨Real.exp, Real.log, Real.arctan⟩ E S covJitter covEvalGrad invertedGP
        lbs0 ubs0).solverPoint
        = (minimize ⟨Real.exp, Real.log, Real.arctan⟩ E S ((Mat.ofCol [5]).map Real.log)
            ((Mat.ofCol [1]).map Real.log) (Mat.zero 1 1) S.maxEvals (fitSetup invertedGP) []).2 ∧
      (fitModel ⟨Real.exp, Real.log, Real.arctan⟩ E S covJitter covEvalGrad invertedGP
        lbs0 ubs0).gp.kernel.kernelParams
        = (fitModel ⟨Real.exp, Real.log, Real.arctan⟩ E S covJitter covEvalGrad invertedGP
            lbs0 ubs0).solverPoint.map Real.exp := by
  refine ⟨rfl, ?_, ?_⟩
  · simp [invertedGP, GaussianProcess.setBounds, Mat.ofCol]
  · intro E S covJitter covEvalGrad lbs0 ubs0
    have hfix : (invertedGP : GaussianProcess ℝ).fixedNoise = true := rfl
    have hpc : (invertedGP : GaussianProcess ℝ).kernel.paramCount = 1 := rfl
    have hb := fitModel_bounds ⟨Real.exp, Real.log, Real.arctan⟩ E S covJitter covEvalGrad
      (invertedGP : GaussianProcess ℝ) lbs0 ubs0
    have hraw := fitModel_bounds_raw ⟨Real.exp, Real.log, Real.arctan⟩ E S covJitter covEvalGrad
      (invertedGP : GaussianProcess ℝ) lbs0 ubs0
    have hw := (fitModel_write_back ⟨Real.exp, Real.log, Real.arctan⟩ E S covJitter covEvalGrad
      (invertedGP : GaussianProcess ℝ) lbs0 ubs0).2.1 hfix
    have hs := fitSetup_fields (invertedGP : GaussianProcess ℝ)
    rw [hfix, if_pos rfl, hpc, invertedGP_bounds] at hb
    have haug : (fitSetup (invertedGP : GaussianProcess ℝ)).augParamCount = 1 := by
      rw [hs.2.2.2.2.1, hfix, if_pos rfl, hpc]
    have hlog : Real.log 1 < Real.log 5 := Real.log_lt_log (by norm_num) (by norm_num)
    refine ⟨?_, ?_, ?_, ?_, hw.2⟩
    · rw [hb.1]; simp [Mat.map, Mat.ofCol]
    · rw [hb.2]; simp [Mat.map, Mat.ofCol]
    · rw [hb.1, hb.2]; simpa [Mat.map, Mat.ofCol] using hlog
    · rw [hraw.2.2, ← hraw.1, ← hraw.2.1, hb.1, hb.2, haug]

/-- C12, amended: bounds are not validated and no error is reported.
`setBounds` stores any pair of vectors; when the caller's lower vector has at
least `m` entries (`m` the augmented parameter count), the bounds that
`fitModel` hands to the solver are the entrywise logarithms of the caller's two
vectors, whatever their length and order, so that `0 < upper(k) < lower(k)`
gives an upper log-bound below the lower one; the solver is run on them and its
result is written back: with fixed noise the parameters of the kernel become
`exp(r)`, otherwise the noise becomes `exp(r(0))` and the parameters of the
kernel the rest of `exp(r)`. -/
theorem C12_bounds_not_validated (E : Eigen ℝ) (S : Solver ℝ) (covJitter : ℝ)
    (covEvalGrad : Bool) (gp : GaussianProcess ℝ) (lo up lbs0 ubs0 : Mat ℝ) (res : FitResult ℝ)
    (hres : fitModel ⟨Real.exp, Real.log, Real.arctan⟩ E S covJitter covEvalGrad
      (gp.setBounds lo up) lbs0 ubs0 = res)
    (hlen : (if gp.fixedNoise then gp.kernel.paramCount else gp.kernel.paramCount + 1)
      ≤ lo.size) :
    ((gp.setBounds lo up).lowerBounds = lo ∧ (gp.setBounds lo up).upperBounds = up ∧
      (gp.setBounds lo up).fixedBounds = true) ∧
    res.lbs = lo.map Real.log ∧ res.ubs = up.map Real.log ∧
    (∀ k, 0 < up.coeff k 0 → up.coeff k 0 < lo.coeff k 0 →
      res.ubs.coeff k 0 < res.lbs.coeff k 0) ∧
    res.solverPoint
      = (minimize ⟨Real.exp, Real.log, Real.arctan⟩ E S (lo.map Real.log) (up.map Real.log)
          (Mat.zero (if gp.fixedNoise then gp.kernel.paramCount else gp.kernel.paramCount + 1) 1)
          S.maxEvals (fitSetup (gp.setBounds lo up)) []).2 ∧
    (gp.fixedNoise = true →
      res.gp.kernel.kernelParams = res.solverPoint.map Real.exp) ∧
    (gp.fixedNoise = false →
      res.gp.noiseLevel = Real.exp (res.solverPoint.coeff 0 0) ∧
      res.gp.kernel.kernelParams = (res.solverPoint.map Real.exp).tail gp.kernel.paramCount) := by
  subst hres
  have hw := fitModel_write_back ⟨Real.exp, Real.log, Real.arctan⟩ E S covJitter covEvalGrad
    (gp.setBounds lo up) lbs0 ubs0
  have hb := fitModel_bounds ⟨Real.exp, Real.log, Real.arctan⟩ E S covJitter covEvalGrad
    (gp.setBounds lo up) lbs0 ubs0
  have hraw := fitModel_bounds_raw ⟨Real.exp, Real.log, Real.arctan⟩ E S covJitter covEvalGrad
    (gp.setBounds lo up) lbs0 ubs0
  have hs := fitSetup_fields (gp.setBounds lo up)
  have hfix : (gp.setBounds lo up).fixedNoise = gp.fixedNoise := rfl
  have hpc : (gp.setBounds lo up).kernel.paramCount = gp.kernel.paramCount := rfl
  have hnlt : ¬ (lo.size
      < (if gp.fixedNoise then gp.kernel.paramCount else gp.kernel.paramCount + 1)) :=
    Nat.not_lt.2 hlen
  have hpb : parseBounds ⟨Real.exp, Real.log, Real.arctan⟩ (gp.setBounds lo up) lbs0 ubs0
      (if gp.fixedNoise then gp.kernel.paramCount else gp.kernel.paramCount + 1)
      = { lbs := lo.map Real.log, ubs := up.map Real.log,
          readsLower := List.range lo.size, readsUpper := List.range up.size } := by
    simp only [parseBounds, GaussianProcess.setBounds, hnlt, if_true, if_false]
  rw [hfix, hpc, hpb] at hb
  have haug : (fitSetup (gp.setBounds lo up)).augParamCount
      = (if gp.fixedNoise then gp.kernel.paramCount else gp.kernel.paramCount + 1) := by
    rw [hs.2.2.2.2.1, hfix, hpc]
  refine ⟨⟨rfl, rfl, rfl⟩, hb.1, hb.2, ?_, ?_, fun h => (hw.2.1 h).2, fun h => hw.1 h⟩
  · intro k h0 hlt
    rw [hb.1, hb.2]
    exact Real.log_lt_log h0 hlt
  · rw [hraw.2.2, ← hraw.1, ← hraw.2.1, hb.1, hb.2, haug]

/-- C12 (amended) on the model with fixed noise and the bounds [5], [1]. -/
theorem C12_bounds_not_validated_witness :
    (fitModel ⟨Real.exp, Real.log, Real.arctan⟩ (llt2 Real.sqrt) probeSolver 0 false
        ((twinFixed 1 : GaussianProcess ℝ).setBounds (Mat.ofCol [5]) (Mat.ofCol [1]))
        freshR freshR).lbs = (Mat.ofCol [5]).map Real.log ∧
    (fitModel ⟨Real.exp, Real.log, Real.arctan⟩ (llt2 Real.sqrt) probeSolver 0 false
        ((twinFixed 1 : GaussianProcess ℝ).setBounds (Mat.ofCol [5]) (Mat.ofCol [1]))
        freshR freshR).ubs = (Mat.ofCol [1]).map Real.log :=
  have h := C12_bounds_not_validated (llt2 Real.sqrt) probeSolver 0 false
    (twinFixed 1 : GaussianProcess ℝ) (Mat.ofCol [5]) (Mat.ofCol [1]) freshR freshR _ rfl
    (by
      have h1 : (twinFixed 1 : GaussianProcess ℝ).fixedNoise = true := rfl
      have h2 : (twinFixed 1 : GaussianProcess ℝ).kernel.paramCount = 1 := rfl
      rw [h1, h2]
      simp [Mat.size, Mat.ofCol])
  ⟨h.2.1, h.2.2.1⟩


/-- C13: write-back after fitting.  Let `r` be the point (in log space, a
vector of length `augParamCount`) that the solver returned.  After `fitModel`,
(i) if the noise was not fixed, `getNoise() = exp(r(0))` and the parameter
vector of the kernel has length `paramCount` and entries
`exp(r(1)), ..., exp(r(augParamCount-1))`; (ii) if the noise was fixed,
`getNoise()` is the value of the caller and the parameter vector of the kernel
is `exp(r)` entrywise; in both cases every fitted kernel parameter is strictly
positive. -/
theorem C13_fit_write_back (E : Eigen ℝ) (S : Solver ℝ) (covJitter : ℝ) (covEvalGrad : Bool)
    (gp : GaussianProcess ℝ) (lbs0 ubs0 : Mat ℝ) (res : FitResult ℝ)
    (hres : fitModel ⟨Real.exp, Real.log, Real.arctan⟩ E S covJitter covEvalGrad gp lbs0 ubs0
      = res)
    (hrows : res.solverPoint.rows = res.gp.augParamCount) (hcols : res.solverPoint.cols = 1) :
    res.gp.paramCount = gp.kernel.getParamCount ∧
    (gp.fixedNoise = false →
      res.gp.augParamCount = res.gp.paramCount + 1 ∧
      res.gp.getNoise = Real.exp (res.solverPoint.coeff 0 0) ∧
      res.gp.getParams.rows = res.gp.paramCount ∧ res.gp.getParams.cols = 1 ∧
      ∀ k, k < res.gp.paramCount →
        res.gp.getParams.coeff k 0 = Real.exp (res.solverPoint.coeff (k + 1) 0)) ∧
    (gp.fixedNoise = true →
      res.gp.augParamCount = res.gp.paramCount ∧
      res.gp.getNoise = gp.noiseLevel ∧
      res.gp.getParams = res.solverPoint.map Real.exp ∧
      res.gp.getParams.rows = res.gp.paramCount) ∧
    (∀ k, 0 < res.gp.getParams.coeff k 0) := by
  subst hres
  have hw := fitModel_write_back ⟨Real.exp, Real.log, Real.arctan⟩ E S covJitter covEvalGrad
    gp lbs0 ubs0
  obtain ⟨hj, hf, -, hpc, hac⟩ := hw
  refine ⟨hpc, ?_, ?_, ?_⟩
  · intro hfix
    rw [hfix] at hac
    simp only [Bool.false_eq_true, if_false] at hac
    obtain ⟨hn, hk⟩ := hj hfix
    rw [hac] at hrows
    refine ⟨by rw [hac, hpc], hn, ?_, ?_, ?_⟩
    · simp only [GaussianProcess.getParams, Kernel.getParams, hk, Mat.tail, hpc]
    · simp only [GaussianProcess.getParams, Kernel.getParams, hk, Mat.tail]
    · intro k _
      simp only [GaussianProcess.getParams, Kernel.getParams, hk, Mat.tail, Mat.map, Mat.size,
        hrows, hcols, mul_one]
      congr 2
      omega
  · intro hfix
    rw [hfix] at hac
    simp only [if_true] at hac
    obtain ⟨hn, hk⟩ := hf hfix
    rw [hac] at hrows
    refine ⟨by rw [hac, hpc], hn, hk, ?_⟩
    rw [show (fitModel ⟨Real.exp, Real.log, Real.arctan⟩ E S covJitter covEvalGrad gp lbs0
      ubs0).gp.getParams = _ from hk]
    simp only [Mat.map, hrows, hpc]
  · intro k
    cases hfix : gp.fixedNoise
    · simp only [GaussianProcess.getParams, Kernel.getParams, (hj hfix).2, Mat.tail, Mat.map]
      exact Real.exp_pos _
    · simp only [GaussianProcess.getParams, Kernel.getParams, (hf hfix).2, Mat.map]
      exact Real.exp_pos _

/-- C13 on the two coincident points with the noise left to the optimiser and
a solver that returns its starting point `(0, 0)`: the fitted noise is
`exp 0` and the fitted length-scale is `exp 0`. -/
theorem C13_fit_write_back_witness :
    (fitModel ⟨Real.exp, Real.log, Real.arctan⟩ (llt2 Real.sqrt) probeSolver 0 false
      (twinJoint : GaussianProcess ℝ) freshR freshR).gp.getNoise = Real.exp 0 ∧
    (fitModel ⟨Real.exp, Real.log, Real.arctan⟩ (llt2 Real.sqrt) probeSolver 0 false
      (twinJoint : GaussianProcess ℝ) freshR freshR).gp.getParams.coeff 0 0 = Real.exp 0 ∧
    0 < (fitModel ⟨Real.exp, Real.log, Real.arctan⟩ (llt2 Real.sqrt) probeSolver 0 false
      (twinJoint : GaussianProcess ℝ) freshR freshR).gp.getParams.coeff 0 0 := by
  have hw := fitModel_write_back ⟨Real.exp, Real.log, Real.arctan⟩ (llt2 Real.sqrt)
    (probeSolver : Solver ℝ) 0 false (twinJoint : GaussianProcess ℝ) freshR freshR
  have hraw := fitModel_bounds_raw ⟨Real.exp, Real.log, Real.arctan⟩ (llt2 Real.sqrt)
    (probeSolver : Solver ℝ) 0 false (twinJoint : GaussianProcess ℝ) freshR freshR
  have hfix : (twinJoint : GaussianProcess ℝ).fixedNoise = false := rfl
  have hpcount : (twinJoint : GaussianProcess ℝ).kernel.paramCount = 1 := rfl
  have haug : (fitSetup (twinJoint : GaussianProcess ℝ)).augParamCount = 2 := by
    rw [(fitSetup_fields _).2.2.2.2.1, hfix, hpcount]; rfl
  have hpoint : (fitModel ⟨Real.exp, Real.log, Real.arctan⟩ (llt2 Real.sqrt) probeSolver 0 false
      (twinJoint : GaussianProcess ℝ) freshR freshR).solverPoint = Mat.zero 2 1 := by
    rw [hraw.2.2, haug]
    simp [minimize, probeSolver]
  have hac := hw.2.2.2.2
  rw [hfix, hpcount] at hac
  have h := C13_fit_write_back (llt2 Real.sqrt) probeSolver 0 false
    (twinJoint : GaussianProcess ℝ) freshR freshR _ rfl
    (by rw [hpoint, hac]; rfl) (by rw [hpoint]; rfl)
  have h2 := h.2.1 hfix
  have hz : (Mat.zero 2 1 : Mat ℝ).coeff 1 0 = 0 := rfl
  have hz0 : (Mat.zero 2 1 : Mat ℝ).coeff 0 0 = 0 := rfl
  refine ⟨?_, ?_, h.2.2.2 0⟩
  · rw [h2.2.1, hpoint, hz0]
  · have h3 := h2.2.2.2.2 0 (by rw [h.1]; exact Nat.lt_of_lt_of_le Nat.zero_lt_one (le_of_eq hpcount.symm))
    rw [h3, hpoint, hz]

/-! ## The cross-covariance -/

/-- Columns assigned one after the other: every column of the list holds its
vector on the rows of the matrix, the rest of the matrix is kept. -/
theorem fold_setCol (col : Nat → Mat α) (l : List Nat) (K : Mat α) :
    (l.foldl (fun K j => K.setCol j (col j)) K).rows = K.rows ∧
    (l.foldl (fun K j => K.setCol j (col j)) K).cols = K.cols ∧
    ∀ a b, (l.foldl (fun K j => K.setCol j (col j)) K).coeff a b
      = if b ∈ l ∧ a < K.rows then (col b).coeff a 0 else K.coeff a b := by
  induction l generalizing K with
  | nil => simp
  | cons j l ih =>
    rw [List.foldl_cons]
    obtain ⟨h1, h2, h3⟩ := ih (K.setCol j (col j))
    refine ⟨h1, h2, ?_⟩
    intro a b
    rw [h3]
    have hr : (K.setCol j (col j)).rows = K.rows := rfl
    rw [hr]
    by_cases ha : a < K.rows
    · by_cases hb : b ∈ l
      · simp [hb, ha]
      · by_cases hbj : b = j
        · subst hbj; simp [hb, ha, Mat.setCol]
        · simp [hb, hbj, ha, Mat.setCol]
    · simp [ha, Mat.setCol]

/-- The coefficients `computeCrossCov` leaves in `K`. -/
theorem computeCrossCov_coeff [Field α] (exp : α → α) (ker : Kernel α) (K X1 X2 params : Mat α) :
    (RBF.computeCrossCov exp ker K X1 X2 params).rows = K.rows ∧
    (RBF.computeCrossCov exp ker K X1 X2 params).cols = K.cols ∧
    ∀ i j, i < K.rows → j < X2.rows →
      (RBF.computeCrossCov exp ker K X1 X2 params).coeff i j
        = RBF.evalDistKernel exp
            (((List.range X1.cols).map (fun c =>
              (X1.coeff i c - X2.coeff j c) * (X1.coeff i c - X2.coeff j c))).sum) params 0 := by
  unfold RBF.computeCrossCov
  obtain ⟨h1, h2, h3⟩ := fold_setCol
    (fun j => ((X1.rowwiseSub (X2.row j)).rowwiseSquaredNorm).map
      (fun d => RBF.evalDistKernel exp d params 0)) (irange 0 X2.rows) K
  refine ⟨h1, h2, ?_⟩
  intro i j hi hj
  have hm : j ∈ irange 0 X2.rows := by rw [mem_irange]; exact ⟨Nat.zero_le _, hj⟩
  rw [h3, if_pos ⟨hm, hi⟩]
  rfl

/-- C15: the cross-covariance carries no noise and no jitter.  For point
matrices `X1` (n rows) and `X2` (m rows), `K` sized n x m and a length-scale
`l = params(0) > 0`, `computeCrossCov` sets
`K(i,j) = exp(-||X1.row(i) - X2.row(j)||² / (2 l²))` for all `i < n`, `j < m`;
`computeCrossCov(X, X)` is symmetric with every diagonal entry equal to 1; and
the result is the same for every state of the kernel, its noise level
included (the jitter is not an argument). -/
theorem C15_cross_covariance_no_noise (ker : Kernel ℝ) (K X1 X2 params : Mat ℝ)
    (hKr : K.rows = X1.rows) (hKc : K.cols = X2.rows) (_hl : 0 < params.coeff 0 0) :
    ((RBF.computeCrossCov Real.exp ker K X1 X2 params).rows = X1.rows ∧
      (RBF.computeCrossCov Real.exp ker K X1 X2 params).cols = X2.rows) ∧
    (∀ i j, i < X1.rows → j < X2.rows →
      (RBF.computeCrossCov Real.exp ker K X1 X2 params).coeff i j
        = Real.exp (-((X1.row i).sub (X2.row j)).squaredNorm / (2 * (params.coeff 0 0) ^ 2))) ∧
    (X1 = X2 →
      (∀ i j, i < X1.rows → j < X1.rows →
        (RBF.computeCrossCov Real.exp ker K X1 X2 params).coeff i j
          = (RBF.computeCrossCov Real.exp ker K X1 X2 params).coeff j i) ∧
      (∀ i, i < X1.rows → (RBF.computeCrossCov Real.exp ker K X1 X2 params).coeff i i = 1)) ∧
    (∀ ker2 : Kernel ℝ, RBF.computeCrossCov Real.exp ker2 K X1 X2 params
      = RBF.computeCrossCov Real.exp ker K X1 X2 params) := by
  obtain ⟨h1, h2, h3⟩ := computeCrossCov_coeff Real.exp ker K X1 X2 params
  have hentry : ∀ i j, i < X1.rows → j < X2.rows →
      (RBF.computeCrossCov Real.exp ker K X1 X2 params).coeff i j
        = Real.exp (-((X1.row i).sub (X2.row j)).squaredNorm
            / (2 * (params.coeff 0 0) ^ 2)) := by
    intro i j hi hj
    rw [h3 i j (by rw [hKr]; exact hi) hj, squaredNorm_row_sub, list_sum_range_map]
    simp only [RBF.evalDistKernel]
    congr 2
    · congr 1
      exact Finset.sum_congr rfl (fun c _ => by ring)
    · norm_num
  refine ⟨⟨by rw [h1, hKr], by rw [h2, hKc]⟩, hentry, ?_, fun _ => rfl⟩
  intro hX
  subst hX
  refine ⟨?_, ?_⟩
  · intro i j hi hj
    rw [hentry i j hi hj, hentry j i hj hi, squaredNorm_row_sub, squaredNorm_row_sub]
    congr 3
    exact Finset.sum_congr rfl (fun c _ => by ring)
  · intro i hi
    rw [hentry i i hi hi, squaredNorm_row_sub]
    simp

/-- C15 between the training points 0, 0 and the test points 0, 1 with
length-scale 1: the entry for the pair (0, 1) is `exp(-1/2)`. -/
theorem C15_cross_covariance_no_noise_witness :
    (RBF.computeCrossCov Real.exp (rbfNew freshR) (freshR.resize 2 2) (twinX : Mat ℝ) predPts
      (Mat.ofCol [1])).coeff 0 1 = Real.exp (-1 / 2) := by
  have h := (C15_cross_covariance_no_noise (rbfNew freshR) (freshR.resize 2 2) (twinX : Mat ℝ)
    predPts (Mat.ofCol [1]) rfl rfl (by simp [Mat.ofCol])).2.1 0 1 (by decide) (by decide)
  rw [h, squaredNorm_row_sub]
  have hc : (twinX : Mat ℝ).cols = 1 := rfl
  rw [hc]
  simp [twinX, predPts, Mat.ofRows, Mat.ofCol]


/-! ## The predictor -/

theorem mul_toMatrix (A B : Mat ℝ) (r k c : Nat) (hk : A.cols = k) :
    (A.mul B).toMatrix r c = A.toMatrix r k * B.toMatrix k c := by
  subst hk
  ext i j
  simp only [Mat.mul, Mat.toMatrix, Matrix.mul_apply, Matrix.of_apply]
  exact list_sum_range_fin _ _

theorem mul_toVec (A v : Mat ℝ) (r k : Nat) (hk : A.cols = k) :
    (A.mul v).toVec r = (A.toMatrix r k).mulVec (v.toVec k) := by
  subst hk
  ext i
  simp only [Mat.mul, Mat.toMatrix, Mat.toVec, Matrix.mulVec, Matrix.dotProduct, Matrix.of_apply]
  exact list_sum_range_fin _ _

/-- With `L * Lᵀ = K` positive definite and `L * V = K*`, the product `Vᵀ * V` is
`K*ᵀ * K⁻¹ * K*`. -/
theorem posterior_cov_eq {n m : Nat} (K L : Matrix (Fin n) (Fin n) ℝ)
    (Ks V : Matrix (Fin n) (Fin m) ℝ) (hK : K.PosDef) (hL : L * L.transpose = K)
    (hV : L * V = Ks) : V.transpose * V = Ks.transpose * K⁻¹ * Ks := by
  have hdK : 0 < K.det := hK.det_pos
  have hdet : K.det = L.det * L.det := by rw [← hL, Matrix.det_mul, Matrix.det_transpose]
  have hL0 : L.det ≠ 0 := by
    intro h
    rw [hdet, h] at hdK
    simp at hdK
  have hu : IsUnit L.det := isUnit_iff_ne_zero.2 hL0
  have hut : IsUnit L.transpose.det := by rw [Matrix.det_transpose]; exact hu
  rw [← hV, ← hL, Matrix.transpose_mul, Matrix.mul_inv_rev]
  have e1 : V.transpose * L.transpose * (L.transpose⁻¹ * L⁻¹) * (L * V)
      = V.transpose * (L.transpose * L.transpose⁻¹) * (L⁻¹ * L) * V := by
    simp only [Matrix.mul_assoc]
  rw [e1, Matrix.mul_nonsing_inv _ hut, Matrix.nonsing_inv_mul _ hu, Matrix.mul_one,
    Matrix.mul_one]

/-- C14: the predictor computes the posterior of the Gaussian process.  Let
the cached training covariance `K` (n x n) be positive definite, the cached
factor `L` satisfy `L * Lᵀ = K` and the cached `alpha` be `K⁻¹ y`; let `K*`
(n x m) and `K**` (m x m) be the cross-covariances `predict` computes and `v`
the result of the triangular solve, with `L v = K*`.  Then `predict` sets
`predMean = K*ᵀ alpha = K*ᵀ K⁻¹ y` and `predCov = K** - vᵀ v`, and this is
`K** - K*ᵀ K⁻¹ K*`. -/
theorem C14_predict_is_posterior (F : Libm ℝ) (E : Eigen ℝ) (gp : GaussianProcess ℝ)
    (kstar0 kstarmat0 kstar kstarmat v : Mat ℝ) (n m : Nat)
    (hn : gp.obsX.rows = n) (hm : gp.predX.rows = m)
    (hks : kstar = RBF.computeCrossCov F.exp gp.kernel (kstar0.resize n m) gp.obsX gp.predX
      gp.kernel.getParams)
    (hkss : kstarmat = RBF.computeCrossCov F.exp gp.kernel (kstarmat0.resize m m) gp.predX
      gp.predX gp.kernel.getParams)
    (hv : v = E.triSolve gp.cholesky kstar)
    (hPD : (gp.K.toMatrix n n).PosDef)
    (hL : gp.cholesky.toMatrix n n * (gp.cholesky.toMatrix n n).transpose = gp.K.toMatrix n n)
    (halpha : gp._alpha.toVec n = (gp.K.toMatrix n n)⁻¹.mulVec (gp.obsY.toVec n))
    (hvrows : v.rows = n)
    (hLv : gp.cholesky.toMatrix n n * v.toMatrix n m = kstar.toMatrix n m) :
    (predict F E gp kstar0 kstarmat0).predMean.toVec m
      = (kstar.toMatrix n m).transpose.mulVec (gp._alpha.toVec n) ∧
    (predict F E gp kstar0 kstarmat0).predMean.toVec m
      = (kstar.toMatrix n m).transpose.mulVec
          ((gp.K.toMatrix n n)⁻¹.mulVec (gp.obsY.toVec n)) ∧
    (predict F E gp kstar0 kstarmat0).predCov.toMatrix m m
      = kstarmat.toMatrix m m - (v.toMatrix n m).transpose * v.toMatrix n m ∧
    (predict F E gp kstar0 kstarmat0).predCov.toMatrix m m
      = kstarmat.toMatrix m m
        - (kstar.toMatrix n m).transpose * (gp.K.toMatrix n n)⁻¹ * kstar.toMatrix n m := by
  have hkr : kstar.rows = n := by
    rw [hks, (computeCrossCov_coeff _ _ _ _ _ _).1]; rfl
  have hmean : (predict F E gp kstar0 kstarmat0).predMean = kstar.transpose.mul gp._alpha := by
    rw [hks]; simp only [predict, hn, hm]
  have hcov : (predict F E gp kstar0 kstarmat0).predCov
      = kstarmat.sub (v.transpose.mul v) := by
    rw [hkss, hv, hks]; simp only [predict, hn, hm]
  have h1 : (predict F E gp kstar0 kstarmat0).predMean.toVec m
      = (kstar.toMatrix n m).transpose.mulVec (gp._alpha.toVec n) := by
    rw [hmean, mul_toVec _ _ m n hkr]
    rfl
  have h3 : (predict F E gp kstar0 kstarmat0).predCov.toMatrix m m
      = kstarmat.toMatrix m m - (v.toMatrix n m).transpose * v.toMatrix n m := by
    rw [hcov]
    have e : (kstarmat.sub (v.transpose.mul v)).toMatrix m m
        = kstarmat.toMatrix m m - (v.transpose.mul v).toMatrix m m := by
      ext i j
      simp [Mat.sub, Mat.toMatrix]
    rw [e, mul_toMatrix _ _ m n m hvrows]
    rfl
  refine ⟨h1, ?_, h3, ?_⟩
  · rw [h1, halpha]
  · rw [h3, posterior_cov_eq _ _ _ _ hPD hL hLv]


/-- The triangular solve of `llt2` solves `L v = B` for a lower-triangular `L`
with non-zero diagonal. -/
theorem llt2_triSolve (L B : Mat ℝ) (m : Nat) (h01 : L.coeff 0 1 = 0) (h00 : L.coeff 0 0 ≠ 0)
    (h11 : L.coeff 1 1 ≠ 0) :
    ((llt2 Real.sqrt).triSolve L B).rows = 2 ∧
    L.toMatrix 2 2 * ((llt2 Real.sqrt).triSolve L B).toMatrix 2 m = B.toMatrix 2 m := by
  refine ⟨rfl, ?_⟩
  ext i j
  fin_cases i
  · simp [llt2, Mat.toMatrix, Matrix.mul_apply, Fin.sum_univ_two, h01]
    field_simp
  · simp [llt2, Mat.toMatrix, Matrix.mul_apply, Fin.sum_univ_two]
    field_simp
    ring

/-- The cached state of the model evaluated on the two coincident points:
`K` is positive definite, the factor is lower triangular with positive
diagonal and `L * Lᵀ = K`, and `alpha = K⁻¹ y`. -/
theorem twinEvaluated_state :
    ((twinEvaluated ⟨Real.exp, Real.log, Real.arctan⟩ (llt2 Real.sqrt)).K.toMatrix 2 2).PosDef ∧
    (twinEvaluated ⟨Real.exp, Real.log, Real.arctan⟩ (llt2 Real.sqrt)).cholesky.coeff 0 1 = 0 ∧
    0 < (twinEvaluated ⟨Real.exp, Real.log, Real.arctan⟩ (llt2 Real.sqrt)).cholesky.coeff 0 0 ∧
    0 < (twinEvaluated ⟨Real.exp, Real.log, Real.arctan⟩ (llt2 Real.sqrt)).cholesky.coeff 1 1 ∧
    (twinEvaluated ⟨Real.exp, Real.log, Real.arctan⟩ (llt2 Real.sqrt)).cholesky.toMatrix 2 2
        * ((twinEvaluated ⟨Real.exp, Real.log, Real.arctan⟩
            (llt2 Real.sqrt)).cholesky.toMatrix 2 2).transpose
      = (twinEvaluated ⟨Real.exp, Real.log, Real.arctan⟩ (llt2 Real.sqrt)).K.toMatrix 2 2 ∧
    (twinEvaluated ⟨Real.exp, Real.log, Real.arctan⟩ (llt2 Real.sqrt))._alpha.toVec 2
      = ((twinEvaluated ⟨Real.exp, Real.log, Real.arctan⟩ (llt2 Real.sqrt)).K.toMatrix 2 2)⁻¹.mulVec
          ((twinEvaluated ⟨Real.exp, Real.log, Real.arctan⟩ (llt2 Real.sqrt)).obsY.toVec 2) := by
  have hPD := twinJoint_posDef (llt2 Real.sqrt) ⟨0, 1, fun _ _ => 0⟩ false
  have hd := evalNLML_K_dims ⟨Real.exp, Real.log, Real.arctan⟩ (llt2 Real.sqrt)
    (twinJoint : GaussianProcess ℝ) (Mat.ofCol [0, 0]) ⟨0, 1, fun _ _ => 0⟩ false
  have hrows : (twinJoint : GaussianProcess ℝ).obsX.rows = 2 := rfl
  rw [hrows] at hd
  obtain ⟨-, -, h3, h4, h5, -⟩ := llt2_contract _ hd.1 hd.2 hPD
  have hc := evalNLML_value_contract (llt2 Real.sqrt) (twinJoint : GaussianProcess ℝ)
    (Mat.ofCol [0, 0]) ⟨0, 1, fun _ _ => 0⟩ false llt2_contract rfl rfl hPD
  rw [← evalNLML_cholesky] at h3 h4 h5
  exact ⟨hPD, h3 0 1 (by decide) (by decide), h4 0 (by decide), h4 1 (by decide), h5, hc.1⟩

/-- C14 on the two coincident training points (targets 1, 0), evaluated at the
log-parameters (0, 0) with the 2 x 2 linear algebra, and the test points 0, 1. -/
theorem C14_predict_is_posterior_witness :
    (predict ⟨Real.exp, Real.log, Real.arctan⟩ (llt2 Real.sqrt)
        (twinEvaluated ⟨Real.exp, Real.log, Real.arctan⟩ (llt2 Real.sqrt))
        freshR freshR).predMean.toVec 2
      = ((RBF.computeCrossCov Real.exp (rbfNew ⟨0, 0, fun _ _ => 0⟩) (freshR.resize 2 2) twinX
          predPts (Mat.ofCol [1.0])).toMatrix 2 2).transpose.mulVec
          (((twinEvaluated ⟨Real.exp, Real.log, Real.arctan⟩
            (llt2 Real.sqrt)).K.toMatrix 2 2)⁻¹.mulVec (twinY.toVec 2)) ∧
    (predict ⟨Real.exp, Real.log, Real.arctan⟩ (llt2 Real.sqrt)
        (twinEvaluated ⟨Real.exp, Real.log, Real.arctan⟩ (llt2 Real.sqrt))
        freshR freshR).predCov.toMatrix 2 2
      = (RBF.computeCrossCov Real.exp (rbfNew ⟨0, 0, fun _ _ => 0⟩) (freshR.resize 2 2) predPts
          predPts (Mat.ofCol [1.0])).toMatrix 2 2
        - ((RBF.computeCrossCov Real.exp (rbfNew ⟨0, 0, fun _ _ => 0⟩) (freshR.resize 2 2) twinX
            predPts (Mat.ofCol [1.0])).toMatrix 2 2).transpose
          * ((twinEvaluated ⟨Real.exp, Real.log, Real.arctan⟩
              (llt2 Real.sqrt)).K.toMatrix 2 2)⁻¹
          * (RBF.computeCrossCov Real.exp (rbfNew ⟨0, 0, fun _ _ => 0⟩) (freshR.resize 2 2) twinX
              predPts (Mat.ofCol [1.0])).toMatrix 2 2 := by
  obtain ⟨hPD, h01, h00, h11, hL, halpha⟩ := twinEvaluated_state
  have ht := llt2_triSolve
    (twinEvaluated ⟨Real.exp, Real.log, Real.arctan⟩ (llt2 Real.sqrt)).cholesky
    (RBF.computeCrossCov Real.exp (rbfNew ⟨0, 0, fun _ _ => 0⟩) (freshR.resize 2 2) twinX
      predPts (Mat.ofCol [1.0])) 2 h01 h00.ne' h11.ne'
  have h := C14_predict_is_posterior ⟨Real.exp, Real.log, Real.arctan⟩ (llt2 Real.sqrt)
    (twinEvaluated ⟨Real.exp, Real.log, Real.arctan⟩ (llt2 Real.sqrt)) freshR freshR
    _ _ _ 2 2 rfl rfl rfl rfl rfl hPD hL halpha ht.1 ht.2
  exact ⟨h.2.1, h.2.2.2⟩

/-! ## The public likelihood entry point -/

/-- Coefficients written one after the other at the indices of a list. -/
theorem fold_set_coeff (f : Nat → α) (l : List Nat) (v : Mat α) :
    (l.foldl (fun lp i => lp.set i 0 (f i)) v).rows = v.rows ∧
    (l.foldl (fun lp i => lp.set i 0 (f i)) v).cols = v.cols ∧
    ∀ k, (l.foldl (fun lp i => lp.set i 0 (f i)) v).coeff k 0
      = if k ∈ l then f k else v.coeff k 0 := by
  induction l generalizing v with
  | nil => simp
  | cons a l ih =>
    rw [List.foldl_cons]
    obtain ⟨h1, h2, h3⟩ := ih (v.set a 0 (f a))
    refine ⟨h1, h2, ?_⟩
    intro k
    rw [h3]
    by_cases hk : k ∈ l
    · simp [hk]
    · by_cases hka : k = a
      · subst hka; simp [Mat.set]
      · simp [hk, hka, Mat.set]

/-- With the noise not fixed, `computeNLML(p, noise)` evaluates the objective at
`[log noise, log p(0), ..., log p(augParamCount - 2)]`. -/
theorem computeNLML_joint [Field α] (F : Libm α) (E : Eigen α) (gp : GaussianProcess α)
    (logparams0 p : Mat α) (noise : α) (hfix : gp.fixedNoise = false) :
    computeNLML F E gp logparams0 p noise
      = evalNLML1 F E gp (computeNLMLPoint F gp logparams0 p noise) ∧
    (computeNLMLPoint F gp logparams0 p noise).rows = gp.augParamCount ∧
    (computeNLMLPoint F gp logparams0 p noise).cols = 1 ∧
    (computeNLMLPoint F gp logparams0 p noise).coeff 0 0 = F.log noise ∧
    ∀ i, 1 ≤ i → i < gp.augParamCount →
      (computeNLMLPoint F gp logparams0 p noise).coeff i 0 = F.log (p.coeff (i - 1) 0) := by
  have h0 : ¬ (0 ∈ irange 1 gp.augParamCount) := by rw [mem_irange]; omega
  refine ⟨rfl, ?_⟩
  simp only [computeNLMLPoint, hfix, Bool.not_false, if_true]
  obtain ⟨h1, h2, h3⟩ := fold_set_coeff (fun i => F.log (p.coeff (i - 1) 0))
    (irange 1 gp.augParamCount) ((logparams0.resize gp.augParamCount 1).set 0 0 (F.log noise))
  refine ⟨h1, h2, ?_, ?_⟩
  · rw [h3, if_neg h0]; simp [Mat.set]
  · intro i hi1 hi2
    rw [h3, if_pos (by rw [mem_irange]; exact ⟨hi1, hi2⟩)]

theorem pairFixed_dist (noise : ℝ) :
    (pairFixed noise).distMatrix.coeff (condensedIndex 2 0 1) 0 = 1 := by
  have := pdist_coeff (GaussianProcess.new (rbfNew (⟨0, 0, fun _ _ => 0⟩ : Mat ℝ)) 1
    1).distMatrix (predPts : Mat ℝ) predPts 0 1 (by decide) (by decide)
  simp only [pairFixed, computeDistMat, GaussianProcess.setNoise, GaussianProcess.setObs,
    GaussianProcess.setKernel]
  have hr : (predPts : Mat ℝ).rows = 2 := rfl
  rw [hr] at this
  rw [this]
  simp [predPts, Mat.ofRows]

/-- The off-diagonal entry of the covariance the objective caches on the two
points 0 and 1 with fixed noise, at the log-length-scale `p(0)`. -/
theorem pairFixed_K01 (E : Eigen ℝ) (noise : ℝ) (p g : Mat ℝ) (hp : p.size = 1)
    (evalGrad : Bool) :
    (evalNLML ⟨Real.exp, Real.log, Real.arctan⟩ E (pairFixed noise) p g evalGrad).gp.K.coeff 0 1
      = Real.exp (-0.5 / (Real.exp (p.coeff 0 0)) ^ 2) := by
  have h := evalNLML_K_entry E (pairFixed noise) p g evalGrad ⟨0, (show 0 < 2 by decide)⟩
    ⟨1, (show 1 < 2 by decide)⟩
  have hpc : (pairFixed noise).kernel.paramCount = 1 := rfl
  have hrows : (pairFixed noise).obsX.rows = 2 := rfl
  have hne : (⟨0, (show 0 < 2 by decide)⟩ : Fin (pairFixed noise).obsX.rows)
      ≠ ⟨1, (show 1 < 2 by decide)⟩ := by
    intro h; exact absurd (congrArg Fin.val h) Nat.zero_ne_one
  rw [if_neg hne, hpc, hp, if_neg (lt_irrefl 1)] at h
  have h2 : (evalNLML ⟨Real.exp, Real.log, Real.arctan⟩ E (pairFixed noise) p g
      evalGrad).gp.K.coeff 0 1
      = Real.exp (-0.5 / (Real.exp (p.coeff 0 0)) ^ 2
          * (pairFixed noise).distMatrix.coeff (condensedIndex 2 0 1) 0) := h
  rw [pairFixed_dist, mul_one] at h2
  exact h2

/-- C16 fails in the mode with fixed noise: on the model with fixed noise 1 on
the points 0 and 1, `computeNLML(p, noise)` takes the logarithm of the vector
`logparams` as constructed and never reads `p`.  Its result is the same for
all `p`; with the value 7 in the fresh vector and `p = [2]` it caches the
covariance of the length-scale 7, `exp(-0.5 / 7²)` off the diagonal, while the
objective at `[log 2]` caches `exp(-0.5 / 2²)`. -/
theorem C16_computeNLML_fixed_noise_ignores_p :
    (∀ (E : Eigen ℝ) (logparams0 p q : Mat ℝ),
      computeNLML ⟨Real.exp, Real.log, Real.arctan⟩ E (pairFixed 1) logparams0 p 1
        = computeNLML ⟨Real.exp, Real.log, Real.arctan⟩ E (pairFixed 1) logparams0 q 1) ∧
    (∀ E : Eigen ℝ,
      (computeNLML ⟨Real.exp, Real.log, Real.arctan⟩ E (pairFixed 1) freshR (Mat.ofCol [2])
        1).gp.K.coeff 0 1 = Real.exp (-0.5 / 7 ^ 2) ∧
      (evalNLML1 ⟨Real.exp, Real.log, Real.arctan⟩ E (pairFixed 1)
        ((Mat.ofCol [2]).map Real.log)).gp.K.coeff 0 1 = Real.exp (-0.5 / 2 ^ 2)) ∧
    Real.exp (-0.5 / 7 ^ 2) ≠ Real.exp (-0.5 / 2 ^ 2) := by
  have hfix : (pairFixed (1 : ℝ)).fixedNoise = true := rfl
  have haug : (pairFixed (1 : ℝ)).augParamCount = 1 := rfl
  refine ⟨?_, ?_, ?_⟩
  · intro E logparams0 p q
    simp only [computeNLML, computeNLMLPoint, hfix, Bool.not_true, Bool.false_eq_true, if_false]
  · intro E
    refine ⟨?_, ?_⟩
    · have hpt : computeNLMLPoint ⟨Real.exp, Real.log, Real.arctan⟩ (pairFixed 1) freshR
          (Mat.ofCol [2]) 1 = (freshR.resize 1 1).map Real.log := by
        simp only [computeNLMLPoint, hfix, haug, Bool.not_true, Bool.false_eq_true, if_false]
      simp only [computeNLML, evalNLML1, hpt]
      rw [pairFixed_K01 E 1 ((freshR.resize 1 1).map Real.log) _ rfl false]
      have h7 : ((freshR.resize 1 1).map Real.log).coeff 0 0 = Real.log 7 := rfl
      rw [h7, Real.exp_log (by norm_num)]
    · simp only [evalNLML1]
      rw [pairFixed_K01 E 1 ((Mat.ofCol [2]).map Real.log) _ rfl false]
      have h2 : ((Mat.ofCol [(2 : ℝ)]).map Real.log).coeff 0 0 = Real.log 2 := by
        simp [Mat.map, Mat.ofCol]
      rw [h2, Real.exp_log (by norm_num)]
  · intro h
    have := Real.exp_injective h
    norm_num at this

/-! ## The predictive variance -/

/-- C18: the accessor of the predictive variance.  After `predict()`, for
every index `j`, `getPredVar()(j) = predCov(j,j) + noiseLevel`, where
`noiseLevel` is the noise of the model, which `predict` leaves as it was; the
vector has one entry per test point. -/
theorem C18_predictive_variance [Field α] (F : Libm α) (E : Eigen α) (gp : GaussianProcess α)
    (kstar0 kstarmat0 : Mat α) :
    (∀ j, (predict F E gp kstar0 kstarmat0).getPredVar.coeff j 0
      = (predict F E gp kstar0 kstarmat0).predCov.coeff j j
        + (predict F E gp kstar0 kstarmat0).getNoise) ∧
    (predict F E gp kstar0 kstarmat0).getNoise = gp.noiseLevel ∧
    (predict F E gp kstar0 kstarmat0).getPredVar.rows = gp.predX.rows ∧
    (predict F E gp kstar0 kstarmat0).getPredVar.cols = 1 := by
  have hd := computeCrossCov_coeff F.exp gp.kernel (kstarmat0.resize gp.predX.rows gp.predX.rows)
    gp.predX gp.predX gp.kernel.getParams
  refine ⟨?_, rfl, ?_, rfl⟩
  · intro j
    simp [GaussianProcess.getPredVar, GaussianProcess.getNoise, Mat.add, Mat.diagonal, Mat.map,
      Mat.ones]
  · simp only [GaussianProcess.getPredVar, Mat.add, Mat.diagonal, predict, Mat.sub]
    rw [hd.1, hd.2.1]
    simp only [Mat.resize, Nat.min_self]

/-! ## No failure is reported -/

/-- C19 as stated fails: on the two coincident points with the fixed noise
`-2` the covariance has the diagonal `-1 + 1e-10` and is not positive definite,
and `evalNLML` returns, for every linear algebra, the value
`0.5 (yᵀ alpha)(0) + Σ log diag(L) + 0.5 n log(2π)` computed from what the
factorisation left in `L` and `alpha`; `computeNLML` returns this value. -/
theorem C19_cholesky_failure_counterexample :
    (∀ E : Eigen ℝ,
      ¬ ((evalNLML ⟨Real.exp, Real.log, Real.arctan⟩ E (twinFixed (-2)) (Mat.ofCol [0]) freshR
          false).gp.K.toMatrix 2 2).PosDef) ∧
    (∀ E : Eigen ℝ,
      (evalNLML ⟨Real.exp, Real.log, Real.arctan⟩ E (twinFixed (-2)) (Mat.ofCol [0]) freshR
          false).value
        = 0.5 * (twinY.transpose.mul
            (E.lltSolve (E.llt (evalNLML ⟨Real.exp, Real.log, Real.arctan⟩ E (twinFixed (-2))
              (Mat.ofCol [0]) freshR false).gp.K) twinY)).coeff 0 0
          + ((E.llt (evalNLML ⟨Real.exp, Real.log, Real.arctan⟩ E (twinFixed (-2))
              (Mat.ofCol [0]) freshR false).gp.K).diagonal.map Real.log).sum
          + 0.5 * ((2 : ℕ) : ℝ) * Real.log (2 * (Real.arctan 1 * 4))) := by
  refine ⟨?_, ?_⟩
  · intro E hPD
    have hK := twinFixed_K ⟨Real.exp, Real.log, Real.arctan⟩ rfl E (-2) (Mat.ofCol [0]) freshR
      rfl false
    rw [hK] at hPD
    have h := hPD.2 ![1, 0] (by
      intro h0
      have := congrFun h0 0
      simp at this)
    simp [Matrix.mulVec, Matrix.dotProduct, Fin.sum_univ_two] at h
    norm_num at h
  · intro E
    rfl


/-- C19, amended: the objective does not test whether the factorisation
succeeded and has no error result.  At every log-hyperparameter point,
positive definite covariance or not, `evalNLML` caches the factor `L = K.llt()`
and `alpha = solve(y)` as the linear algebra left them and returns
`0.5 (yᵀ alpha)(0) + Σ log diag(L) + 0.5 n log(2π)` computed from them;
`computeNLML` returns this value at its point, and `fitModel` caches the
factor of its last covariance in the same way. -/
theorem C19_no_failure_check [Field α] (F : Libm α) (E : Eigen α) (gp : GaussianProcess α)
    (p g : Mat α) (evalGrad : Bool) :
    (evalNLML F E gp p g evalGrad).gp.cholesky = E.llt (evalNLML F E gp p g evalGrad).gp.K ∧
    (evalNLML F E gp p g evalGrad).gp._alpha
      = E.lltSolve (evalNLML F E gp p g evalGrad).gp.cholesky gp.obsY ∧
    (evalNLML F E gp p g evalGrad).value
      = 0.5 * (gp.obsY.transpose.mul (evalNLML F E gp p g evalGrad).gp._alpha).coeff 0 0
        + ((evalNLML F E gp p g evalGrad).gp.cholesky.diagonal.map F.log).sum
        + 0.5 * (gp.obsX.rows : α) * F.log (2 * PI F) ∧
    (∀ (logparams0 q : Mat α) (noise : α),
      (computeNLML F E gp logparams0 q noise).value
        = (evalNLML F E gp (computeNLMLPoint F gp logparams0 q noise) ⟨0, 1, fun _ _ => 0⟩
            false).value) ∧
    (∀ (S : Solver α) (covJitter : α) (covEvalGrad : Bool) (lbs0 ubs0 : Mat α),
      (fitModel F E S covJitter covEvalGrad gp lbs0 ubs0).gp.cholesky
        = E.llt (fitModel F E S covJitter covEvalGrad gp lbs0 ubs0).gp.K) := by
  refine ⟨evalNLML_cholesky F E gp p g evalGrad, evalNLML_alpha F E gp p g evalGrad, ?_,
    fun _ _ _ => rfl, ?_⟩
  · cases evalGrad <;> rfl
  · intro S covJitter covEvalGrad lbs0 ubs0
    unfold fitModel
    simp only []
    split <;> rfl

/-! ## Degenerate sizes -/

/-- C20 as stated fails: for the single point (3, 4), `pdist` returns the
empty condensed vector (0 x 1) and `squareForm` with `n = 1` and the diagonal
value 5 returns the 1 x 1 matrix [5]. -/
theorem C20_degenerate_size_counterexample :
    onePointZ.rows = 1 ∧
    (pdist freshZ onePointZ onePointZ).rows = 0 ∧
    (pdist freshZ onePointZ onePointZ).cols = 1 ∧
    (squareForm freshZ (pdist freshZ onePointZ onePointZ) 1 5).rows = 1 ∧
    (squareForm freshZ (pdist freshZ onePointZ onePointZ) 1 5).cols = 1 ∧
    (squareForm freshZ (pdist freshZ onePointZ onePointZ) 1 5).coeff 0 0 = 5 := by
  decide

/-- C20, amended: `pdist` and `squareForm` check no size and report no error.
For a single point (`n = 1`) `pdist` returns the empty condensed vector, 0 x 1,
without writing a coefficient, and `squareForm` with `n = 1` returns the 1 x 1
matrix holding the diagonal value. -/
theorem C20_single_point_result [CommRing α] (X D0 Dv0 : Mat α) (d : α) (h : X.rows = 1) :
    (pdist Dv0 X X).rows = 0 ∧ (pdist Dv0 X X).cols = 1 ∧ (pdistLoop Dv0 X X).log = [] ∧
    (squareForm D0 (pdist Dv0 X X) 1 d).rows = 1 ∧
    (squareForm D0 (pdist Dv0 X X) 1 d).cols = 1 ∧
    (squareForm D0 (pdist Dv0 X X) 1 d).coeff 0 0 = d := by
  have hp : pdistLoop Dv0 X X = { M := Dv0.resize 0 1, k := 0, log := [] } := by
    have he : (pdistEntryCount 1).toNat = 0 := by decide
    simp [pdistLoop, h, irange, he]
  have hs : squareFormLoop D0 (pdist Dv0 X X) 1 = { M := D0.resize 1 1, k := 0, log := [] } := by
    simp [squareFormLoop, irange]
  refine ⟨?_, ?_, ?_, ?_, ?_, ?_⟩
  · simp [pdist, hp, Mat.resize]
  · simp [pdist, hp, Mat.resize]
  · rw [hp]
  · simp [squareForm, hs, Mat.resize, Mat.setDiagonal]
  · simp [squareForm, hs, Mat.resize, Mat.setDiagonal]
  · simp [squareForm, hs, Mat.resize, Mat.setDiagonal]

/-- C20 (amended) on the single real point (0): an empty condensed vector and
the 1 x 1 matrix [5]. -/
theorem C20_single_point_result_witness :
    (pdist freshR (Mat.ofRows [[(0 : ℝ)]]) (Mat.ofRows [[(0 : ℝ)]])).rows = 0 ∧
    (squareForm freshR (pdist freshR (Mat.ofRows [[(0 : ℝ)]]) (Mat.ofRows [[(0 : ℝ)]])) 1
      5).coeff 0 0 = 5 :=
  have h := C20_single_point_result (Mat.ofRows [[(0 : ℝ)]]) freshR freshR 5 rfl
  ⟨h.1, h.2.2.2.2.2⟩

/-! ## The sampler -/

/-- The inner loop of `uValsLoop` on the columns `j0, ..., j0 + len - 1` of row
`i`. -/
theorem uVals_inner (draw : Nat → α) (i len : Nat) (j0 : Nat) (s : Fill α) :
    ((List.range' j0 len).foldl (fun s j =>
        ({ M := s.M.set i j (draw s.k), k := s.k + 1, log := s.log ++ [(i, j, s.k)] } : Fill α))
      s).k = s.k + len ∧
    ((List.range' j0 len).foldl (fun s j =>
        ({ M := s.M.set i j (draw s.k), k := s.k + 1, log := s.log ++ [(i, j, s.k)] } : Fill α))
      s).M.rows = s.M.rows ∧
    ((List.range' j0 len).foldl (fun s j =>
        ({ M := s.M.set i j (draw s.k), k := s.k + 1, log := s.log ++ [(i, j, s.k)] } : Fill α))
      s).M.cols = s.M.cols ∧
    ∀ a b, ((List.range' j0 len).foldl (fun s j =>
        ({ M := s.M.set i j (draw s.k), k := s.k + 1, log := s.log ++ [(i, j, s.k)] } : Fill α))
      s).M.coeff a b
      = if a = i ∧ j0 ≤ b ∧ b < j0 + len then draw (s.k + (b - j0)) else s.M.coeff a b := by
  induction len generalizing j0 s with
  | zero =>
    refine ⟨rfl, rfl, rfl, ?_⟩
    intro a b
    have : ¬ (a = i ∧ j0 ≤ b ∧ b < j0 + 0) := by omega
    rw [if_neg this]
    rfl
  | succ len ih =>
    rw [List.range'_succ, List.foldl_cons]
    have hih := ih (j0 + 1)
      { M := s.M.set i j0 (draw s.k), k := s.k + 1, log := s.log ++ [(i, j0, s.k)] }
    dsimp only at hih
    obtain ⟨h1, h2, h3, h4⟩ := hih
    refine ⟨by rw [h1]; omega, h2, h3, ?_⟩
    intro a b
    rw [h4]
    by_cases hc : a = i ∧ j0 + 1 ≤ b ∧ b < j0 + 1 + len
    · have hc2 : a = i ∧ j0 ≤ b ∧ b < j0 + (len + 1) := by omega
      rw [if_pos hc, if_pos hc2]
      congr 1
      omega
    · rw [if_neg hc]
      by_cases hb : a = i ∧ b = j0
      · have hc2 : a = i ∧ j0 ≤ b ∧ b < j0 + (len + 1) := by omega
        rw [if_pos hc2]
        have hbj : b - j0 = 0 := by omega
        simp [Mat.set, hb.1, hb.2]
      · have hc2 : ¬ (a = i ∧ j0 ≤ b ∧ b < j0 + (len + 1)) := by omega
        rw [if_neg hc2]
        simp only [Mat.set]
        rw [if_neg hb]

/-- The outer loop of `uValsLoop` on the rows `i0, ..., i0 + len - 1`. -/
theorem uVals_outer (draw : Nat → α) (count len : Nat) (i0 : Nat) (s : Fill α) :
    ((List.range' i0 len).foldl (fun s i => (irange 0 count).foldl (fun s j =>
        ({ M := s.M.set i j (draw s.k), k := s.k + 1, log := s.log ++ [(i, j, s.k)] } : Fill α))
      s) s).k = s.k + len * count ∧
    ((List.range' i0 len).foldl (fun s i => (irange 0 count).foldl (fun s j =>
        ({ M := s.M.set i j (draw s.k), k := s.k + 1, log := s.log ++ [(i, j, s.k)] } : Fill α))
      s) s).M.rows = s.M.rows ∧
    ((List.range' i0 len).foldl (fun s i => (irange 0 count).foldl (fun s j =>
        ({ M := s.M.set i j (draw s.k), k := s.k + 1, log := s.log ++ [(i, j, s.k)] } : Fill α))
      s) s).M.cols = s.M.cols ∧
    ∀ a b, ((List.range' i0 len).foldl (fun s i => (irange 0 count).foldl (fun s j =>
        ({ M := s.M.set i j (draw s.k), k := s.k + 1, log := s.log ++ [(i, j, s.k)] } : Fill α))
      s) s).M.coeff a b
      = if i0 ≤ a ∧ a < i0 + len ∧ b < count then draw (s.k + (a - i0) * count + b)
        else s.M.coeff a b := by
  induction len generalizing i0 s with
  | zero =>
    refine ⟨by simp, rfl, rfl, ?_⟩
    intro a b
    have : ¬ (i0 ≤ a ∧ a < i0 + 0 ∧ b < count) := by omega
    rw [if_neg this]
    rfl
  | succ len ih =>
    rw [List.range'_succ, List.foldl_cons]
    obtain ⟨g1, g2, g3, g4⟩ := uVals_inner draw i0 count 0 s
    have hir : irange 0 count = List.range' 0 count := rfl
    rw [hir]
    obtain ⟨h1, h2, h3, h4⟩ := ih (i0 + 1) ((List.range' 0 count).foldl (fun s j =>
        ({ M := s.M.set i0 j (draw s.k), k := s.k + 1, log := s.log ++ [(i0, j, s.k)] } : Fill α))
      s)
    rw [hir] at h1 h2 h3 h4
    refine ⟨by rw [h1, g1]; ring, by rw [h2, g2], by rw [h3, g3], ?_⟩
    intro a b
    rw [h4, g4, g1]
    by_cases hc : i0 + 1 ≤ a ∧ a < i0 + 1 + len ∧ b < count
    · have hc2 : i0 ≤ a ∧ a < i0 + (len + 1) ∧ b < count := by omega
      rw [if_pos hc, if_pos hc2]
      congr 1
      have e : a - i0 = (a - (i0 + 1)) + 1 := by omega
      rw [e]
      ring
    · rw [if_neg hc]
      by_cases hb : a = i0 ∧ 0 ≤ b ∧ b < 0 + count
      · have hc2 : i0 ≤ a ∧ a < i0 + (len + 1) ∧ b < count := by omega
        rw [if_pos hb, if_pos hc2]
        congr 1
        have e : a - i0 = 0 := by omega
        rw [e]
        simp
      · have hc2 : ¬ (i0 ≤ a ∧ a < i0 + (len + 1) ∧ b < count) := by omega
        rw [if_neg hb, if_neg hc2]

/-- The matrix `uVals` of `getSamples`: the draws in row-major order. -/
theorem uValsLoop_coeff (draw : Nat → α) (uVals0 : Mat α) (n count : Nat) :
    (uValsLoop draw uVals0 n count).M.rows = n ∧ (uValsLoop draw uVals0 n count).M.cols = count ∧
    (uValsLoop draw uVals0 n count).k = n * count ∧
    ∀ a b, a < n → b < count →
      (uValsLoop draw uVals0 n count).M.coeff a b = draw (a * count + b) := by
  obtain ⟨h1, h2, h3, h4⟩ := uVals_outer draw count n 0
    { M := uVals0.resize n count, k := 0, log := [] }
  have hir : irange 0 n = List.range' 0 n := rfl
  unfold uValsLoop
  rw [hir]
  refine ⟨h2, h3, by rw [h1]; simp, ?_⟩
  intro a b ha hb
  rw [h4, if_pos ⟨Nat.zero_le _, by omega, hb⟩]
  simp


/-- C17: the transform of the sampler.  Let the posterior mean `mu` have length
`m`, the posterior covariance `C` be m x m, and `U` (m x count) be the matrix of
the draws of the generator, row by row.  When `C + (noise + jitter) I` is
positive definite and the factorisation meets its contract, `getSamples`
returns `mu` replicated over `count` columns plus `Lr * U`, where `Lr` is the
factor `llt().matrixL()` of `C + (noise + jitter) I`: lower triangular with a
positive diagonal and `Lr * Lrᵀ = C + (noise + jitter) I`, that is, the lower
Cholesky factor; the result is m x count, and for `U = 0` every column is
`mu`. -/
theorem C17_sampler_transform (E : Eigen ℝ) (gp : GaussianProcess ℝ) (draw : Nat → ℝ)
    (U uVals0 : Mat ℝ) (count m : Nat)
    (hm : gp.predX.rows = m) (hmean : gp.predMean.rows = m) (hmc : gp.predMean.cols = 1)
    (hcr : gp.predCov.rows = m) (hcc : gp.predCov.cols = m)
    (hU : ∀ i j, i < m → j < count → U.coeff i j = draw (i * count + j))
    (hE : LLTContract E m)
    (hPD : (gp.predCov.toMatrix m m
      + (gp.noiseLevel + gp.jitter) • (1 : Matrix (Fin m) (Fin m) ℝ)).PosDef) :
    ∃ Lr : Matrix (Fin m) (Fin m) ℝ,
      Lr = (E.llt (gp.predCov.add ((Mat.identity gp.predCov.cols gp.predCov.cols).map
        (fun x => (gp.noiseLevel + gp.jitter) * x)))).toMatrix m m ∧
      (∀ i j, i < j → Lr i j = 0) ∧
      (∀ i, 0 < Lr i i) ∧
      Lr * Lr.transpose
        = gp.predCov.toMatrix m m + (gp.noiseLevel + gp.jitter) • (1 : Matrix (Fin m) (Fin m) ℝ) ∧
      (getSamples E gp draw uVals0 count).rows = m ∧
      (getSamples E gp draw uVals0 count).cols = count ∧
      (getSamples E gp draw uVals0 count).toMatrix m count
        = Matrix.of (fun i _ => gp.predMean.coeff i.val 0) + Lr * U.toMatrix m count ∧
      ((∀ i j, i < m → j < count → U.coeff i j = 0) →
        ∀ i j, i < m → j < count →
          (getSamples E gp draw uVals0 count).coeff i j = gp.predMean.coeff i 0) := by
  have hA : (gp.predCov.add ((Mat.identity gp.predCov.cols gp.predCov.cols).map
      (fun x => (gp.noiseLevel + gp.jitter) * x))).toMatrix m m
      = gp.predCov.toMatrix m m
        + (gp.noiseLevel + gp.jitter) • (1 : Matrix (Fin m) (Fin m) ℝ) := by
    ext i j
    by_cases hij : i = j
    · subst hij
      simp [Mat.add, Mat.identity, Mat.map, Mat.toMatrix]
    · have hv : i.val ≠ j.val := fun h => hij (Fin.ext h)
      simp [Mat.add, Mat.identity, Mat.map, Mat.toMatrix, hij, hv]
  obtain ⟨hLr, hLc, hlow, hdiag, hLLt, -⟩ := hE
    (gp.predCov.add ((Mat.identity gp.predCov.cols gp.predCov.cols).map
      (fun x => (gp.noiseLevel + gp.jitter) * x))) hcr hcc (by rw [hA]; exact hPD)
  obtain ⟨hur, huc, -, hu⟩ := uValsLoop_coeff draw uVals0 gp.predX.rows count
  rw [hm] at hur hu
  have hgs : getSamples E gp draw uVals0 count
      = (gp.predMean.replicate 1 count).add
          ((E.llt (gp.predCov.add ((Mat.identity gp.predCov.cols gp.predCov.cols).map
            (fun x => (gp.noiseLevel + gp.jitter) * x)))).mul
            (uValsLoop draw uVals0 gp.predX.rows count).M) := rfl
  rw [hgs, hm]
  rw [hA] at hLLt
  generalize E.llt (gp.predCov.add ((Mat.identity gp.predCov.cols gp.predCov.cols).map
    (fun x => (gp.noiseLevel + gp.jitter) * x))) = L at hLr hLc hlow hdiag hLLt ⊢
  have hcoeff : ∀ i j, i < m → j < count →
      ((gp.predMean.replicate 1 count).add (L.mul (uValsLoop draw uVals0 m count).M)).coeff i j
        = gp.predMean.coeff i 0
          + ((List.range m).map (fun k => L.coeff i k * U.coeff k j)).sum := by
    intro i j hi hj
    simp only [Mat.add, Mat.replicate, Mat.mul, hmean, hmc, hLc, Nat.mod_one,
      Nat.mod_eq_of_lt hi]
    congr 2
    refine List.map_congr_left (fun k hk => ?_)
    have hk2 : k < m := List.mem_range.1 hk
    rw [hu k j hk2 hj, hU k j hk2 hj]
  refine ⟨L.toMatrix m m, rfl, fun i j hij => hlow i.val j.val hij j.isLt,
    fun i => hdiag i.val i.isLt, hLLt, ?_, ?_, ?_, ?_⟩
  · simp only [Mat.add, Mat.replicate, hmean, mul_one]
  · simp only [Mat.add, Mat.replicate, hmc, one_mul]
  · ext i j
    simp only [Mat.toMatrix, Matrix.of_apply, Matrix.add_apply, Matrix.mul_apply]
    rw [hcoeff i.val j.val i.isLt j.isLt]
    congr 1
    exact list_sum_range_fin (fun k => L.coeff i.val k * U.coeff k j.val) m
  · intro h0 i j hi hj
    rw [hcoeff i j hi hj]
    have hz : ((List.range m).map (fun k => L.coeff i k * U.coeff k j)).sum = 0 := by
      apply List.sum_eq_zero
      intro x hx
      obtain ⟨k, hk, rfl⟩ := List.mem_map.1 hx
      rw [h0 k j (List.mem_range.1 hk) hj, mul_zero]
    rw [hz, add_zero]

/-- C17 for the posterior mean (1, 2), the posterior covariance `I`, noise 0,
two sample paths and the draws 0, 1, 2, 3, with the 2 x 2 linear algebra. -/
theorem C17_sampler_transform_witness :
    ∃ Lr : Matrix (Fin 2) (Fin 2) ℝ,
      (∀ i j, i < j → Lr i j = 0) ∧
      (∀ i, 0 < Lr i i) ∧
      Lr * Lr.transpose
        = (sampleGP : GaussianProcess ℝ).predCov.toMatrix 2 2
          + ((sampleGP : GaussianProcess ℝ).noiseLevel + (sampleGP : GaussianProcess ℝ).jitter)
            • (1 : Matrix (Fin 2) (Fin 2) ℝ) ∧
      (getSamples (llt2 Real.sqrt) (sampleGP : GaussianProcess ℝ) (fun k => (k : ℝ)) freshR
        2).toMatrix 2 2
        = Matrix.of (fun i _ => (sampleGP : GaussianProcess ℝ).predMean.coeff i.val 0)
          + Lr * (Mat.ofRows [[0, 1], [2, 3]] : Mat ℝ).toMatrix 2 2 := by
  have hU : ∀ i j, i < 2 → j < 2 →
      (Mat.ofRows [[0, 1], [2, 3]] : Mat ℝ).coeff i j = ((i * 2 + j : ℕ) : ℝ) := by
    intro i j hi hj
    interval_cases i <;> interval_cases j <;> simp [Mat.ofRows]
  have hPD : ((sampleGP : GaussianProcess ℝ).predCov.toMatrix 2 2
      + ((sampleGP : GaussianProcess ℝ).noiseLevel + (sampleGP : GaussianProcess ℝ).jitter)
        • (1 : Matrix (Fin 2) (Fin 2) ℝ)).PosDef := by
    have e : (sampleGP : GaussianProcess ℝ).predCov.toMatrix 2 2
        + ((sampleGP : GaussianProcess ℝ).noiseLevel + (sampleGP : GaussianProcess ℝ).jitter)
          • (1 : Matrix (Fin 2) (Fin 2) ℝ)
        = Matrix.diagonal (fun _ => (1 : ℝ) + (0 + 1e-10)) := by
      ext i j
      have h0 : (0.0 : ℝ) = 0 := by norm_num
      fin_cases i <;> fin_cases j <;>
        simp [sampleGP, GaussianProcess.setPred, GaussianProcess.new, Mat.identity, Mat.toMatrix,
          h0]
    rw [e]
    exact Matrix.PosDef.diagonal (fun _ => by norm_num)
  obtain ⟨Lr, -, h1, hpos, h2, -, -, h5, -⟩ := C17_sampler_transform (llt2 Real.sqrt)
    (sampleGP : GaussianProcess ℝ) (fun k => (k : ℝ)) (Mat.ofRows [[0, 1], [2, 3]]) freshR 2 2
    rfl rfl rfl rfl rfl hU llt2_contract hPD
  exact ⟨Lr, h1, hpos, h2, h5⟩

/-! ## Undefined derivative orders -/

/-- C21 as stated fails: for the derivative order 2 both kernel evaluations
return `0.0` to their caller; the only trace is a line on `std::cout`. -/
theorem C21_undefined_derivative_counterexample :
    RBF.evalDistKernel Real.exp 1 (Mat.ofCol [1]) 2 = 0 ∧
    RBF.evalKernel Real.exp (Mat.ofRows [[0]]) (Mat.ofRows [[1]]) (Mat.ofCol [1]) 2 = 0 ∧
    RBF.kernelCout 2 = ["\n[*] UNDEFINED DERIVATIVE\n"] := by
  have hz : (0.0 : ℝ) = 0 := by norm_num
  refine ⟨?_, ?_, rfl⟩
  · simp [RBF.evalDistKernel, hz]
  · simp [RBF.evalKernel, hz]

/-- C21, amended: for every derivative order other than 0 and 1,
`evalDistKernel` and `evalKernel` write the line "[*] UNDEFINED DERIVATIVE" to
`std::cout` and return `0.0` to their caller. -/
theorem C21_undefined_derivative_returns_zero [Field α] (exp : α → α) (d : α)
    (x y params : Mat α) (n : Int) (h0 : n ≠ 0) (h1 : n ≠ 1) :
    RBF.evalDistKernel exp d params n = 0 ∧
    RBF.evalKernel exp x y params n = 0 ∧
    RBF.kernelCout n = ["\n[*] UNDEFINED DERIVATIVE\n"] := by
  have hz : (0.0 : α) = 0 := by norm_num
  refine ⟨?_, ?_, ?_⟩
  · unfold RBF.evalDistKernel
    split
    · exact absurd rfl h0
    · exact absurd rfl h1
    · exact hz
  · unfold RBF.evalKernel
    split
    · exact absurd rfl h0
    · exact absurd rfl h1
    · exact hz
  · unfold RBF.kernelCout
    split
    · exact absurd rfl h0
    · exact absurd rfl h1
    · rfl

/-- C21 (amended) for the derivative order -3 at the distance 25. -/
theorem C21_undefined_derivative_returns_zero_witness :
    RBF.evalDistKernel Real.exp 25 (Mat.ofCol [1]) (-3) = 0 ∧
    RBF.kernelCout (-3) = ["\n[*] UNDEFINED DERIVATIVE\n"] :=
  have h := C21_undefined_derivative_returns_zero Real.exp 25 (Mat.ofRows [[0]])
    (Mat.ofRows [[1]]) (Mat.ofCol [1]) (-3) (by decide) (by decide)
  ⟨h.1, h.2.2⟩

/-! ## Well-formedness of the bounds -/

/-- The loop of `parseBounds` keeps the dimensions of both vectors and logs the
index `bi - 1` for every `bi` of the list, in order. -/
theorem parseBounds_fold_frame (fl fu : Nat → α) (l : List Nat) (s : Bounds α) :
    (l.foldl (fun s bi =>
        ({ lbs := s.lbs.set bi 0 (fl bi), ubs := s.ubs.set bi 0 (fu bi),
           readsLower := s.readsLower ++ [bi - 1],
           readsUpper := s.readsUpper ++ [bi - 1] } : Bounds α)) s).lbs.rows = s.lbs.rows ∧
    (l.foldl (fun s bi =>
        ({ lbs := s.lbs.set bi 0 (fl bi), ubs := s.ubs.set bi 0 (fu bi),
           readsLower := s.readsLower ++ [bi - 1],
           readsUpper := s.readsUpper ++ [bi - 1] } : Bounds α)) s).lbs.cols = s.lbs.cols ∧
    (l.foldl (fun s bi =>
        ({ lbs := s.lbs.set bi 0 (fl bi), ubs := s.ubs.set bi 0 (fu bi),
           readsLower := s.readsLower ++ [bi - 1],
           readsUpper := s.readsUpper ++ [bi - 1] } : Bounds α)) s).ubs.rows = s.ubs.rows ∧
    (l.foldl (fun s bi =>
        ({ lbs := s.lbs.set bi 0 (fl bi), ubs := s.ubs.set bi 0 (fu bi),
           readsLower := s.readsLower ++ [bi - 1],
           readsUpper := s.readsUpper ++ [bi - 1] } : Bounds α)) s).ubs.cols = s.ubs.cols ∧
    (l.foldl (fun s bi =>
        ({ lbs := s.lbs.set bi 0 (fl bi), ubs := s.ubs.set bi 0 (fu bi),
           readsLower := s.readsLower ++ [bi - 1],
           readsUpper := s.readsUpper ++ [bi - 1] } : Bounds α)) s).readsLower
      = s.readsLower ++ l.map (fun bi => bi - 1) ∧
    (l.foldl (fun s bi =>
        ({ lbs := s.lbs.set bi 0 (fl bi), ubs := s.ubs.set bi 0 (fu bi),
           readsLower := s.readsLower ++ [bi - 1],
           readsUpper := s.readsUpper ++ [bi - 1] } : Bounds α)) s).readsUpper
      = s.readsUpper ++ l.map (fun bi => bi - 1) := by
  induction l generalizing s with
  | nil => simp
  | cons a l ih =>
    rw [List.foldl_cons]
    have h := ih
      { lbs := s.lbs.set a 0 (fl a), ubs := s.ubs.set a 0 (fu a),
        readsLower := s.readsLower ++ [a - 1], readsUpper := s.readsUpper ++ [a - 1] }
    dsimp only at h
    obtain ⟨h1, h2, h3, h4, h5, h6⟩ := h
    refine ⟨h1, h2, h3, h4, ?_, ?_⟩
    · rw [h5]; simp
    · rw [h6]; simp

/-- C24: `parseBounds` is well-formed on reconcilable input.  For an augmented
parameter count `m ≥ 1` and either no caller bounds or caller bounds (two
vectors) of length `m` or `m - 1` with `0 < lower(k) ≤ upper(k)` for all `k`:
every read of the caller's vectors is within their range, both output vectors
have length exactly `m`, and `lbs(k) ≤ ubs(k)` for every `k < m`, strictly for
the defaulted entries. -/
theorem C24_parseBounds_well_formed (gp : GaussianProcess ℝ) (lbs0 ubs0 : Mat ℝ) (m : Nat)
    (_hm : 1 ≤ m)
    (hin : gp.fixedBounds = false ∨
      (gp.fixedBounds = true ∧ gp.lowerBounds.cols = 1 ∧ gp.upperBounds.cols = 1 ∧
        gp.upperBounds.rows = gp.lowerBounds.rows ∧
        (gp.lowerBounds.rows = m ∨ gp.lowerBounds.rows + 1 = m) ∧
        ∀ k, k < gp.lowerBounds.rows →
          0 < gp.lowerBounds.coeff k 0 ∧ gp.lowerBounds.coeff k 0 ≤ gp.upperBounds.coeff k 0)) :
    (∀ k ∈ (parseBounds ⟨Real.exp, Real.log, Real.arctan⟩ gp lbs0 ubs0 m).readsLower,
      k < gp.lowerBounds.size) ∧
    (∀ k ∈ (parseBounds ⟨Real.exp, Real.log, Real.arctan⟩ gp lbs0 ubs0 m).readsUpper,
      k < gp.upperBounds.size) ∧
    ((parseBounds ⟨Real.exp, Real.log, Real.arctan⟩ gp lbs0 ubs0 m).lbs.rows = m ∧
      (parseBounds ⟨Real.exp, Real.log, Real.arctan⟩ gp lbs0 ubs0 m).lbs.cols = 1 ∧
      (parseBounds ⟨Real.exp, Real.log, Real.arctan⟩ gp lbs0 ubs0 m).ubs.rows = m ∧
      (parseBounds ⟨Real.exp, Real.log, Real.arctan⟩ gp lbs0 ubs0 m).ubs.cols = 1) ∧
    (∀ k, k < m →
      (parseBounds ⟨Real.exp, Real.log, Real.arctan⟩ gp lbs0 ubs0 m).lbs.coeff k 0
        ≤ (parseBounds ⟨Real.exp, Real.log, Real.arctan⟩ gp lbs0 ubs0 m).ubs.coeff k 0) ∧
    (∀ k, k < m → (gp.fixedBounds = false ∨ (k = 0 ∧ gp.lowerBounds.rows + 1 = m)) →
      (parseBounds ⟨Real.exp, Real.log, Real.arctan⟩ gp lbs0 ubs0 m).lbs.coeff k 0
        < (parseBounds ⟨Real.exp, Real.log, Real.arctan⟩ gp lbs0 ubs0 m).ubs.coeff k 0) := by
  have hdef : Real.log 0.00001 < Real.log 5.0 :=
    Real.log_lt_log (by norm_num) (by norm_num)
  rcases hin with hf | ⟨hf, hlc, huc, hur, hlen, hpos⟩
  · -- no caller bounds
    have hpb : parseBounds ⟨Real.exp, Real.log, Real.arctan⟩ gp lbs0 ubs0 m
        = { lbs := ((Mat.ones m 1).map (fun x => (0.00001 : ℝ) * x)).map Real.log,
            ubs := ((Mat.ones m 1).map (fun x => (5.0 : ℝ) * x)).map Real.log,
            readsLower := [], readsUpper := [] } := by
      simp only [parseBounds, hf, Bool.false_eq_true, if_false]
    rw [hpb]
    have hk : ∀ k : Nat,
        (((Mat.ones m 1).map (fun x => (0.00001 : ℝ) * x)).map Real.log).coeff k 0
          < (((Mat.ones m 1).map (fun x => (5.0 : ℝ) * x)).map Real.log).coeff k 0 := by
      intro k
      simpa [Mat.map, Mat.ones] using hdef
    refine ⟨by simp, by simp, ⟨rfl, rfl, rfl, rfl⟩, fun k _ => (hk k).le, fun k _ _ => hk k⟩
  · have hsl : gp.lowerBounds.size = gp.lowerBounds.rows := by simp [Mat.size, hlc]
    have hsu : gp.upperBounds.size = gp.lowerBounds.rows := by simp [Mat.size, huc, hur]
    rcases hlen with hlen | hlen
    · -- caller bounds of length m
      have hnlt : ¬ gp.lowerBounds.size < m := by rw [hsl, hlen]; exact lt_irrefl m
      have hpb : parseBounds ⟨Real.exp, Real.log, Real.arctan⟩ gp lbs0 ubs0 m
          = { lbs := gp.lowerBounds.map Real.log, ubs := gp.upperBounds.map Real.log,
              readsLower := List.range gp.lowerBounds.size,
              readsUpper := List.range gp.upperBounds.size } := by
        simp only [parseBounds, hf, hnlt, if_true, if_false]
      rw [hpb]
      refine ⟨fun k hk => List.mem_range.1 hk, fun k hk => List.mem_range.1 hk,
        ⟨hlen, hlc, by rw [← hlen]; exact hur, huc⟩, ?_, ?_⟩
      · intro k hk
        have := hpos k (by rw [hlen]; exact hk)
        exact Real.log_le_log this.1 this.2
      · intro k _ hc
        rcases hc with hc | ⟨_, hc⟩
        · rw [hf] at hc; exact absurd hc (by decide)
        · omega
    · -- caller bounds of length m - 1
      have hlt : gp.lowerBounds.size < m := by rw [hsl]; omega
      have hpb : parseBounds ⟨Real.exp, Real.log, Real.arctan⟩ gp lbs0 ubs0 m
          = (irange 1 m).foldl
              (fun s bi =>
                ({ lbs := s.lbs.set bi 0 (Real.log (gp.lowerBounds.coeff (bi - 1) 0)),
                   ubs := s.ubs.set bi 0 (Real.log (gp.upperBounds.coeff (bi - 1) 0)),
                   readsLower := s.readsLower ++ [bi - 1],
                   readsUpper := s.readsUpper ++ [bi - 1] } : Bounds ℝ))
              { lbs := (lbs0.resize m 1).set 0 0 (Real.log 0.00001),
                ubs := (ubs0.resize m 1).set 0 0 (Real.log 5.0),
                readsLower := [], readsUpper := [] } := by
        simp only [parseBounds, hf, hlt, if_true]
      rw [hpb]
      obtain ⟨f1, f2, f3, f4, f5, f6⟩ := parseBounds_fold_frame
        (fun bi => Real.log (gp.lowerBounds.coeff (bi - 1) 0))
        (fun bi => Real.log (gp.upperBounds.coeff (bi - 1) 0)) (irange 1 m)
        { lbs := (lbs0.resize m 1).set 0 0 (Real.log 0.00001),
          ubs := (ubs0.resize m 1).set 0 0 (Real.log 5.0),
          readsLower := [], readsUpper := [] }
      have hread : ∀ k ∈ ([] : List Nat) ++ (irange 1 m).map (fun bi => bi - 1),
          k < gp.lowerBounds.rows := by
        intro k hk
        rw [List.nil_append, List.mem_map] at hk
        obtain ⟨bi, hbi, rfl⟩ := hk
        rw [mem_irange] at hbi
        omega
      have hentry : ∀ k, k < m →
          (((irange 1 m).foldl
              (fun s bi =>
                ({ lbs := s.lbs.set bi 0 (Real.log (gp.lowerBounds.coeff (bi - 1) 0)),
                   ubs := s.ubs.set bi 0 (Real.log (gp.upperBounds.coeff (bi - 1) 0)),
                   readsLower := s.readsLower ++ [bi - 1],
                   readsUpper := s.readsUpper ++ [bi - 1] } : Bounds ℝ))
              { lbs := (lbs0.resize m 1).set 0 0 (Real.log 0.00001),
                ubs := (ubs0.resize m 1).set 0 0 (Real.log 5.0),
                readsLower := [], readsUpper := [] }).lbs.coeff k 0
            ≤ ((irange 1 m).foldl
              (fun s bi =>
                ({ lbs := s.lbs.set bi 0 (Real.log (gp.lowerBounds.coeff (bi - 1) 0)),
                   ubs := s.ubs.set bi 0 (Real.log (gp.upperBounds.coeff (bi - 1) 0)),
                   readsLower := s.readsLower ++ [bi - 1],
                   readsUpper := s.readsUpper ++ [bi - 1] } : Bounds ℝ))
              { lbs := (lbs0.resize m 1).set 0 0 (Real.log 0.00001),
                ubs := (ubs0.resize m 1).set 0 0 (Real.log 5.0),
                readsLower := [], readsUpper := [] }).ubs.coeff k 0) ∧
          (k = 0 →
            ((irange 1 m).foldl
              (fun s bi =>
                ({ lbs := s.lbs.set bi 0 (Real.log (gp.lowerBounds.coeff (bi - 1) 0)),
                   ubs := s.ubs.set bi 0 (Real.log (gp.upperBounds.coeff (bi - 1) 0)),
                   readsLower := s.readsLower ++ [bi - 1],
                   readsUpper := s.readsUpper ++ [bi - 1] } : Bounds ℝ))
              { lbs := (lbs0.resize m 1).set 0 0 (Real.log 0.00001),
                ubs := (ubs0.resize m 1).set 0 0 (Real.log 5.0),
                readsLower := [], readsUpper := [] }).lbs.coeff k 0
            < ((irange 1 m).foldl
              (fun s bi =>
                ({ lbs := s.lbs.set bi 0 (Real.log (gp.lowerBounds.coeff (bi - 1) 0)),
                   ubs := s.ubs.set bi 0 (Real.log (gp.upperBounds.coeff (bi - 1) 0)),
                   readsLower := s.readsLower ++ [bi - 1],
                   readsUpper := s.readsUpper ++ [bi - 1] } : Bounds ℝ))
              { lbs := (lbs0.resize m 1).set 0 0 (Real.log 0.00001),
                ubs := (ubs0.resize m 1).set 0 0 (Real.log 5.0),
                readsLower := [], readsUpper := [] }).ubs.coeff k 0) := by
        intro k hk
        rw [(parseBounds_fold _ _ _ _ k).1, (parseBounds_fold _ _ _ _ k).2]
        by_cases hk0 : k = 0
        · subst hk0
          have h0 : ¬ (0 ∈ irange 1 m) := by rw [mem_irange]; omega
          rw [if_neg h0, if_neg h0]
          have hd : ((lbs0.resize m 1).set 0 0 (Real.log 0.00001)).coeff 0 0
              < ((ubs0.resize m 1).set 0 0 (Real.log 5.0)).coeff 0 0 := by
            simpa [Mat.set] using hdef
          exact ⟨hd.le, fun _ => hd⟩
        · have hmem : k ∈ irange 1 m := by rw [mem_irange]; omega
          rw [if_pos hmem, if_pos hmem]
          have := hpos (k - 1) (by omega)
          exact ⟨Real.log_le_log this.1 this.2, fun h => absurd h hk0⟩
      refine ⟨?_, ?_, ⟨f1, f2, f3, f4⟩, fun k hk => (hentry k hk).1, ?_⟩
      · rw [f5, hsl]; exact hread
      · rw [f6, hsu]; exact hread
      · intro k hk hc
        rcases hc with hc | ⟨hc, _⟩
        · rw [hf] at hc; exact absurd hc (by decide)
        · exact (hentry k hk).2 hc

/-- C24 on the model with caller bounds [2], [3] for the length-scale only and
`m = 2`: the one read of each caller vector is at index 0, both outputs have
length 2 and the lower log-bounds are below the upper ones. -/
theorem C24_parseBounds_well_formed_witness :
    (∀ k ∈ (parseBounds ⟨Real.exp, Real.log, Real.arctan⟩ (boundedGP : GaussianProcess ℝ)
        freshR freshR 2).readsLower, k < (boundedGP : GaussianProcess ℝ).lowerBounds.size) ∧
    (parseBounds ⟨Real.exp, Real.log, Real.arctan⟩ (boundedGP : GaussianProcess ℝ)
      freshR freshR 2).lbs.rows = 2 ∧
    (∀ k, k < 2 →
      (parseBounds ⟨Real.exp, Real.log, Real.arctan⟩ (boundedGP : GaussianProcess ℝ)
        freshR freshR 2).lbs.coeff k 0
        ≤ (parseBounds ⟨Real.exp, Real.log, Real.arctan⟩ (boundedGP : GaussianProcess ℝ)
            freshR freshR 2).ubs.coeff k 0) :=
  have h := C24_parseBounds_well_formed (boundedGP : GaussianProcess ℝ) freshR freshR 2
    (by decide)
    (Or.inr ⟨rfl, rfl, rfl, rfl, Or.inr rfl, by
      intro k hk
      have hk1 : k < 1 := hk
      interval_cases k
      simp [boundedGP, GaussianProcess.setBounds, Mat.ofCol]
      norm_num⟩)
  ⟨h.1, h.2.2.1.1, h.2.2.2.1⟩

/-! ## The frame of the objective -/

theorem evalNLML_Kv [Field α] (F : Libm α) (E : Eigen α) (gp : GaussianProcess α)
    (p g : Mat α) (evalGrad : Bool) :
    (evalNLML F E gp p g evalGrad).gp.kernel.Kv.rows = gp.distMatrix.rows := by
  cases evalGrad
  all_goals
    simp only [evalNLML, RBF.computeCov, RBF.covBranch, Bool.false_eq_true, if_false, if_true]
    split <;> rfl

/-- C22 as stated fails: the objective overwrites more than `K`, the factor,
`alpha`, `term` and `g`.  On the two coincident points the work buffer `Kv` of
the kernel is empty before the evaluation and holds one coefficient after it,
with or without the gradient. -/
theorem C22_objective_frame_counterexample :
    (twinJoint : GaussianProcess ℝ).kernel.Kv.rows = 0 ∧
    (∀ (E : Eigen ℝ) (g : Mat ℝ) (evalGrad : Bool),
      (evalNLML ⟨Real.exp, Real.log, Real.arctan⟩ E twinJoint (Mat.ofCol [0, 0]) g
        evalGrad).gp.kernel.Kv.rows = 1) ∧
    (∀ (E : Eigen ℝ) (g : Mat ℝ) (evalGrad : Bool),
      (evalNLML ⟨Real.exp, Real.log, Real.arctan⟩ E twinJoint (Mat.ofCol [0, 0]) g
        evalGrad).gp.kernel.Kv ≠ (twinJoint : GaussianProcess ℝ).kernel.Kv) := by
  have h0 : (twinJoint : GaussianProcess ℝ).kernel.Kv.rows = 0 := rfl
  have h1 : ∀ (E : Eigen ℝ) (g : Mat ℝ) (evalGrad : Bool),
      (evalNLML ⟨Real.exp, Real.log, Real.arctan⟩ E twinJoint (Mat.ofCol [0, 0]) g
        evalGrad).gp.kernel.Kv.rows = 1 := by
    intro E g evalGrad
    rw [evalNLML_Kv]
    have hd : (twinJoint : GaussianProcess ℝ).distMatrix
        = pdist (GaussianProcess.new (rbfNew (⟨0, 0, fun _ _ => 0⟩ : Mat ℝ)) 1 2).distMatrix
            twinX twinX := rfl
    rw [hd, (pdist_dims _ _ _ (by decide)).1]
    rfl
  refine ⟨h0, h1, ?_⟩
  intro E g evalGrad h
  have := congrArg Mat.rows h
  rw [h1, h0] at this
  exact absurd this (by decide)

/-- C22, amended: an evaluation of the objective leaves the condensed distance
vector, the observations, the stored hyperparameters of the kernel, the noise
level and the bounds unchanged, and with them every other setting of the model
and of the kernel (`SameSettings`) and `cppOptLibgrad`.  It overwrites the
cached `K`, factor and `alpha` and the work buffer `Kv` of the kernel, and, when
the gradient is requested, `term`, the output gradient `g` and the work buffers
`dK_iv`, `dK_i` of the kernel; without the gradient these four are left as they
were. -/
theorem C22_objective_frame [Field α] (F : Libm α) (E : Eigen α) (gp : GaussianProcess α)
    (p g : Mat α) (evalGrad : Bool) :
    ((evalNLML F E gp p g evalGrad).gp.distMatrix = gp.distMatrix ∧
      (evalNLML F E gp p g evalGrad).gp.obsX = gp.obsX ∧
      (evalNLML F E gp p g evalGrad).gp.obsY = gp.obsY ∧
      (evalNLML F E gp p g evalGrad).gp.kernel.kernelParams = gp.kernel.kernelParams ∧
      (evalNLML F E gp p g evalGrad).gp.noiseLevel = gp.noiseLevel ∧
      (evalNLML F E gp p g evalGrad).gp.lowerBounds = gp.lowerBounds ∧
      (evalNLML F E gp p g evalGrad).gp.upperBounds = gp.upperBounds) ∧
    SameSettings (evalNLML F E gp p g evalGrad).gp gp ∧
    (evalNLML F E gp p g evalGrad).gp.cppOptLibgrad = gp.cppOptLibgrad ∧
    (evalGrad = false →
      (evalNLML F E gp p g evalGrad).gp.term = gp.term ∧
      (evalNLML F E gp p g evalGrad).g = g ∧
      (evalNLML F E gp p g evalGrad).gp.kernel.dK_iv = gp.kernel.dK_iv ∧
      (evalNLML F E gp p g evalGrad).gp.kernel.dK_i = gp.kernel.dK_i) := by
  have hf := evalNLML_frame F E gp p g evalGrad
  have hf2 := hf
  simp only [SameSettings] at hf2
  obtain ⟨k1, -, -, -, -, -, n1, -, -, -, -, b1, b2, -, x1, y1, -, -, -, -, -, d1⟩ := hf2
  refine ⟨⟨d1, x1, y1, k1, n1, b1, b2⟩, hf, ?_, ?_⟩
  · cases evalGrad <;> rfl
  · intro h
    subst h
    exact ⟨rfl, rfl, rfl, rfl⟩

/-! ## The covariance cached by the fit -/

/-- The covariance `fitModel` caches: that of its last call of `computeCov`, on
the state the solver left, with the default jitter of the declaration. -/
theorem fitModel_K [Field α] (F : Libm α) (E : Eigen α) (S : Solver α) (covJitter : α)
    (covEvalGrad : Bool) (gp : GaussianProcess α) (lbs0 ubs0 : Mat α) :
    (fitModel F E S covJitter covEvalGrad gp lbs0 ubs0).gp.K
      = (RBF.computeCov F.exp
          (minimize F E S
            (parseBounds F (fitSetup gp) lbs0 ubs0 (fitSetup gp).augParamCount).lbs
            (parseBounds F (fitSetup gp) lbs0 ubs0 (fitSetup gp).augParamCount).ubs
            (Mat.zero (fitSetup gp).augParamCount 1) S.maxEvals (fitSetup gp) []).1.kernel
          (minimize F E S
            (parseBounds F (fitSetup gp) lbs0 ubs0 (fitSetup gp).augParamCount).lbs
            (parseBounds F (fitSetup gp) lbs0 ubs0 (fitSetup gp).augParamCount).ubs
            (Mat.zero (fitSetup gp).augParamCount 1) S.maxEvals (fitSetup gp) []).1.K
          (minimize F E S
            (parseBounds F (fitSetup gp) lbs0 ubs0 (fitSetup gp).augParamCount).lbs
            (parseBounds F (fitSetup gp) lbs0 ubs0 (fitSetup gp).augParamCount).ubs
            (Mat.zero (fitSetup gp).augParamCount 1) S.maxEvals (fitSetup gp) []).1.distMatrix
          ((fitModel F E S covJitter covEvalGrad gp lbs0 ubs0).solverPoint.map F.exp)
          covJitter covEvalGrad).K := by
  rw [(fitModel_bounds_raw F E S covJitter covEvalGrad gp lbs0 ubs0).2.2]
  unfold fitModel
  simp only []
  split <;> rfl

/-- The run of the solver that evaluates once at the starting point: the state
is that of one evaluation of the objective, the point is the starting point. -/
theorem minimize_probe [Field α] (F : Libm α) (E : Eigen α) (lbs ubs x0 : Mat α)
    (gp : GaussianProcess α) :
    minimize F E probeSolver lbs ubs x0 (probeSolver : Solver α).maxEvals gp []
      = ((objective F E gp x0).gp, x0) := by
  have h1 : (probeSolver : Solver α).maxEvals = 1 := rfl
  rw [h1]
  simp [minimize, probeSolver]

/-- The diagonal of the covariance that `fitModel` caches on the two coincident
points when the solver returns its starting point `(0, 0)`: the default jitter
`covJitter` of the declaration is on it, not the jitter of the model. -/
theorem twinJoint_fit_diag (E : Eigen ℝ) (covJitter : ℝ) (covEvalGrad : Bool) :
    (fitModel ⟨Real.exp, Real.log, Real.arctan⟩ E probeSolver covJitter covEvalGrad
      (twinJoint : GaussianProcess ℝ) freshR freshR).solverPoint = Mat.zero 2 1 ∧
    (fitModel ⟨Real.exp, Real.log, Real.arctan⟩ E probeSolver covJitter covEvalGrad
      (twinJoint : GaussianProcess ℝ) freshR freshR).gp.K.coeff 0 0
      = 1 + Real.exp 0 + covJitter := by
  have hfix : (twinJoint : GaussianProcess ℝ).fixedNoise = false := rfl
  have hpcount : (twinJoint : GaussianProcess ℝ).kernel.paramCount = 1 := rfl
  have hs := fitSetup_fields (twinJoint : GaussianProcess ℝ)
  have haug : (fitSetup (twinJoint : GaussianProcess ℝ)).augParamCount = 2 := by
    rw [hs.2.2.2.2.1, hfix, hpcount]; rfl
  have hraw := fitModel_bounds_raw ⟨Real.exp, Real.log, Real.arctan⟩ E
    (probeSolver : Solver ℝ) covJitter covEvalGrad (twinJoint : GaussianProcess ℝ) freshR freshR
  have hpoint : (fitModel ⟨Real.exp, Real.log, Real.arctan⟩ E probeSolver covJitter covEvalGrad
      (twinJoint : GaussianProcess ℝ) freshR freshR).solverPoint = Mat.zero 2 1 := by
    rw [hraw.2.2, minimize_probe, haug]
  refine ⟨hpoint, ?_⟩
  rw [fitModel_K, hpoint, minimize_probe]
  have hframe := objective_frame ⟨Real.exp, Real.log, Real.arctan⟩ E
    (fitSetup (twinJoint : GaussianProcess ℝ)) (Mat.zero (fitSetup (twinJoint : GaussianProcess ℝ)).augParamCount 1)
  simp only [SameSettings] at hframe
  have hpc2 : (objective ⟨Real.exp, Real.log, Real.arctan⟩ E
      (fitSetup (twinJoint : GaussianProcess ℝ))
      (Mat.zero (fitSetup (twinJoint : GaussianProcess ℝ)).augParamCount 1)).gp.kernel.paramCount = 1 := by
    rw [hframe.2.1, hs.2.2.1, hpcount]
  have hKrows : (objective ⟨Real.exp, Real.log, Real.arctan⟩ E
      (fitSetup (twinJoint : GaussianProcess ℝ))
      (Mat.zero (fitSetup (twinJoint : GaussianProcess ℝ)).augParamCount 1)).gp.K.rows = 2 := by
    have hd := evalNLML_K_dims ⟨Real.exp, Real.log, Real.arctan⟩ E
      (fitSetup (twinJoint : GaussianProcess ℝ)) (Mat.zero (fitSetup (twinJoint : GaussianProcess ℝ)).augParamCount 1)
      (fitSetup (twinJoint : GaussianProcess ℝ)).cppOptLibgrad true
    have hx : (fitSetup (twinJoint : GaussianProcess ℝ)).obsX.rows = 2 := by
      rw [hs.2.2.2.2.2.2.2.2.1]; rfl
    rw [hx] at hd
    exact hd.1
  have hsize : (objective ⟨Real.exp, Real.log, Real.arctan⟩ E
      (fitSetup (twinJoint : GaussianProcess ℝ))
      (Mat.zero (fitSetup (twinJoint : GaussianProcess ℝ)).augParamCount 1)).gp.kernel.paramCount
      < ((Mat.zero 2 1 : Mat ℝ).map Real.exp).size := by
    rw [hpc2]; decide
  rw [computeCov_K_joint _ _ _ _ _ _ _ hsize, hKrows, squareForm_diag _ _ _ _ 0 (by decide)]
  have h1 : (1.0 : ℝ) = 1 := by norm_num
  simp [Mat.map, Mat.zero, h1]

/-- The diagonal of the covariance that the objective builds at the point
`(0, 0)` during the fit on the two coincident points: the jitter of the model
is on it. -/
theorem twinJoint_objective_diag (E : Eigen ℝ) :
    (objective ⟨Real.exp, Real.log, Real.arctan⟩ E (fitSetup (twinJoint : GaussianProcess ℝ))
      (Mat.zero 2 1)).gp.K.coeff 0 0 = 1 + Real.exp 0 + 1e-10 := by
  have hpcount : (twinJoint : GaussianProcess ℝ).kernel.paramCount = 1 := rfl
  have hs := fitSetup_fields (twinJoint : GaussianProcess ℝ)
  have hx : (fitSetup (twinJoint : GaussianProcess ℝ)).obsX.rows = 2 := by
    rw [hs.2.2.2.2.2.2.2.2.1]; rfl
  have hj : (fitSetup (twinJoint : GaussianProcess ℝ)).jitter = 1e-10 := by
    rw [hs.2.2.2.2.2.2.2.2.2.2.1]; rfl
  have h0 : 0 < (fitSetup (twinJoint : GaussianProcess ℝ)).obsX.rows := by rw [hx]; decide
  have h := evalNLML_K_entry E (fitSetup (twinJoint : GaussianProcess ℝ)) (Mat.zero 2 1)
    (fitSetup (twinJoint : GaussianProcess ℝ)).cppOptLibgrad true ⟨0, h0⟩ ⟨0, h0⟩
  have hlt : (fitSetup (twinJoint : GaussianProcess ℝ)).kernel.paramCount
      < (Mat.zero 2 1 : Mat ℝ).size := by
    rw [hs.2.2.1, hpcount]; decide
  rw [if_pos rfl, if_pos hlt, hj] at h
  exact h

/-- The diagonal of the cached covariance against that of the objective, on the
two coincident points with the solver returning its starting point `(0, 0)`:
the two agree exactly when the default jitter of the declaration of
`computeCov` is the jitter `1e-10` of the model.  The declaration with the
defaults is not among the sources, so `covJitter` stays a parameter. -/
theorem twinJoint_cached_diag_iff (E : Eigen ℝ) (covJitter : ℝ) (covEvalGrad : Bool) :
    (fitModel ⟨Real.exp, Real.log, Real.arctan⟩ E probeSolver covJitter covEvalGrad
        (twinJoint : GaussianProcess ℝ) freshR freshR).gp.K.coeff 0 0
      = (objective ⟨Real.exp, Real.log, Real.arctan⟩ E
          (fitSetup (twinJoint : GaussianProcess ℝ)) (Mat.zero 2 1)).gp.K.coeff 0 0
    ↔ covJitter = 1e-10 := by
  rw [(twinJoint_fit_diag E covJitter covEvalGrad).2, twinJoint_objective_diag E]
  constructor
  · intro h
    linarith
  · intro h
    rw [h]

end GP
